import Mathlib

/-!
# carl: constraints and the relationship oracle `compare`

Shallow embedding of `src/carl/formula/Constraint.h`.

* A polynomial is its constant part together with the ordered vector of its
  non-constant terms (leading term last).
* A constraint is the pair (left-hand side, relation) stored in a
  `ConstraintContent`; the modelled atom is `lhs ~ 0`.
* `compare` follows the source line by line: the assertion on the coprime
  factor of the second left-hand side (line 730), whose failure is the result
  `none`, normalisation of the two non-constant parts (lines 726-735), scaling
  of one constant part by `g` (lines 736-753), mirroring of one relation
  (lines 754-800) and the case table over the two relations (lines 806-975).
* A handle is the shared pointer `mpContent`; the pool of the live records with
  its id counter is a state, `intern` and `release` are its operations, and the
  operators on handles (lines 632-689) read the ids through the pointers.
* A record carries, next to the payload, its variables, the map of variable
  information and the factorization; the degree queries, `varInfo`, the bound
  classification and the lazily initialised factorization read and write
  these members.
* The state of `src/carl/util/TermAdditionManager.h` is the vector of maps
  with the two vectors of iterators; `getTermMapId`, `addTerm` and `readTerms`
  are its operations, and the capacity a map has after `reserve` is a
  parameter.
* The macro `CONSTRAINT_HASH` is computed on natural numbers modulo `2^64`.
* The comparison operators of `real_algebraic_number_thom` with a number follow
  `ran_thom.h` and `src/carl/thom/ThomEncoding.h`, with `compareRational` as a
  parameter.
* The Horner scheme of `src/carl/core/MultivariateHorner.tpp` is a tree of
  pointers; the recursive constructor and `simplify` count their recursion by
  fuel, the dereference of an iterator nothing was assigned to is the result
  `none`, and a scheme denotes a polynomial function.
-/

namespace carl

/-! ## Data model -/

/-- A variable is identified by its index. -/
abbrev Variable := Nat

/-- A non-constant monomial: variables with their exponents. -/
abbrev Monomial := List (Variable × Nat)

/-- A multivariate polynomial over the rationals: the constant part and the
non-constant terms (monomial and coefficient), in monomial order. -/
structure Pol where
  constantPart : ℚ
  terms : List (Monomial × ℚ)
  deriving DecidableEq

/-- The relation symbols of `carl::Relation`. -/
inductive Relation where
  | EQ
  | NEQ
  | LESS
  | LEQ
  | GREATER
  | GEQ
  deriving DecidableEq, Repr

/-- A constraint `lhs ~ 0`: the payload `mLhs`, `mRelation` of a
`ConstraintContent`. -/
structure Constraint where
  lhs : Pol
  relation : Relation
  deriving DecidableEq

/-- Polynomial minus a number (`lhs() - c`): only the constant part changes. -/
def Pol.subNum (p : Pol) (c : ℚ) : Pol :=
  ⟨p.constantPart - c, p.terms⟩

/-- Polynomial times a number (`* one_divided_by_a`): every coefficient is
multiplied; the product with zero is the zero polynomial. -/
def Pol.mulNum (p : Pol) (f : ℚ) : Pol :=
  if f = 0 then ⟨0, []⟩
  else ⟨p.constantPart * f, p.terms.map (fun t => (t.1, t.2 * f))⟩

/-- The polynomial `a * q + c`: the non-constant terms of `q` scaled by `a`,
with constant part `c`. -/
def Pol.affine (a : ℚ) (q : Pol) (c : ℚ) : Pol :=
  ⟨c, q.terms.map (fun t => (t.1, a * t.2))⟩

/-- Modelled from the spec: `carl::inverse` (Relation.h is not part of the
sources at hand) maps EQ to NEQ, LESS to GEQ, GREATER to LEQ and back. -/
def inverse : Relation → Relation
  | Relation.EQ => Relation.NEQ
  | Relation.NEQ => Relation.EQ
  | Relation.LESS => Relation.GEQ
  | Relation.GEQ => Relation.LESS
  | Relation.GREATER => Relation.LEQ
  | Relation.LEQ => Relation.GREATER

/-- `Constraint::negation()` (lines 591-594): the constraint built from the same
left-hand side and the inverse relation. -/
def Constraint.negation (c : Constraint) : Constraint :=
  ⟨c.lhs, inverse c.relation⟩

/-- Modelled from the spec: the atom `lhs ~ 0` holds for a value `v` of the
left-hand side when `v` stands in the relation to zero. -/
def Relation.holds {K : Type} [LinearOrderedField K] (r : Relation) (v : K) : Prop :=
  match r with
  | Relation.EQ => v = 0
  | Relation.NEQ => v ≠ 0
  | Relation.LESS => v < 0
  | Relation.LEQ => v ≤ 0
  | Relation.GREATER => 0 < v
  | Relation.GEQ => 0 ≤ v

/-! ## The coprime factor -/

/-- Modelled from the spec: `coprimeFactorWithoutConstant` of
MultivariatePolynomial (not part of the sources at hand), the "canonical
coprime scalar": the lcm of the denominators of the non-constant coefficients
divided by the gcd of their numerators, signed like the leading coefficient, so
that proportional polynomials are normalised to the same polynomial. -/
def Pol.coprimeFactorWithoutConstant (p : Pol) : ℚ :=
  let num : Nat := p.terms.foldr (fun t g => Nat.gcd t.2.num.natAbs g) 0
  let den : Nat := p.terms.foldr (fun t l => Nat.lcm t.2.den l) 1
  let sign : ℚ :=
    match p.terms.getLast? with
    | some t => if t.2 < 0 then -1 else 1
    | none => 1
  sign * (den : ℚ) / (num : ℚ)

/-! ## compare -/

/-- Outcome `_constraintA = _constraintB` (line 692). -/
def A_IFF_B : Int := 2
/-- Outcome `_constraintA -> _constraintB` (line 693). -/
def A_IMPLIES_B : Int := 1
/-- Outcome `_constraintB -> _constraintA` (line 694). -/
def B_IMPLIES_A : Int := -1
/-- Outcome `not(_constraintA and _constraintB)` (line 695). -/
def NOT__A_AND_B : Int := -2
/-- Outcome `_constraintA and _constraintB = _constraintC` (line 696). -/
def A_AND_B__IFF_C : Int := -3
/-- Outcome `_constraintA xor _constraintB` (line 697). -/
def A_XOR_B : Int := -4

/-- The relation switch applied after a multiplication by a negative `g`
(lines 760-775 and 779-796): LEQ and GEQ, LESS and GREATER change places. -/
def turnAround : Relation → Relation
  | Relation.LEQ => Relation.GEQ
  | Relation.GEQ => Relation.LEQ
  | Relation.LESS => Relation.GREATER
  | Relation.GREATER => Relation.LESS
  | r => r

/-- The case table of `compare` (lines 806-975) on the adapted relations and
constant parts: the atoms are `p + c ~A 0` and `p + d ~B 0`. -/
def compareTable {K : Type} [LinearOrderedField K] (relA relB : Relation) (c d : K) : Int :=
  match relB with
  | Relation.EQ =>
    match relA with
    | Relation.EQ => if c = d then A_IFF_B else NOT__A_AND_B
    | Relation.NEQ => if c = d then A_XOR_B else B_IMPLIES_A
    | Relation.LESS => if c < d then B_IMPLIES_A else NOT__A_AND_B
    | Relation.GREATER => if c > d then B_IMPLIES_A else NOT__A_AND_B
    | Relation.LEQ => if c ≤ d then B_IMPLIES_A else NOT__A_AND_B
    | Relation.GEQ => if c ≥ d then B_IMPLIES_A else NOT__A_AND_B
  | Relation.NEQ =>
    match relA with
    | Relation.EQ => if c = d then A_XOR_B else A_IMPLIES_B
    | Relation.NEQ => if c = d then A_IFF_B else 0
    | Relation.LESS => if c ≥ d then A_IMPLIES_B else 0
    | Relation.GREATER => if c ≤ d then A_IMPLIES_B else 0
    | Relation.LEQ => if c > d then A_IMPLIES_B else if c = d then A_AND_B__IFF_C else 0
    | Relation.GEQ => if c < d then A_IMPLIES_B else if c = d then A_AND_B__IFF_C else 0
  | Relation.LESS =>
    match relA with
    | Relation.EQ => if c > d then A_IMPLIES_B else NOT__A_AND_B
    | Relation.NEQ => if c ≤ d then B_IMPLIES_A else 0
    | Relation.LESS => if c = d then A_IFF_B else if c < d then B_IMPLIES_A else A_IMPLIES_B
    | Relation.GREATER => if c ≤ d then NOT__A_AND_B else 0
    | Relation.LEQ => if c > d then A_IMPLIES_B else B_IMPLIES_A
    | Relation.GEQ => if c < d then NOT__A_AND_B else if c = d then A_XOR_B else 0
  | Relation.GREATER =>
    match relA with
    | Relation.EQ => if c < d then A_IMPLIES_B else NOT__A_AND_B
    | Relation.NEQ => if c ≥ d then B_IMPLIES_A else 0
    | Relation.LESS => if c ≥ d then NOT__A_AND_B else 0
    | Relation.GREATER => if c = d then A_IFF_B else if c > d then B_IMPLIES_A else A_IMPLIES_B
    | Relation.LEQ => if c > d then NOT__A_AND_B else if c = d then A_XOR_B else 0
    | Relation.GEQ => if c > d then B_IMPLIES_A else A_IMPLIES_B
  | Relation.LEQ =>
    match relA with
    | Relation.EQ => if c ≥ d then A_IMPLIES_B else NOT__A_AND_B
    | Relation.NEQ => if c < d then B_IMPLIES_A else if c = d then A_AND_B__IFF_C else 0
    | Relation.LESS => if c < d then B_IMPLIES_A else A_IMPLIES_B
    | Relation.GREATER => if c < d then NOT__A_AND_B else if c = d then A_XOR_B else 0
    | Relation.LEQ => if c = d then A_IFF_B else if c < d then B_IMPLIES_A else A_IMPLIES_B
    | Relation.GEQ => if c < d then NOT__A_AND_B else if c = d then A_AND_B__IFF_C else 0
  | Relation.GEQ =>
    match relA with
    | Relation.EQ => if c ≤ d then A_IMPLIES_B else NOT__A_AND_B
    | Relation.NEQ => if c > d then B_IMPLIES_A else if c = d then A_AND_B__IFF_C else 0
    | Relation.LESS => if c > d then NOT__A_AND_B else if c = d then A_XOR_B else 0
    | Relation.GREATER => if c < d then B_IMPLIES_A else A_IMPLIES_B
    | Relation.LEQ => if c > d then NOT__A_AND_B else if c = d then A_AND_B__IFF_C else 0
    | Relation.GEQ => if c = d then A_IFF_B else if c < d then A_IMPLIES_B else B_IMPLIES_A

/-- The assertion of line 730: the absolute value of the coprime factor of B's
left-hand side has numerator one. -/
def compareAssertion (coprimeFactor : Pol → ℚ) (B : Constraint) : Bool :=
  decide ((|coprimeFactor B.lhs|).num = 1)

/-- The lines 731-976 of `compare`, which follow the assertion: the value
returned by the function when its assertion holds. -/
def compareValue (coprimeFactor : Pol → ℚ) (A B : Constraint) : Int :=
  let one_divided_by_a := coprimeFactor A.lhs
  let one_divided_by_b := coprimeFactor B.lhs
  let c := A.lhs.constantPart
  let d := B.lhs.constantPart
  let tmpA := (A.lhs.subNum c).mulNum one_divided_by_a
  let tmpB := (B.lhs.subNum d).mulNum one_divided_by_b
  if tmpA ≠ tmpB then 0
  else
    let signsDiffer : Bool := decide (one_divided_by_a < 0) != decide (one_divided_by_b < 0)
    if one_divided_by_a.den > one_divided_by_b.den then
      let g0 : ℚ := (one_divided_by_a.den : ℚ) / (one_divided_by_b.den : ℚ)
      let g : ℚ := if signsDiffer then -g0 else g0
      let d := d * g
      -- termACoeffGreater: the relation of B is turned around
      let relB := if g < 0 then turnAround B.relation else B.relation
      compareTable A.relation relB c d
    else
      let g0 : ℚ := (one_divided_by_b.den : ℚ) / (one_divided_by_a.den : ℚ)
      let g : ℚ := if signsDiffer then -g0 else g0
      let c := c * g
      let relA := if g < 0 then turnAround A.relation else A.relation
      compareTable relA B.relation c d

/-- The function `compare` (lines 709-976). The result is `none` when the
assertion of line 730 fails, which stands before the test of line 735;
otherwise it is the value returned. The coprime factor of a polynomial without
its constant part is a member of MultivariatePolynomial and enters as the
parameter `coprimeFactor`. -/
def compare (coprimeFactor : Pol → ℚ) (A B : Constraint) : Option Int :=
  let one_divided_by_a := coprimeFactor A.lhs
  let one_divided_by_b := coprimeFactor B.lhs
  let c := A.lhs.constantPart
  let d := B.lhs.constantPart
  if ¬ ((|one_divided_by_b|).num = 1) then none
  else
    let tmpA := (A.lhs.subNum c).mulNum one_divided_by_a
    let tmpB := (B.lhs.subNum d).mulNum one_divided_by_b
    if tmpA ≠ tmpB then some 0
    else
      let signsDiffer : Bool := decide (one_divided_by_a < 0) != decide (one_divided_by_b < 0)
      if one_divided_by_a.den > one_divided_by_b.den then
        let g0 : ℚ := (one_divided_by_a.den : ℚ) / (one_divided_by_b.den : ℚ)
        let g : ℚ := if signsDiffer then -g0 else g0
        let d := d * g
        -- termACoeffGreater: the relation of B is turned around
        let relB := if g < 0 then turnAround B.relation else B.relation
        some (compareTable A.relation relB c d)
      else
        let g0 : ℚ := (one_divided_by_b.den : ℚ) / (one_divided_by_a.den : ℚ)
        let g : ℚ := if signsDiffer then -g0 else g0
        let c := c * g
        let relA := if g < 0 then turnAround A.relation else A.relation
        some (compareTable relA B.relation c d)

/-- A comparable pair: the left-hand sides of `A` and `B` are `a * q + c` and
`b * q + d` for one non-constant `q` and nonzero integers `a`, `b`, and the
coprime factors of the two left-hand sides are `1 / a` and `1 / b`, that is `q`
is the common normalised non-constant part. -/
structure Comparable (coprimeFactor : Pol → ℚ) (A B : Constraint) (q : Pol) (a b : ℤ)
    (c d : ℚ) : Prop where
  nonconstant : q.terms ≠ []
  a_ne : a ≠ 0
  b_ne : b ≠ 0
  lhsA : A.lhs = Pol.affine a q c
  lhsB : B.lhs = Pol.affine b q d
  factorA : coprimeFactor A.lhs = 1 / (a : ℚ)
  factorB : coprimeFactor B.lhs = 1 / (b : ℚ)

/-- The non-constant coefficients of `q` are coprime integers and the leading
coefficient is positive: `q` is its own normalised form. -/
def Pol.IsNormalised (q : Pol) : Prop :=
  (∀ t ∈ q.terms, t.2.den = 1) ∧
  q.terms.foldr (fun t g => Nat.gcd t.2.num.natAbs g) 0 = 1 ∧
  ∃ t, q.terms.getLast? = some t ∧ 0 < t.2

/-- The polynomial `x` in the variable with index 0. -/
def xPol : Pol := ⟨0, [([(0, 1)], 1)]⟩

/-- The polynomial `y` in the variable with index 1. -/
def yPol : Pol := ⟨0, [([(1, 1)], 1)]⟩

/-- The polynomial `x / 2` in the variable with index 0. -/
def halfXPol : Pol := ⟨0, [([(0, 1)], 1 / 2)]⟩

/-- The polynomial `y / 2` in the variable with index 1. -/
def halfYPol : Pol := ⟨0, [([(1, 1)], 1 / 2)]⟩

/-! ## The constraint pool -/

/-- The payload of a `ConstraintContent` (lines 86-91): the id `mID`, the
relation `mRelation` and the left-hand side `mLhs`. -/
structure ConstraintContent where
  mID : Nat
  mRelation : Relation
  mLhs : Pol
  deriving DecidableEq

/-- `operator==` on constraint contents (lines 192-195): equality of the ids. -/
def ConstraintContent.eq (lhs rhs : ConstraintContent) : Bool :=
  decide (lhs.mID = rhs.mID)

/-- A live record: the address of the content object in memory and the
content stored there. -/
structure PoolEntry where
  address : Nat
  content : ConstraintContent
  deriving DecidableEq

/-- Modelled from the spec: the ConstraintStore (class ConstraintPool, not
part of the sources at hand): the key table of the live records and the
counter of the next id. -/
structure ConstraintPool where
  mConstraints : List PoolEntry
  mIdAllocator : Nat

/-- A constraint handle (class `Constraint`, lines 215-224): the shared pointer
`mpContent`, given by the address it points to. -/
structure Handle where
  mpContent : Nat
  deriving DecidableEq

/-- Modelled from the spec: the lookup of step 2 of `intern`, an existing live
record with equal key `(lhs, relation)`, equality of `lhs` by value. -/
def ConstraintPool.find (s : ConstraintPool) (lhs : Pol) (rel : Relation) : Option PoolEntry :=
  s.mConstraints.find? (fun e => decide (e.content.mLhs = lhs ∧ e.content.mRelation = rel))

/-- An address at which no live record is stored. -/
def ConstraintPool.freshAddress (s : ConstraintPool) : Nat :=
  (s.mConstraints.map PoolEntry.address).foldr max 0 + 1

/-- Modelled from the spec: `intern(lhs, relation)`. An existing live record
with equal key is returned; otherwise the next id is allocated, the record is
constructed and inserted into the key table. -/
def ConstraintPool.intern (s : ConstraintPool) (lhs : Pol) (rel : Relation) :
    Handle × ConstraintPool :=
  match s.find lhs rel with
  | some e => (⟨e.address⟩, s)
  | none =>
    (⟨s.freshAddress⟩,
      ⟨⟨s.freshAddress, ⟨s.mIdAllocator, rel, lhs⟩⟩ :: s.mConstraints, s.mIdAllocator + 1⟩)

/-- Modelled from the spec: `release(record)`, called from the destructor
`~ConstraintContent` (lines 138-140): the entry of this exact record is removed
from the key table; the id counter is untouched. -/
def ConstraintPool.release (s : ConstraintPool) (h : Handle) : ConstraintPool :=
  ⟨s.mConstraints.filter (fun e => decide (e.address ≠ h.mpContent)), s.mIdAllocator⟩

/-- The content a handle points to, if the record is live. -/
def ConstraintPool.content (s : ConstraintPool) (h : Handle) : Option ConstraintContent :=
  (s.mConstraints.find? (fun e => decide (e.address = h.mpContent))).map PoolEntry.content

/-- `Constraint::id()` (lines 291-294): the id of the content pointed to. -/
def Handle.id (s : ConstraintPool) (h : Handle) : Option Nat :=
  (s.content h).map ConstraintContent.mID

/-- `operator==` on constraints (lines 632-635): equality of the pointers. -/
def Handle.eq (lhs rhs : Handle) : Bool :=
  decide (lhs.mpContent = rhs.mpContent)

/-- `operator!=` on constraints (lines 642-645): inequality of the pointers. -/
def Handle.ne (lhs rhs : Handle) : Bool :=
  decide (lhs.mpContent ≠ rhs.mpContent)

/-- The comparison operators on constraints (lines 652-689) share one shape:
both ids must be nonzero (the assertion), then the ids are compared. -/
def Handle.compareIds (op : Nat → Nat → Bool) (s : ConstraintPool) (lhs rhs : Handle) :
    Option Bool :=
  match lhs.id s, rhs.id s with
  | some i, some j => if i ≠ 0 ∧ j ≠ 0 then some (op i j) else none
  | _, _ => none

/-- `operator<` on constraints (lines 652-656). -/
def Handle.lt (s : ConstraintPool) (lhs rhs : Handle) : Option Bool :=
  Handle.compareIds (fun i j => decide (i < j)) s lhs rhs

/-- `operator>` on constraints (lines 663-667). -/
def Handle.gt (s : ConstraintPool) (lhs rhs : Handle) : Option Bool :=
  Handle.compareIds (fun i j => decide (i > j)) s lhs rhs

/-- `operator<=` on constraints (lines 674-678). -/
def Handle.le (s : ConstraintPool) (lhs rhs : Handle) : Option Bool :=
  Handle.compareIds (fun i j => decide (i ≤ j)) s lhs rhs

/-- `operator>=` on constraints (lines 685-689). -/
def Handle.ge (s : ConstraintPool) (lhs rhs : Handle) : Option Bool :=
  Handle.compareIds (fun i j => decide (i ≥ j)) s lhs rhs

/-- `Constraint::negation()` on handles (lines 591-594): the constraint
constructed from the left-hand side and the inverse relation of the content. -/
def Handle.negation (s : ConstraintPool) (h : Handle) : Option (Handle × ConstraintPool) :=
  (s.content h).map (fun c => s.intern c.mLhs (inverse c.mRelation))

/-- The zero polynomial. -/
def zeroPol : Pol := ⟨0, []⟩

/-- The operations on the pool. -/
inductive PoolOp where
  | intern (lhs : Pol) (rel : Relation)
  | release (h : Handle)

/-- One operation on the pool. -/
def ConstraintPool.step (s : ConstraintPool) : PoolOp → ConstraintPool
  | PoolOp.intern lhs rel => (s.intern lhs rel).2
  | PoolOp.release h => s.release h

/-- A sequence of operations on the pool. -/
def ConstraintPool.run (s : ConstraintPool) (ops : List PoolOp) : ConstraintPool :=
  ops.foldl ConstraintPool.step s

/-- Modelled from the spec: the pool before any record is constructed; ids
start at 1, the id 0 is reserved for "uninitialized". -/
def ConstraintPool.empty : ConstraintPool := ⟨[], 1⟩

/-- Modelled from the spec: the pool at initialisation, with the two canonical
constraints `0 = 0` and `0 != 0` interned. -/
def ConstraintPool.init : ConstraintPool :=
  ConstraintPool.empty.run
    [PoolOp.intern zeroPol Relation.EQ, PoolOp.intern zeroPol Relation.NEQ]

/-- The invariants I1 and I2 of the pool: the live records have ids that are
nonzero and below the counter, and pairwise different addresses, ids and
keys. -/
def ConstraintPool.Invariant (s : ConstraintPool) : Prop :=
  0 < s.mIdAllocator ∧
  (∀ e ∈ s.mConstraints, 0 < e.content.mID ∧ e.content.mID < s.mIdAllocator) ∧
  s.mConstraints.Pairwise (fun e1 e2 =>
    e1.address ≠ e2.address ∧ e1.content.mID ≠ e2.content.mID ∧
    ¬ (e1.content.mLhs = e2.content.mLhs ∧ e1.content.mRelation = e2.content.mRelation))

/-- Modelled from the spec: the value of the left-hand side under an
assignment of the variables. -/
def Pol.eval {K : Type} [LinearOrderedField K] (σ : Variable → K) (p : Pol) : K :=
  (p.constantPart : K) +
    (p.terms.map (fun t => (t.2 : K) * (t.1.map (fun ve => σ ve.1 ^ ve.2)).prod)).sum

/-- Modelled from the spec: a constraint content `lhs ~ 0` is satisfied by an
assignment when the value of its left-hand side stands in its relation to
zero. -/
def ConstraintContent.satisfiedBy {K : Type} [LinearOrderedField K] (c : ConstraintContent)
    (σ : Variable → K) : Prop :=
  c.mRelation.holds (c.mLhs.eval σ)

/-- The initialisation of the pool followed by the request of `x < 0`. -/
def ops3 : List PoolOp :=
  [PoolOp.intern zeroPol Relation.EQ, PoolOp.intern zeroPol Relation.NEQ,
    PoolOp.intern xPol Relation.LESS]

/-- Modelled from the spec: the per-variable information `VarInfo` (class
VariableInformation, not part of the sources at hand): maximal degree, minimal
degree, number of occurrences and, when requested, the coefficients by
degree. -/
structure VarInfo where
  mMaxDegree : Nat
  mMinDegree : Nat
  mOccurence : Nat
  mCoeffs : List (Nat × Pol)
  deriving DecidableEq

/-- The accessor `hasCoeff()` of a variable information: coefficients are
stored. -/
def VarInfo.hasCoeff (vi : VarInfo) : Bool :=
  !vi.mCoeffs.isEmpty

/-- The members of a `ConstraintContent` (lines 86-109) : the payload together
with the variables `mVariables`, the factorization `mFactorization` and the
map `mVarInfoMap` from variables to their information. -/
structure ConstraintRecord where
  content : ConstraintContent
  mVariables : List Variable
  mFactorization : List (Pol × Nat)
  mVarInfoMap : List (Variable × VarInfo)

/-- The exponent of a variable in a monomial. -/
def Monomial.exponentOf (m : Monomial) (v : Variable) : Nat :=
  match m.lookup v with
  | some e => e
  | none => 0

/-- Modelled from the spec: `has(variable)` of the polynomial engine. -/
def Pol.has (p : Pol) (v : Variable) : Bool :=
  p.terms.any (fun t => decide (Monomial.exponentOf t.1 v ≠ 0))

/-- Modelled from the spec: `variables()` of the polynomial engine, the
variables occurring in the polynomial, each once. -/
def Pol.variableList (p : Pol) : List Variable :=
  ((p.terms.flatMap (fun t => t.1.map Prod.fst)).filter (fun v => p.has v)).dedup

/-- Modelled from the spec: the information on one variable computed from the
left-hand side, maximal and minimal degree over the terms in which the
variable occurs and the number of these terms; `withCoefficients` asks for
the coefficients by degree. -/
def Pol.getVarInfoOf (withCoefficients : Bool) (p : Pol) (v : Variable) : VarInfo :=
  let occ := p.terms.filter (fun t => decide (Monomial.exponentOf t.1 v ≠ 0))
  let exps := occ.map (fun t => Monomial.exponentOf t.1 v)
  ⟨exps.foldr max 0,
    (match exps with
      | [] => 0
      | e :: es => es.foldr min e),
    exps.length,
    if withCoefficients then
      occ.map (fun t => (Monomial.exponentOf t.1 v,
        (⟨0, [(t.1.filter (fun ve => decide (ve.1 ≠ v)), t.2)]⟩ : Pol)))
    else []⟩

/-- Modelled from the spec: `getVarInfo<false>()`, the information on every
variable of the polynomial. -/
def Pol.getVarInfo (p : Pol) : List (Variable × VarInfo) :=
  p.variableList.map (fun v => (v, p.getVarInfoOf false v))

/-- Modelled from the spec: `lterm().coeff()`, the coefficient of
the last non-constant term, or the constant part of a constant polynomial. -/
def Pol.lcoeff (p : Pol) : ℚ :=
  match p.terms.getLast? with
  | some t => t.2
  | none => p.constantPart

/-- `initVariableInformations()` (lines 126-131): the entries delivered by
`getVarInfo` are put into `mVarInfoMap`; an entry whose variable has one
already is not inserted. -/
def ConstraintRecord.initVariableInformations (r : ConstraintRecord) : ConstraintRecord :=
  { r with mVarInfoMap := r.mVarInfoMap ++
      (r.content.mLhs.getVarInfo.filter (fun e => (r.mVarInfoMap.lookup e.1).isNone)) }

/-- Modelled from the spec: the construction of a record, `variables` computed
from the left-hand side, the factorization left empty, the variable
information built by `initVariableInformations`. -/
def ConstraintRecord.make (id : Nat) (lhs : Pol) (rel : Relation) : ConstraintRecord :=
  ConstraintRecord.initVariableInformations ⟨⟨id, rel, lhs⟩, lhs.variableList, [], []⟩

/-- `ConstraintContent::maxDegree(var)` (lines 167-171). -/
def ConstraintRecord.maxDegreeOf (r : ConstraintRecord) (_variable : Variable) : Nat :=
  match r.mVarInfoMap.lookup _variable with
  | none => 0
  | some varInfo => varInfo.mMaxDegree

/-- `ConstraintContent::maxDegree()` (lines 176-183): the loop over the
variables. -/
def ConstraintRecord.maxDegree (r : ConstraintRecord) : Nat :=
  r.mVariables.foldl
    (fun result var => if r.maxDegreeOf var > result then r.maxDegreeOf var else result) 0

/-- `Constraint::minDegree(var)` (lines 360-366). -/
def ConstraintRecord.minDegree (r : ConstraintRecord) (_variable : Variable) : Nat :=
  match r.mVarInfoMap.lookup _variable with
  | none => 0
  | some varInfo => varInfo.mMinDegree

/-- `Constraint::occurences(var)` (lines 373-379). -/
def ConstraintRecord.occurences (r : ConstraintRecord) (_variable : Variable) : Nat :=
  match r.mVarInfoMap.lookup _variable with
  | none => 0
  | some varInfo => varInfo.mOccurence

/-- Assignment through the iterator of `mVarInfoMap`: the entry of the
variable is replaced, all other entries stay. -/
def setVarInfo (m : List (Variable × VarInfo)) (v : Variable) (vi : VarInfo) :
    List (Variable × VarInfo) :=
  m.map (fun e => if e.1 = v then (e.1, vi) else e)

/-- `Constraint::varInfo(var, withCoefficients)` (lines 389-399): `none` is the
failed assertion; otherwise the entry is returned, after it was replaced by
`getVarInfo<true>(var)` when coefficients are asked for and not stored. The
record is returned with the map as the call leaves it. -/
def ConstraintRecord.varInfo (r : ConstraintRecord) (_variable : Variable)
    (_withCoefficients : Bool) : Option (VarInfo × ConstraintRecord) :=
  match r.mVarInfoMap.lookup _variable with
  | none => none
  | some varInfo =>
    if _withCoefficients && !varInfo.hasCoeff then
      some (r.content.mLhs.getVarInfoOf true _variable,
        { r with mVarInfoMap :=
            setVarInfo r.mVarInfoMap _variable (r.content.mLhs.getVarInfoOf true _variable) })
    else some (varInfo, r)

/-- `Constraint::isBound(negated)` (lines 458-466). -/
def ConstraintRecord.isBound (r : ConstraintRecord) (negated : Bool) : Bool :=
  if r.mVariables.length ≠ 1 ∨ r.maxDegreeOf (r.mVariables.headD 0) ≠ 1 then false
  else if negated then decide (r.content.mRelation ≠ Relation.EQ)
  else decide (r.content.mRelation ≠ Relation.NEQ)

/-- `Constraint::isLowerBound()` (lines 471-486); `none` is the failed
assertion `coeff > 0`. -/
def ConstraintRecord.isLowerBound (r : ConstraintRecord) : Option Bool :=
  if r.isBound false then
    if r.content.mRelation = Relation.EQ then some true
    else if r.content.mLhs.lcoeff < 0 then
      some (decide (r.content.mRelation = Relation.LEQ ∨ r.content.mRelation = Relation.LESS))
    else if r.content.mLhs.lcoeff > 0 then
      some (decide (r.content.mRelation = Relation.GEQ ∨ r.content.mRelation = Relation.GREATER))
    else none
  else some false

/-- `Constraint::isUpperBound()` (lines 491-506); `none` is the failed
assertion `coeff < 0`. -/
def ConstraintRecord.isUpperBound (r : ConstraintRecord) : Option Bool :=
  if r.isBound false then
    if r.content.mRelation = Relation.EQ then some true
    else if r.content.mLhs.lcoeff > 0 then
      some (decide (r.content.mRelation = Relation.LEQ ∨ r.content.mRelation = Relation.LESS))
    else if r.content.mLhs.lcoeff < 0 then
      some (decide (r.content.mRelation = Relation.GEQ ∨ r.content.mRelation = Relation.GREATER))
    else none
  else some false

/-- A record together with the number of calls of `initFactorization` made on
it so far. -/
structure FactorizationState where
  record : ConstraintRecord
  initCalls : Nat

/-- The first lines of `hasFactorization` and `factorization` (lines 310-312
and 322-324): `initFactorization` is called when `mFactorization` is empty. The
function `initFactorization` (declared in line 124) enters as the content it
leaves in `mFactorization`. -/
def FactorizationState.ensure (initFactorization : ConstraintRecord → List (Pol × Nat))
    (s : FactorizationState) : FactorizationState :=
  if s.record.mFactorization.isEmpty then
    ⟨{ s.record with mFactorization := initFactorization s.record }, s.initCalls + 1⟩
  else s

/-- `Constraint::hasFactorization()` (lines 308-315). -/
def FactorizationState.hasFactorization
    (initFactorization : ConstraintRecord → List (Pol × Nat)) (s : FactorizationState) :
    Bool × FactorizationState :=
  (decide ((s.ensure initFactorization).record.mFactorization.length > 1),
    s.ensure initFactorization)

/-- `Constraint::factorization()` (lines 320-327). -/
def FactorizationState.factorization
    (initFactorization : ConstraintRecord → List (Pol × Nat)) (s : FactorizationState) :
    List (Pol × Nat) × FactorizationState :=
  ((s.ensure initFactorization).record.mFactorization, s.ensure initFactorization)

/-- A sequence of later calls: `true` stands for `hasFactorization()`, `false`
for `factorization()`. -/
def FactorizationState.calls (initFactorization : ConstraintRecord → List (Pol × Nat))
    (s : FactorizationState) (which : List Bool) : FactorizationState :=
  which.foldl (fun st w =>
    if w then (st.hasFactorization initFactorization).2
    else (st.factorization initFactorization).2) s

/-- The polynomial `a * x + b` in the variable `x`. -/
def Pol.linear (x : Variable) (a b : ℚ) : Pol := ⟨b, [([(x, 1)], a)]⟩

/-! ## The term addition manager -/

/-- A term: its coefficient and its monomial, `none` for the null pointer of a
constant term. -/
structure Term where
  coeff : ℚ
  monomial : Option Monomial
  deriving DecidableEq

/-- The type `MapType` (line 26): the entries of one equal-term-detection map,
a monomial pointer as key and the term stored for it, in the order in which
the map is traversed. -/
abbrev MapType := List (Option Monomial × Term)

/-- An iterator of a map: `none` is the end marker, `some key` points to the
entry with that key. -/
abbrev MapIterator := Option (Option Monomial)

/-- Dereferencing an iterator: the term of the entry it points to. There is no
value for the end marker and none for an iterator whose entry was erased. -/
def MapIterator.second (map : MapType) (it : MapIterator) : Option Term :=
  match it with
  | none => none
  | some key => map.lookup key

/-- The call `erase(iterator)` on a map. -/
def MapIterator.erase (map : MapType) (it : MapIterator) : MapType :=
  match it with
  | none => map
  | some key => map.filter (fun entry => decide (entry.1 ≠ key))

/-- The members of a `TermAdditionManager` (lines 28-46); a user is given by
its address, `none` is the null pointer. The list `mCapacity` holds for every
map the value of its member `capacity()`. -/
structure TermAdditionManager where
  mNextMapId : Nat
  mUsers : List (Option Nat)
  mTermMaps : List MapType
  mCapacity : List Nat
  mLeadingTerms : List MapIterator
  mConstantTerms : List MapIterator
  deriving DecidableEq

/-- The constructor (lines 56-62). -/
def TermAdditionManager.create (_numberOfMaps : Nat) : TermAdditionManager :=
  ⟨0, List.replicate _numberOfMaps none, List.replicate _numberOfMaps [],
    List.replicate _numberOfMaps 0, List.replicate _numberOfMaps none,
    List.replicate _numberOfMaps none⟩

/-- `getTermMapId(_user, _expectedSize)` (lines 83-95): `none` is a failed
assertion or an access outside of the vectors; otherwise the id of the
reserved map and the manager afterwards. The container type of the maps is not
part of the sources at hand: of the capacity after `reserve(_expectedSize)`
only this is taken, that it is not below the capacity before and not below
the reserved size; the parameter `capacity` is the value the container
chooses. -/
def TermAdditionManager.getTermMapId (M : TermAdditionManager) (_user : Nat)
    (_expectedSize : Nat) (capacity : Nat) : Option (Nat × TermAdditionManager) :=
  match M.mUsers[M.mNextMapId]?, M.mTermMaps[M.mNextMapId]?,
      M.mLeadingTerms[M.mNextMapId]?, M.mConstantTerms[M.mNextMapId]? with
  | some none, some [], some none, some none =>
    some (M.mNextMapId,
      ⟨(M.mNextMapId + 1) % M.mTermMaps.length,
        M.mUsers.set M.mNextMapId (some _user),
        M.mTermMaps,
        M.mCapacity.set M.mNextMapId
          (max (M.mCapacity.getD M.mNextMapId 0) (max capacity _expectedSize)),
        M.mLeadingTerms,
        M.mConstantTerms⟩)
  | _, _, _, _ => none

/-- `addTerm(_user, _id, _term)` (lines 103-132) ; `less` is the order
`operator<` on monomials, which is not part of the sources at hand. The result
`none` is a failed assertion or the use of an iterator that has no value. -/
def TermAdditionManager.addTerm (less : Monomial → Monomial → Bool) (M : TermAdditionManager)
    (_user : Nat) (_id : Nat) (_term : Term) : Option TermAdditionManager :=
  if M.mUsers[_id]? ≠ some (some _user) then none
  else if ¬ ((M.mTermMaps.getD _id []).length < M.mCapacity.getD _id 0) then none
  else
    match (M.mTermMaps.getD _id []).lookup _term.monomial with
    | none =>
      match _term.monomial with
      | none =>
        if M.mConstantTerms.getD _id none ≠ none then none
        else some { M with
          mTermMaps := M.mTermMaps.set _id (M.mTermMaps.getD _id [] ++ [(_term.monomial, _term)])
          mConstantTerms := M.mConstantTerms.set _id (some none) }
      | some mon =>
        match M.mLeadingTerms.getD _id none with
        | none => some { M with
            mTermMaps := M.mTermMaps.set _id (M.mTermMaps.getD _id [] ++ [(_term.monomial, _term)])
            mLeadingTerms := M.mLeadingTerms.set _id (some (some mon)) }
        | some none => none
        | some (some lead) =>
          if ((M.mTermMaps.getD _id []).lookup (some lead)).isNone then none
          else if less lead mon then some { M with
            mTermMaps := M.mTermMaps.set _id (M.mTermMaps.getD _id [] ++ [(_term.monomial, _term)])
            mLeadingTerms := M.mLeadingTerms.set _id (some (some mon)) }
          else some { M with
            mTermMaps := M.mTermMaps.set _id
              (M.mTermMaps.getD _id [] ++ [(_term.monomial, _term)]) }
    | some stored =>
      if stored.coeff + _term.coeff = 0 then
        some { M with
          mTermMaps := M.mTermMaps.set _id
            (MapIterator.erase (M.mTermMaps.getD _id []) (some _term.monomial)) }
      else
        some { M with
          mTermMaps := M.mTermMaps.set _id
            ((M.mTermMaps.getD _id []).map (fun entry =>
              if entry.1 = _term.monomial
              then (entry.1, ⟨stored.coeff + _term.coeff, _term.monomial⟩) else entry)) }

/-- `readTerms(_user, _id, _terms)` (lines 143-172): the vector `_terms` as the
call fills it and the manager afterwards. The calls `erase`, `begin`, `end`
and `clear` written on `mTermMaps` are read on the map `mcMap` of the id. The
result `none` is the failed assertion or the use of an iterator that has no
value. -/
def TermAdditionManager.readTerms (M : TermAdditionManager) (_user : Nat) (_id : Nat) :
    Option (List Term × TermAdditionManager) :=
  if M.mUsers[_id]? ≠ some (some _user) then none
  else
    let mcMap := M.mTermMaps.getD _id []
    let leading := M.mLeadingTerms.getD _id none
    let constant := M.mConstantTerms.getD _id none
    if leading ≠ none ∧ (MapIterator.second mcMap leading).isNone then none
    else if constant ≠ none ∧
        (MapIterator.second (MapIterator.erase mcMap leading) constant).isNone then none
    else
      some ((MapIterator.second mcMap leading).toList ++
          ((MapIterator.erase (MapIterator.erase mcMap leading) constant).map Prod.snd) ++
          (MapIterator.second (MapIterator.erase mcMap leading) constant).toList,
        { M with
          mUsers := M.mUsers.set _id none
          mTermMaps := M.mTermMaps.set _id []
          mLeadingTerms := M.mLeadingTerms.set _id none
          mConstantTerms := M.mConstantTerms.set _id none })

/-- The constant term `1`. -/
def oneTerm : Term := ⟨1, none⟩

/-- The term `x` in the variable with index 0. -/
def xTerm : Term := ⟨1, some [(0, 1)]⟩

/-- The manager with one map after the user with address 7 reserved the map
for two terms and added the constant term `1` and the term `x`. -/
def managerOneX (less : Monomial → Monomial → Bool) (capacity : Nat) :
    Option TermAdditionManager :=
  match (TermAdditionManager.create 1).getTermMapId 7 2 capacity with
  | none => none
  | some (id, M1) =>
    match M1.addTerm less 7 id oneTerm with
    | none => none
    | some M2 => M2.addTerm less 7 id xTerm

/-! ## The hash of a constraint -/

/-- The macro `CONSTRAINT_HASH(_lhs, _rel, _type)` (line 991) on the hash value
of the left-hand side and the code of the relation; `size_t` has 64 bits, the
shift and the casts are taken modulo `2^64`. -/
def CONSTRAINT_HASH (hashLhs : Nat) (_rel : Nat) : Nat :=
  ((((hashLhs % 2 ^ 64) <<< 3) % 2 ^ 64) ^^^ (_rel % 2 ^ 64)) % 2 ^ 64

/-- Modelled from the spec: the codes of the relation symbols (the enumeration
`carl::Relation` of Relation.h, which is not part of the sources at hand). -/
def Relation.code : Relation → Nat
  | Relation.EQ => 0
  | Relation.NEQ => 1
  | Relation.LESS => 2
  | Relation.GREATER => 3
  | Relation.LEQ => 4
  | Relation.GEQ => 5

/-- Modelled from the spec: the member `mHash` that `getHash()` returns (lines
1019-1022), as the constructor computes it by `CONSTRAINT_HASH` from the hash
function `hashPol` of the polynomials and the codes `code` of the relations. -/
def Constraint.getHash (hashPol : Pol → Nat) (code : Relation → Nat) (c : Constraint) : Nat :=
  CONSTRAINT_HASH (hashPol c.lhs) (code c.relation)

/-! ## Comparison of a Thom encoded number with a rational -/

/-- Modelled from the spec: the result type of `compareRational`, whose
declaration is not part of the sources at hand. -/
inductive ThomComparisonResult where
  | LESS
  | EQUAL
  | GREATER
  deriving DecidableEq

/-- The operator `==` of a Thom encoding and a number (ThomEncoding.h line
233); `compareRational` is declared in line 201 and enters as a parameter. -/
def ThomEncoding.eqNumber {TE : Type} (compareRational : TE → ℚ → ThomComparisonResult)
    (lhs : TE) (rhs : ℚ) : Bool :=
  decide (compareRational lhs rhs = ThomComparisonResult.EQUAL)

/-- The operator `<` of a Thom encoding and a number (ThomEncoding.h line
225). -/
def ThomEncoding.ltNumber {TE : Type} (compareRational : TE → ℚ → ThomComparisonResult)
    (lhs : TE) (rhs : ℚ) : Bool :=
  decide (compareRational lhs rhs = ThomComparisonResult.LESS)

/-- The operator `==` of a number and a Thom encoding (ThomEncoding.h line
246). -/
def ThomEncoding.numberEq {TE : Type} (compareRational : TE → ℚ → ThomComparisonResult)
    (lhs : ℚ) (rhs : TE) : Bool :=
  ThomEncoding.eqNumber compareRational rhs lhs

/-- The struct `real_algebraic_number_thom` (ran_thom.h lines 13-30): the
content with its Thom encoding `te`. -/
structure real_algebraic_number_thom (TE : Type) where
  te : TE

/-- The operator `==` of `real_algebraic_number_thom` and a number (ran_thom.h
lines 184-187). -/
def real_algebraic_number_thom.eqNumber {TE : Type}
    (compareRational : TE → ℚ → ThomComparisonResult)
    (lhs : real_algebraic_number_thom TE) (rhs : ℚ) : Bool :=
  ThomEncoding.eqNumber compareRational lhs.te rhs

/-- The operator `<` of `real_algebraic_number_thom` and a number (ran_thom.h
lines 200-203): the body compares with `==`. -/
def real_algebraic_number_thom.ltNumber {TE : Type}
    (compareRational : TE → ℚ → ThomComparisonResult)
    (lhs : real_algebraic_number_thom TE) (rhs : ℚ) : Bool :=
  ThomEncoding.eqNumber compareRational lhs.te rhs

/-- The operator `<` of a number and a `real_algebraic_number_thom` (ran_thom.h
lines 205-208): the body compares with `==`. -/
def real_algebraic_number_thom.numberLt {TE : Type}
    (compareRational : TE → ℚ → ThomComparisonResult)
    (lhs : ℚ) (rhs : real_algebraic_number_thom TE) : Bool :=
  ThomEncoding.numberEq compareRational lhs rhs.te

/-- The comparison of a rational number, taken as its own encoding, with a
rational number. -/
def compareRationalSelf (t : ℚ) (rat : ℚ) : ThomComparisonResult :=
  if t < rat then ThomComparisonResult.LESS
  else if t = rat then ThomComparisonResult.EQUAL
  else ThomComparisonResult.GREATER

/-! ## The term addition manager: sequences of calls -/

/-- A sequence of calls of `addTerm` by one user on one map, in the order of
the list; `none` when one of the calls fails. -/
def TermAdditionManager.addTerms (less : Monomial → Monomial → Bool) (M : TermAdditionManager)
    (_user : Nat) (_id : Nat) : List Term → Option TermAdditionManager
  | [] => some M
  | _term :: terms =>
    match M.addTerm less _user _id _term with
    | none => none
    | some M1 => M1.addTerms less _user _id terms

/-- The sum of the coefficients of the terms with the monomial `m`. -/
def coeffSum (terms : List Term) (m : Option Monomial) : ℚ :=
  ((terms.filter (fun t => decide (t.monomial = m))).map Term.coeff).sum

/-- The term `-x` in the variable with index 0. -/
def minusXTerm : Term := ⟨-1, some [(0, 1)]⟩

/-- The constant term `-1`. -/
def minusOneTerm : Term := ⟨-1, none⟩

/-- The term `y` in the variable with index 1. -/
def yTerm : Term := ⟨1, some [(1, 1)]⟩

/-- The manager with one map after the user with address 7 reserved the map
for the expected size `_expectedSize` and added the terms of the list. -/
def managerAfter (less : Monomial → Monomial → Bool) (_expectedSize : Nat) (capacity : Nat)
    (terms : List Term) : Option TermAdditionManager :=
  match (TermAdditionManager.create 1).getTermMapId 7 _expectedSize capacity with
  | none => none
  | some (id, M1) => M1.addTerms less 7 id terms

/-- A state of the map `_id` in which the next `room` calls of `addTerm` by
the user `_user` with positive coefficients cannot fail: the user holds the
map, the id is inside all vectors, the map has room below its capacity,
every stored coefficient is positive, the iterator of the constant term is
the end marker when no constant term is stored, and the iterator of the
leading term is the end marker or points to a stored non-constant entry. -/
def TermAdditionManager.Accepts (M : TermAdditionManager) (_user _id room : Nat) : Prop :=
  M.mUsers[_id]? = some (some _user) ∧
  _id < M.mTermMaps.length ∧ _id < M.mLeadingTerms.length ∧ _id < M.mConstantTerms.length ∧
  (M.mTermMaps.getD _id []).length + room ≤ M.mCapacity.getD _id 0 ∧
  (∀ m stored, (M.mTermMaps.getD _id []).lookup m = some stored → 0 < stored.coeff) ∧
  ((M.mTermMaps.getD _id []).lookup none = none → M.mConstantTerms.getD _id none = none) ∧
  (M.mLeadingTerms.getD _id none = none ∨
    ∃ lead, M.mLeadingTerms.getD _id none = some (some lead) ∧
      (M.mTermMaps.getD _id []).lookup (some lead) ≠ none)

/-! ## The multivariate Horner scheme -/

/-- Modelled from the spec: the strategies of the Horner scheme (the
enumeration `Strategy` of MultivariateHorner.h, which is not part of the
sources at hand). -/
inductive Strategy where
  | GREEDY_I
  | GREEDY_Is
  | GREEDY_II
  | GREEDY_IIs
  deriving DecidableEq

/-- Modelled from the spec: a shared pointer to a `MultivariateHorner` (the
class is declared in MultivariateHorner.h, which is not part of the sources at
hand): the null pointer, or a scheme with its dependent and independent
scheme, the two constants, the variable (`none` is `NO_VARIABLE`) and the
exponent. -/
inductive MultivariateHorner where
  | null : MultivariateHorner
  | node (mH_dependent mH_independent : MultivariateHorner)
      (mConst_dependent mConst_independent : ℚ) (mVariable : Option Variable)
      (mExponent : Nat) : MultivariateHorner
  deriving DecidableEq

/-- The value of a child: the constant when the pointer is null, the value of
the scheme otherwise. -/
def MultivariateHorner.childValue {K : Type} (child : MultivariateHorner) (const value : K) : K :=
  match child with
  | MultivariateHorner.null => const
  | MultivariateHorner.node _ _ _ _ _ _ => value

/-- The polynomial function a Horner scheme denotes:
`variable^exponent * (dependent scheme or constant) + (independent scheme or
constant)`; `NO_VARIABLE` has the value 1. -/
def MultivariateHorner.eval {K : Type} [LinearOrderedField K] (σ : Variable → K) :
    MultivariateHorner → K
  | MultivariateHorner.null => 0
  | MultivariateHorner.node dep indep constDep constIndep var exp =>
    (match var with
      | none => 1
      | some x => σ x) ^ exp *
        dep.childValue (constDep : K) (MultivariateHorner.eval σ dep) +
      indep.childValue (constIndep : K) (MultivariateHorner.eval σ indep)

/-- The number of schemes reachable from a pointer. -/
def MultivariateHorner.size : MultivariateHorner → Nat
  | MultivariateHorner.null => 0
  | MultivariateHorner.node dep indep _ _ _ _ => 1 + dep.size + indep.size

/-- Modelled from the spec: `gatherVariables` into a `std::set`, the variables
of the polynomial in ascending order. -/
def Pol.gatherVariables (p : Pol) : List Variable :=
  p.variableList.insertionSort (fun a b => a ≤ b)

/-- Modelled from the spec: the monomial of `Term::divide(variable, result)`,
the exponent of the variable decreased by one and the variable removed when
the exponent becomes zero. -/
def Monomial.divide (m : Monomial) (v : Variable) : Monomial :=
  match m with
  | [] => []
  | (u, e) :: rest =>
    if u = v then (if e ≤ 1 then rest else (u, e - 1) :: rest)
    else (u, e) :: Monomial.divide rest v

/-- The polynomial `h_dependentPart` (lines 164-172): the terms that have the
variable, each divided by it. Modelled from the spec: `addTerm` of the
polynomial puts a term without monomial into the constant part. -/
def Pol.dependentPart (p : Pol) (x : Variable) : Pol :=
  ⟨(((p.terms.filter (fun t => decide (Monomial.exponentOf t.1 x ≠ 0))).filter
      (fun t => (Monomial.divide t.1 x).isEmpty)).map Prod.snd).sum,
    ((p.terms.filter (fun t => decide (Monomial.exponentOf t.1 x ≠ 0))).filter
      (fun t => !(Monomial.divide t.1 x).isEmpty)).map (fun t => (Monomial.divide t.1 x, t.2))⟩

/-- The polynomial `h_independentPart` (lines 164-177): the terms that do not
have the variable, the constant term among them. -/
def Pol.independentPart (p : Pol) (x : Variable) : Pol :=
  ⟨p.constantPart, p.terms.filter (fun t => !decide (Monomial.exponentOf t.1 x ≠ 0))⟩

/-- Modelled from the spec: `isNumber()`, the polynomial has no term with a
monomial. -/
def Pol.isNumber (p : Pol) : Bool :=
  p.terms.isEmpty

/-- The number of terms of the polynomial that have the variable
(`monomialCounter`, lines 88-96). -/
def Pol.monomialCounter (p : Pol) (v : Variable) : Nat :=
  (p.terms.filter (fun t => decide (Monomial.exponentOf t.1 v ≠ 0))).length

/-- The variables of the loop that selects the variable (lines 70-79): the
iterator `selectedVariable` (`none` while nothing was assigned to it),
`monomials_containingChoosenVar` and `bestDelta`. -/
structure Selection where
  selectedVariable : Option Variable
  monomials_containingChoosenVar : Nat
  bestDelta : ℚ
  deriving DecidableEq

/-- One round of the loop over the variables (lines 84-142). The value `delta`
of lines 107-129 comes from the interval evaluation, which is not part of the
sources at hand, and enters as the parameter `delta`. -/
def Selection.step (s : Strategy) (delta : Pol → Variable → ℚ) (inPut : Pol)
    (st : Selection) (variableIt : Variable) : Selection :=
  let st1 : Selection :=
    if s = Strategy.GREEDY_I ∨ s = Strategy.GREEDY_Is then
      if inPut.monomialCounter variableIt ≥ st.monomials_containingChoosenVar then
        ⟨some variableIt, inPut.monomialCounter variableIt, st.bestDelta⟩
      else st
    else st
  if s = Strategy.GREEDY_II ∨ s = Strategy.GREEDY_IIs then
    if delta inPut variableIt > st1.bestDelta then
      ⟨some variableIt, st1.monomials_containingChoosenVar, delta inPut variableIt⟩
    else st1
  else st1

/-- The variable set for the current scheme (lines 81-150): `some none` when
the polynomial has no variable. The test of line 146 dereferences the iterator
`selectedVariable`: the result is `none` when the loop assigned nothing to it.
Otherwise the first variable is taken when `bestDelta` is zero (lines
146-149), and the selected one when it is not. -/
def MultivariateHorner.selectVariable (s : Strategy) (delta : Pol → Variable → ℚ)
    (inPut : Pol) : Option (Option Variable) :=
  match inPut.gatherVariables with
  | [] => some none
  | first :: rest =>
    match ((first :: rest).foldl (Selection.step s delta inPut) ⟨none, 0, 0⟩).selectedVariable with
    | none => none
    | some selected =>
      if ((first :: rest).foldl (Selection.step s delta inPut) ⟨none, 0, 0⟩).bestDelta = 0
      then some (some first) else some (some selected)

/-- The recursive constructor (lines 66-226). The recursion is counted by
`fuel`; `none` is the result when it runs out and when the selection of the
variable dereferences the iterator nothing was assigned to. The exponent of a
new scheme is 1 and its dependent constant 0. -/
def MultivariateHorner.construct (s : Strategy) (delta : Pol → Variable → ℚ) :
    Nat → Pol → Option MultivariateHorner
  | 0, _ => none
  | fuel + 1, inPut =>
    match MultivariateHorner.selectVariable s delta inPut with
    | none => none
    | some none =>
      some (MultivariateHorner.node MultivariateHorner.null MultivariateHorner.null
        0 inPut.constantPart none 1)
    | some (some x) =>
      match
        (if (inPut.dependentPart x).isNumber
          then some (MultivariateHorner.null, (inPut.dependentPart x).constantPart)
          else (MultivariateHorner.construct s delta fuel (inPut.dependentPart x)).map
            (fun h => (h, (0 : ℚ)))),
        (if (inPut.independentPart x).isNumber
          then some (MultivariateHorner.null, (inPut.independentPart x).constantPart)
          else (MultivariateHorner.construct s delta fuel (inPut.independentPart x)).map
            (fun h => (h, (0 : ℚ)))) with
      | some (dep, constDep), some (indep, constIndep) =>
        some (MultivariateHorner.node dep indep constDep constIndep (some x) 1)
      | _, _ => none

/-- The function `simplify` (lines 349-405) on a pointer; the recursion is
counted by `fuel`. The result `none` stands for the null pointer being
dereferenced or the fuel running out. -/
def simplify : Nat → MultivariateHorner → Option MultivariateHorner
  | 0, _ => none
  | _ + 1, MultivariateHorner.null => none
  | fuel + 1, MultivariateHorner.node dep indep constDep constIndep var exp =>
    match dep with
    | MultivariateHorner.node depDep depIndep depConstDep depConstIndep depVar depExp =>
      if (depDep ≠ MultivariateHorner.null ∨ depConstDep ≠ 0) ∧
          depIndep = MultivariateHorner.null ∧ depConstIndep = 0 then
        if var = depVar then
          match
            (if depDep ≠ MultivariateHorner.null
              then (simplify fuel depDep).map (fun h => (h, constDep))
              else some (MultivariateHorner.null, depConstDep)),
            (if indep ≠ MultivariateHorner.null then simplify fuel indep
              else some MultivariateHorner.null) with
          | some (newDep, newConstDep), some newIndep =>
            simplify fuel (MultivariateHorner.node newDep newIndep newConstDep constIndep var
              (exp + depExp))
          | _, _ => none
        else some (MultivariateHorner.node dep indep constDep constIndep var exp)
      else if indep = MultivariateHorner.null then
        (simplify fuel dep).map
          (fun newDep => MultivariateHorner.node newDep MultivariateHorner.null
            constDep constIndep var exp)
      else
        match simplify fuel dep, simplify fuel indep with
        | some newDep, some newIndep =>
          some (MultivariateHorner.node newDep newIndep constDep constIndep var exp)
        | _, _ => none
    | MultivariateHorner.null =>
      if indep ≠ MultivariateHorner.null then
        (simplify fuel indep).map
          (fun newIndep => MultivariateHorner.node MultivariateHorner.null newIndep
            constDep constIndep var exp)
      else some (MultivariateHorner.node dep indep constDep constIndep var exp)

/-- The polynomial `x * y + y`, `x` the variable with index 0 and `y` the
variable with index 1. -/
def xyPlusYPol : Pol := ⟨0, [([(0, 1), (1, 1)], 1), ([(1, 1)], 1)]⟩

/-! ## The case table, semantically -/

section Table

set_option linter.unusedTactic false
set_option linter.unreachableTactic false

variable {K : Type} [LinearOrderedField K]

/-- An outcome 2 of the case table means equal solution sets. -/
theorem compareTable_iff_sound (rA rB : Relation) (c d : K)
    (h : compareTable rA rB c d = A_IFF_B) (p : K) :
    rA.holds (p + c) ↔ rB.holds (p + d) := by
  cases rA <;> cases rB <;> simp only [compareTable] at h <;> split_ifs at h <;>
    first
    | exact absurd h (by decide)
    | (subst_vars; exact Iff.rfl)

/-- An outcome -2 of the case table means disjoint solution sets. -/
theorem compareTable_not_sound (rA rB : Relation) (c d : K)
    (h : compareTable rA rB c d = NOT__A_AND_B) (p : K) :
    ¬ (rA.holds (p + c) ∧ rB.holds (p + d)) := by
  cases rA <;> cases rB <;> simp only [compareTable] at h <;> split_ifs at h <;>
    first
    | exact absurd h (by decide)
    | (simp only [Relation.holds]; rintro ⟨h1, h2⟩
       first
       | linarith
       | (apply_assumption; linarith))

/-- An outcome -4 of the case table means complementary solution sets. -/
theorem compareTable_xor_sound (rA rB : Relation) (c d : K)
    (h : compareTable rA rB c d = A_XOR_B) (p : K) :
    rA.holds (p + c) ↔ ¬ rB.holds (p + d) := by
  cases rA <;> cases rB <;> simp only [compareTable] at h <;> split_ifs at h <;>
    first
    | exact absurd h (by decide)
    | (subst_vars; simp [Relation.holds])

/-- An outcome -3 of the case table: the constant parts agree, neither solution
set contains the other, and the common solutions are one point or one open
ray ending in that point. -/
theorem compareTable_and_sound (rA rB : Relation) (c d : K)
    (h : compareTable rA rB c d = A_AND_B__IFF_C) :
    (∃ p, rA.holds (p + c) ∧ ¬ rB.holds (p + d)) ∧
    (∃ p, rB.holds (p + d) ∧ ¬ rA.holds (p + c)) ∧
    ((∀ p, (rA.holds (p + c) ∧ rB.holds (p + d)) ↔ p + c = 0) ∨
     (∀ p, (rA.holds (p + c) ∧ rB.holds (p + d)) ↔ p + c < 0) ∨
     (∀ p, (rA.holds (p + c) ∧ rB.holds (p + d)) ↔ 0 < p + c)) := by
  have hcd : c = d := by
    cases rA <;> cases rB <;> simp only [compareTable] at h <;> split_ifs at h <;>
      first
      | exact absurd h (by decide)
      | assumption
  subst hcd
  have hlt : ∀ x : K, (x ≠ 0 ∧ x ≤ 0) ↔ x < 0 :=
    fun x => ⟨fun hx => lt_of_le_of_ne hx.2 hx.1, fun hx => ⟨hx.ne, hx.le⟩⟩
  have hgt : ∀ x : K, (x ≠ 0 ∧ 0 ≤ x) ↔ 0 < x :=
    fun x => ⟨fun hx => lt_of_le_of_ne hx.2 (Ne.symm hx.1), fun hx => ⟨hx.ne', hx.le⟩⟩
  have heq : ∀ x : K, (x ≤ 0 ∧ 0 ≤ x) ↔ x = 0 :=
    fun x => ⟨fun hx => le_antisymm hx.1 hx.2, fun hx => ⟨hx.le, hx.ge⟩⟩
  cases rA <;> cases rB <;> simp only [compareTable, lt_irrefl, if_true, if_false, gt_iff_lt,
      ge_iff_le, le_refl] at h <;> try (exact absurd h (by decide))
  · -- NEQ, LEQ
    refine ⟨⟨1 - c, by norm_num [Relation.holds]⟩, ⟨-c, by norm_num [Relation.holds]⟩,
      Or.inr (Or.inl fun p => hlt (p + c))⟩
  · -- NEQ, GEQ
    refine ⟨⟨-1 - c, by norm_num [Relation.holds]⟩, ⟨-c, by norm_num [Relation.holds]⟩,
      Or.inr (Or.inr fun p => hgt (p + c))⟩
  · -- LEQ, NEQ
    refine ⟨⟨-c, by norm_num [Relation.holds]⟩, ⟨1 - c, by norm_num [Relation.holds]⟩,
      Or.inr (Or.inl fun p => and_comm.trans (hlt (p + c)))⟩
  · -- LEQ, GEQ
    refine ⟨⟨-1 - c, by norm_num [Relation.holds]⟩, ⟨1 - c, by norm_num [Relation.holds]⟩,
      Or.inl fun p => heq (p + c)⟩
  · -- GEQ, NEQ
    refine ⟨⟨-c, by norm_num [Relation.holds]⟩, ⟨-1 - c, by norm_num [Relation.holds]⟩,
      Or.inr (Or.inr fun p => and_comm.trans (hgt (p + c)))⟩
  · -- GEQ, LEQ
    refine ⟨⟨1 - c, by norm_num [Relation.holds]⟩, ⟨-1 - c, by norm_num [Relation.holds]⟩,
      Or.inl fun p => and_comm.trans (heq (p + c))⟩

/-- Disjoint solution sets are classified -2 or -4 by the case table. -/
theorem compareTable_disjoint (rA rB : Relation) (c d : K)
    (h : ∀ p, ¬ (rA.holds (p + c) ∧ rB.holds (p + d))) :
    compareTable rA rB c d = NOT__A_AND_B ∨ compareTable rA rB c d = A_XOR_B := by
  rcases lt_trichotomy c d with hcd | hcd | hcd
  · cases rA <;> cases rB <;>
      simp only [compareTable, hcd, hcd.ne, hcd.le, hcd.not_lt, hcd.not_le, gt_iff_lt,
        ge_iff_le, if_true, if_false] <;>
      first
      | (left; first | rfl | trivial)
      | (right; first | rfl | trivial)
      | (exfalso
         first
         | (refine h (-c) ⟨?_, ?_⟩ <;> (simp only [Relation.holds]; first | linarith | (intro h0; linarith)))
         | (refine h (-d) ⟨?_, ?_⟩ <;> (simp only [Relation.holds]; first | linarith | (intro h0; linarith)))
         | (refine h (-d - 1) ⟨?_, ?_⟩ <;> (simp only [Relation.holds]; first | linarith | (intro h0; linarith)))
         | (refine h (-c + 1) ⟨?_, ?_⟩ <;> (simp only [Relation.holds]; first | linarith | (intro h0; linarith)))
         | (refine h (-(c + d) / 2) ⟨?_, ?_⟩ <;> (simp only [Relation.holds]; first | linarith | (intro h0; linarith))))
  · subst hcd
    cases rA <;> cases rB <;>
      simp only [compareTable, lt_irrefl, le_refl, gt_iff_lt, ge_iff_le, if_true, if_false] <;>
      first
      | (left; first | rfl | trivial)
      | (right; first | rfl | trivial)
      | (exfalso
         first
         | (refine h (-c) ⟨?_, ?_⟩ <;> (simp only [Relation.holds]; first | linarith | (intro h0; linarith)))
         | (refine h (-c - 1) ⟨?_, ?_⟩ <;> (simp only [Relation.holds]; first | linarith | (intro h0; linarith)))
         | (refine h (-c + 1) ⟨?_, ?_⟩ <;> (simp only [Relation.holds]; first | linarith | (intro h0; linarith))))
  · cases rA <;> cases rB <;>
      simp only [compareTable, hcd, hcd.ne', hcd.le, hcd.not_lt, hcd.not_le, gt_iff_lt,
        ge_iff_le, if_true, if_false] <;>
      first
      | (left; first | rfl | trivial)
      | (right; first | rfl | trivial)
      | (exfalso
         first
         | (refine h (-c) ⟨?_, ?_⟩ <;> (simp only [Relation.holds]; first | linarith | (intro h0; linarith)))
         | (refine h (-d) ⟨?_, ?_⟩ <;> (simp only [Relation.holds]; first | linarith | (intro h0; linarith)))
         | (refine h (-c - 1) ⟨?_, ?_⟩ <;> (simp only [Relation.holds]; first | linarith | (intro h0; linarith)))
         | (refine h (-d + 1) ⟨?_, ?_⟩ <;> (simp only [Relation.holds]; first | linarith | (intro h0; linarith)))
         | (refine h (-(c + d) / 2) ⟨?_, ?_⟩ <;> (simp only [Relation.holds]; first | linarith | (intro h0; linarith))))

/-- An outcome -2 of the case table leaves some value outside both solution
sets. -/
theorem compareTable_not_gap (rA rB : Relation) (c d : K)
    (h : compareTable rA rB c d = NOT__A_AND_B) :
    ∃ p, ¬ rA.holds (p + c) ∧ ¬ rB.holds (p + d) := by
  rcases lt_trichotomy c d with hcd | hcd | hcd
  ·
    cases rA <;> cases rB <;>
      simp only [compareTable, hcd, hcd.ne, hcd.le, hcd.not_lt, hcd.not_le, gt_iff_lt, ge_iff_le, if_true, if_false] at h <;>
      first
      | exact absurd h (by decide)
      | (refine ⟨-c, ?_, ?_⟩ <;> (simp only [Relation.holds, not_lt, not_le, not_not, ne_eq]; first | linarith | (intro h0; linarith)))
      | (refine ⟨-d, ?_, ?_⟩ <;> (simp only [Relation.holds, not_lt, not_le, not_not, ne_eq]; first | linarith | (intro h0; linarith)))
      | (refine ⟨-c + 1, ?_, ?_⟩ <;> (simp only [Relation.holds, not_lt, not_le, not_not, ne_eq]; first | linarith | (intro h0; linarith)))
      | (refine ⟨-d - 1, ?_, ?_⟩ <;> (simp only [Relation.holds, not_lt, not_le, not_not, ne_eq]; first | linarith | (intro h0; linarith)))
      | (refine ⟨-(c + d) / 2, ?_, ?_⟩ <;> (simp only [Relation.holds, not_lt, not_le, not_not, ne_eq]; first | linarith | (intro h0; linarith)))
  · subst hcd
    cases rA <;> cases rB <;>
      simp only [compareTable, lt_irrefl, le_refl, gt_iff_lt, ge_iff_le, if_true, if_false] at h <;>
      first
      | exact absurd h (by decide)
      | (refine ⟨-c, ?_, ?_⟩ <;> (simp only [Relation.holds, not_lt, not_le, not_not, ne_eq]; first | linarith | (intro h0; linarith)))
      | (refine ⟨-c + 1, ?_, ?_⟩ <;> (simp only [Relation.holds, not_lt, not_le, not_not, ne_eq]; first | linarith | (intro h0; linarith)))
      | (refine ⟨-c - 1, ?_, ?_⟩ <;> (simp only [Relation.holds, not_lt, not_le, not_not, ne_eq]; first | linarith | (intro h0; linarith)))
  ·
    cases rA <;> cases rB <;>
      simp only [compareTable, hcd, hcd.ne', hcd.le, hcd.not_lt, hcd.not_le, gt_iff_lt, ge_iff_le, if_true, if_false] at h <;>
      first
      | exact absurd h (by decide)
      | (refine ⟨-c, ?_, ?_⟩ <;> (simp only [Relation.holds, not_lt, not_le, not_not, ne_eq]; first | linarith | (intro h0; linarith)))
      | (refine ⟨-d, ?_, ?_⟩ <;> (simp only [Relation.holds, not_lt, not_le, not_not, ne_eq]; first | linarith | (intro h0; linarith)))
      | (refine ⟨-c - 1, ?_, ?_⟩ <;> (simp only [Relation.holds, not_lt, not_le, not_not, ne_eq]; first | linarith | (intro h0; linarith)))
      | (refine ⟨-d + 1, ?_, ?_⟩ <;> (simp only [Relation.holds, not_lt, not_le, not_not, ne_eq]; first | linarith | (intro h0; linarith)))
      | (refine ⟨-(c + d) / 2, ?_, ?_⟩ <;> (simp only [Relation.holds, not_lt, not_le, not_not, ne_eq]; first | linarith | (intro h0; linarith)))

/-- An outcome 0 of the case table: some solution of the first atom is not a
solution of the second. -/
theorem compareTable_zero_left (rA rB : Relation) (c d : K)
    (h : compareTable rA rB c d = 0) :
    ∃ p, rA.holds (p + c) ∧ ¬ rB.holds (p + d) := by
  rcases lt_trichotomy c d with hcd | hcd | hcd
  ·
    cases rA <;> cases rB <;>
      simp only [compareTable, hcd, hcd.ne, hcd.le, hcd.not_lt, hcd.not_le, gt_iff_lt, ge_iff_le, if_true, if_false] at h <;>
      first
      | exact absurd h (by decide)
      | (refine ⟨-c, ?_, ?_⟩ <;> (simp only [Relation.holds, not_lt, not_le, not_not, ne_eq]; first | linarith | (intro h0; linarith)))
      | (refine ⟨-d, ?_, ?_⟩ <;> (simp only [Relation.holds, not_lt, not_le, not_not, ne_eq]; first | linarith | (intro h0; linarith)))
      | (refine ⟨-c + 1, ?_, ?_⟩ <;> (simp only [Relation.holds, not_lt, not_le, not_not, ne_eq]; first | linarith | (intro h0; linarith)))
      | (refine ⟨-d - 1, ?_, ?_⟩ <;> (simp only [Relation.holds, not_lt, not_le, not_not, ne_eq]; first | linarith | (intro h0; linarith)))
      | (refine ⟨-(c + d) / 2, ?_, ?_⟩ <;> (simp only [Relation.holds, not_lt, not_le, not_not, ne_eq]; first | linarith | (intro h0; linarith)))
  · subst hcd
    cases rA <;> cases rB <;>
      simp only [compareTable, lt_irrefl, le_refl, gt_iff_lt, ge_iff_le, if_true, if_false] at h <;>
      first
      | exact absurd h (by decide)
      | (refine ⟨-c, ?_, ?_⟩ <;> (simp only [Relation.holds, not_lt, not_le, not_not, ne_eq]; first | linarith | (intro h0; linarith)))
      | (refine ⟨-c + 1, ?_, ?_⟩ <;> (simp only [Relation.holds, not_lt, not_le, not_not, ne_eq]; first | linarith | (intro h0; linarith)))
      | (refine ⟨-c - 1, ?_, ?_⟩ <;> (simp only [Relation.holds, not_lt, not_le, not_not, ne_eq]; first | linarith | (intro h0; linarith)))
  ·
    cases rA <;> cases rB <;>
      simp only [compareTable, hcd, hcd.ne', hcd.le, hcd.not_lt, hcd.not_le, gt_iff_lt, ge_iff_le, if_true, if_false] at h <;>
      first
      | exact absurd h (by decide)
      | (refine ⟨-c, ?_, ?_⟩ <;> (simp only [Relation.holds, not_lt, not_le, not_not, ne_eq]; first | linarith | (intro h0; linarith)))
      | (refine ⟨-d, ?_, ?_⟩ <;> (simp only [Relation.holds, not_lt, not_le, not_not, ne_eq]; first | linarith | (intro h0; linarith)))
      | (refine ⟨-c - 1, ?_, ?_⟩ <;> (simp only [Relation.holds, not_lt, not_le, not_not, ne_eq]; first | linarith | (intro h0; linarith)))
      | (refine ⟨-d + 1, ?_, ?_⟩ <;> (simp only [Relation.holds, not_lt, not_le, not_not, ne_eq]; first | linarith | (intro h0; linarith)))
      | (refine ⟨-(c + d) / 2, ?_, ?_⟩ <;> (simp only [Relation.holds, not_lt, not_le, not_not, ne_eq]; first | linarith | (intro h0; linarith)))

/-- An outcome 0 of the case table: some solution of the second atom is not a
solution of the first. -/
theorem compareTable_zero_right (rA rB : Relation) (c d : K)
    (h : compareTable rA rB c d = 0) :
    ∃ p, ¬ rA.holds (p + c) ∧ rB.holds (p + d) := by
  rcases lt_trichotomy c d with hcd | hcd | hcd
  ·
    cases rA <;> cases rB <;>
      simp only [compareTable, hcd, hcd.ne, hcd.le, hcd.not_lt, hcd.not_le, gt_iff_lt, ge_iff_le, if_true, if_false] at h <;>
      first
      | exact absurd h (by decide)
      | (refine ⟨-c, ?_, ?_⟩ <;> (simp only [Relation.holds, not_lt, not_le, not_not, ne_eq]; first | linarith | (intro h0; linarith)))
      | (refine ⟨-d, ?_, ?_⟩ <;> (simp only [Relation.holds, not_lt, not_le, not_not, ne_eq]; first | linarith | (intro h0; linarith)))
      | (refine ⟨-c + 1, ?_, ?_⟩ <;> (simp only [Relation.holds, not_lt, not_le, not_not, ne_eq]; first | linarith | (intro h0; linarith)))
      | (refine ⟨-d - 1, ?_, ?_⟩ <;> (simp only [Relation.holds, not_lt, not_le, not_not, ne_eq]; first | linarith | (intro h0; linarith)))
      | (refine ⟨-(c + d) / 2, ?_, ?_⟩ <;> (simp only [Relation.holds, not_lt, not_le, not_not, ne_eq]; first | linarith | (intro h0; linarith)))
  · subst hcd
    cases rA <;> cases rB <;>
      simp only [compareTable, lt_irrefl, le_refl, gt_iff_lt, ge_iff_le, if_true, if_false] at h <;>
      first
      | exact absurd h (by decide)
      | (refine ⟨-c, ?_, ?_⟩ <;> (simp only [Relation.holds, not_lt, not_le, not_not, ne_eq]; first | linarith | (intro h0; linarith)))
      | (refine ⟨-c + 1, ?_, ?_⟩ <;> (simp only [Relation.holds, not_lt, not_le, not_not, ne_eq]; first | linarith | (intro h0; linarith)))
      | (refine ⟨-c - 1, ?_, ?_⟩ <;> (simp only [Relation.holds, not_lt, not_le, not_not, ne_eq]; first | linarith | (intro h0; linarith)))
  ·
    cases rA <;> cases rB <;>
      simp only [compareTable, hcd, hcd.ne', hcd.le, hcd.not_lt, hcd.not_le, gt_iff_lt, ge_iff_le, if_true, if_false] at h <;>
      first
      | exact absurd h (by decide)
      | (refine ⟨-c, ?_, ?_⟩ <;> (simp only [Relation.holds, not_lt, not_le, not_not, ne_eq]; first | linarith | (intro h0; linarith)))
      | (refine ⟨-d, ?_, ?_⟩ <;> (simp only [Relation.holds, not_lt, not_le, not_not, ne_eq]; first | linarith | (intro h0; linarith)))
      | (refine ⟨-c - 1, ?_, ?_⟩ <;> (simp only [Relation.holds, not_lt, not_le, not_not, ne_eq]; first | linarith | (intro h0; linarith)))
      | (refine ⟨-d + 1, ?_, ?_⟩ <;> (simp only [Relation.holds, not_lt, not_le, not_not, ne_eq]; first | linarith | (intro h0; linarith)))
      | (refine ⟨-(c + d) / 2, ?_, ?_⟩ <;> (simp only [Relation.holds, not_lt, not_le, not_not, ne_eq]; first | linarith | (intro h0; linarith)))

/-- An outcome 0 of the case table: the two atoms have two different common
solutions. -/
theorem compareTable_zero_meet (rA rB : Relation) (c d : K)
    (h : compareTable rA rB c d = 0) :
    ∃ p1 p2, p1 < p2 ∧ rA.holds (p1 + c) ∧ rB.holds (p1 + d) ∧
      rA.holds (p2 + c) ∧ rB.holds (p2 + d) := by
  rcases lt_trichotomy c d with hcd | hcd | hcd
  ·
    cases rA <;> cases rB <;>
      simp only [compareTable, hcd, hcd.ne, hcd.le, hcd.not_lt, hcd.not_le, gt_iff_lt, ge_iff_le, if_true, if_false] at h <;>
      first
      | exact absurd h (by decide)
      | (refine ⟨-d - 2, -d - 1, ?_, ?_, ?_, ?_, ?_⟩ <;> ((try simp only [Relation.holds, not_lt, not_le, not_not, ne_eq]); first | linarith | (intro h0; linarith)))
      | (refine ⟨-c + 1, -c + 2, ?_, ?_, ?_, ?_, ?_⟩ <;> ((try simp only [Relation.holds, not_lt, not_le, not_not, ne_eq]); first | linarith | (intro h0; linarith)))
      | (refine ⟨-(2 * d + c) / 3, -(c + d) / 2, ?_, ?_, ?_, ?_, ?_⟩ <;> ((try simp only [Relation.holds, not_lt, not_le, not_not, ne_eq]); first | linarith | (intro h0; linarith)))
  · subst hcd
    cases rA <;> cases rB <;>
      simp only [compareTable, lt_irrefl, le_refl, gt_iff_lt, ge_iff_le, if_true, if_false] at h <;>
      first
      | exact absurd h (by decide)
      | (refine ⟨-c - 2, -c - 1, ?_, ?_, ?_, ?_, ?_⟩ <;> ((try simp only [Relation.holds, not_lt, not_le, not_not, ne_eq]); first | linarith | (intro h0; linarith)))
      | (refine ⟨-c + 1, -c + 2, ?_, ?_, ?_, ?_, ?_⟩ <;> ((try simp only [Relation.holds, not_lt, not_le, not_not, ne_eq]); first | linarith | (intro h0; linarith)))
  ·
    cases rA <;> cases rB <;>
      simp only [compareTable, hcd, hcd.ne', hcd.le, hcd.not_lt, hcd.not_le, gt_iff_lt, ge_iff_le, if_true, if_false] at h <;>
      first
      | exact absurd h (by decide)
      | (refine ⟨-c - 2, -c - 1, ?_, ?_, ?_, ?_, ?_⟩ <;> ((try simp only [Relation.holds, not_lt, not_le, not_not, ne_eq]); first | linarith | (intro h0; linarith)))
      | (refine ⟨-d + 1, -d + 2, ?_, ?_, ?_, ?_, ?_⟩ <;> ((try simp only [Relation.holds, not_lt, not_le, not_not, ne_eq]); first | linarith | (intro h0; linarith)))
      | (refine ⟨-(c + d) / 2, -(c + 2 * d) / 3, ?_, ?_, ?_, ?_, ?_⟩ <;> ((try simp only [Relation.holds, not_lt, not_le, not_not, ne_eq]); first | linarith | (intro h0; linarith)))

end Table

/-! ## From `compare` to the case table -/

/-- Normalising `a * q + c`: removing the constant part and multiplying by
`1 / a` gives back the terms of `q`. -/
theorem normalise_affine (a : ℚ) (ha : a ≠ 0) (q : Pol) (c : ℚ) :
    ((Pol.affine a q c).subNum (Pol.affine a q c).constantPart).mulNum (1 / a)
      = ⟨0, q.terms⟩ := by
  have h1 : (1 / a) ≠ 0 := one_div_ne_zero ha
  simp only [Pol.mulNum, Pol.subNum, Pol.affine, if_neg h1, sub_self, zero_mul, List.map_map]
  congr 1
  conv_rhs => rw [← List.map_id q.terms]
  apply List.map_congr_left
  intro t _
  simp only [Function.comp, id]
  ext
  · rfl
  · show a * t.2 * (1 / a) = t.2
    field_simp

/-- The denominator of `1 / a` for a nonzero integer `a`. -/
theorem den_one_div_int (a : ℤ) (ha : a ≠ 0) : ((1 : ℚ) / (a : ℚ)).den = a.natAbs := by
  rw [one_div, Rat.inv_intCast_den, if_neg ha]

/-- The sign of `1 / a`. -/
theorem one_div_int_neg_iff (a : ℤ) : ((1 : ℚ) / (a : ℚ) < 0) ↔ (a < 0) := by
  rw [one_div, inv_lt_zero]
  exact Int.cast_lt_zero

/-- The factor `g` of lines 740-752 is the signed quotient of the two integers. -/
theorem signed_quotient (a b : ℤ) (ha : a ≠ 0) (hb : b ≠ 0) :
    (if (decide ((1 : ℚ) / (a : ℚ) < 0) != decide ((1 : ℚ) / (b : ℚ) < 0)) = true
      then -((a.natAbs : ℚ) / (b.natAbs : ℚ)) else (a.natAbs : ℚ) / (b.natAbs : ℚ))
      = (a : ℚ) / (b : ℚ) := by
  have hca : ((a.natAbs : ℕ) : ℚ) = |(a : ℚ)| := by
    rw [Nat.cast_natAbs, Int.cast_abs]
  have hcb : ((b.natAbs : ℕ) : ℚ) = |(b : ℚ)| := by
    rw [Nat.cast_natAbs, Int.cast_abs]
  rw [hca, hcb]
  simp only [one_div_int_neg_iff]
  have haq : (a : ℚ) ≠ 0 := Int.cast_ne_zero.mpr ha
  have hbq : (b : ℚ) ≠ 0 := Int.cast_ne_zero.mpr hb
  rcases lt_or_gt_of_ne ha with h1 | h1 <;> rcases lt_or_gt_of_ne hb with h2 | h2
  · have h1q : (a : ℚ) < 0 := Int.cast_lt_zero.mpr h1
    have h2q : (b : ℚ) < 0 := Int.cast_lt_zero.mpr h2
    simp [h1, h2, abs_of_neg h1q, abs_of_neg h2q]
  · have h1q : (a : ℚ) < 0 := Int.cast_lt_zero.mpr h1
    have h2q : (0 : ℚ) < b := Int.cast_pos.mpr h2
    simp [h1, not_lt.mpr h2.le, abs_of_neg h1q, abs_of_pos h2q, neg_div]
  · have h1q : (0 : ℚ) < a := Int.cast_pos.mpr h1
    have h2q : (b : ℚ) < 0 := Int.cast_lt_zero.mpr h2
    simp [h2, not_lt.mpr h1.le, abs_of_pos h1q, abs_of_neg h2q, div_neg]
  · have h1q : (0 : ℚ) < a := Int.cast_pos.mpr h1
    have h2q : (0 : ℚ) < b := Int.cast_pos.mpr h2
    simp [not_lt.mpr h1.le, not_lt.mpr h2.le, abs_of_pos h1q, abs_of_pos h2q]

/-- On a comparable pair `compare` is the case table applied to the constant
parts after one of them is scaled by the signed quotient of `a` and `b`. -/
theorem compare_eq_table {cf : Pol → ℚ} {A B : Constraint} {q : Pol} {a b : ℤ} {c d : ℚ}
    (h : Comparable cf A B q a b c d) :
    compareValue cf A B =
      if b.natAbs < a.natAbs then
        compareTable A.relation
          (if (a : ℚ) / (b : ℚ) < 0 then turnAround B.relation else B.relation)
          c (d * ((a : ℚ) / (b : ℚ)))
      else
        compareTable
          (if (b : ℚ) / (a : ℚ) < 0 then turnAround A.relation else A.relation)
          B.relation (c * ((b : ℚ) / (a : ℚ))) d := by
  obtain ⟨_, ha, hb, hA, hB, hfa, hfb⟩ := h
  have haq : (a : ℚ) ≠ 0 := Int.cast_ne_zero.mpr ha
  have hbq : (b : ℚ) ≠ 0 := Int.cast_ne_zero.mpr hb
  have hcA : A.lhs.constantPart = c := by rw [hA]; rfl
  have hcB : B.lhs.constantPart = d := by rw [hB]; rfl
  have htA : (A.lhs.subNum c).mulNum (1 / (a : ℚ)) = ⟨0, q.terms⟩ := by
    rw [hA]; exact normalise_affine a haq q c
  have htB : (B.lhs.subNum d).mulNum (1 / (b : ℚ)) = ⟨0, q.terms⟩ := by
    rw [hB]; exact normalise_affine b hbq q d
  have hcomm : ∀ x y : Bool, (x != y) = (y != x) := by decide
  unfold compareValue
  simp only [hfa, hfb, htA, htB, ne_eq, not_true_eq_false, if_false, den_one_div_int a ha,
    den_one_div_int b hb, gt_iff_lt, hcA, hcB]
  rw [signed_quotient a b ha hb, hcomm, signed_quotient b a hb ha]

/-- The case table gives the same outcome on rational constant parts and on
their images in the reals. -/
theorem compareTable_cast (rA rB : Relation) (c d : ℚ) :
    compareTable rA rB c d = compareTable rA rB (c : ℝ) (d : ℝ) := by
  cases rA <;> cases rB <;>
    simp only [compareTable, Rat.cast_lt, Rat.cast_le, Rat.cast_inj, gt_iff_lt, ge_iff_le]

/-- Multiplying the left-hand side by a nonzero `g` and turning the relation
around when `g` is negative keeps the solutions. -/
theorem holds_scale (r : Relation) (g : ℚ) (hg : g ≠ 0) (v : ℝ) :
    r.holds v ↔ (if g < 0 then turnAround r else r).holds ((g : ℝ) * v) := by
  rcases lt_or_gt_of_ne hg with h | h
  · have hr : (g : ℝ) < 0 := by exact_mod_cast h
    rw [if_pos h]
    cases r <;>
      simp [Relation.holds, turnAround, mul_pos_iff, mul_nonneg_iff, mul_neg_iff,
        mul_nonpos_iff, hr, hr.le, hr.ne, not_lt.mpr hr.le, not_le.mpr hr]
  · have hr : (0 : ℝ) < g := by exact_mod_cast h
    rw [if_neg (not_lt.mpr h.le)]
    cases r <;>
      simp [Relation.holds, mul_pos_iff, mul_nonneg_iff, mul_neg_iff,
        mul_nonpos_iff, hr, hr.le, hr.ne', not_lt.mpr hr.le, not_le.mpr hr]

/-- On a comparable pair the outcome of `compare` is the case table read over
the reals on two atoms `s * t + C ~ 0` and `s * t + D ~ 0` with one nonzero
`s`, and these atoms have the solutions of `A` and of `B`. -/
theorem compare_reduce {cf : Pol → ℚ} {A B : Constraint} {q : Pol} {a b : ℤ} {c d : ℚ}
    (h : Comparable cf A B q a b c d) :
    ∃ (s C D : ℝ) (rA rB : Relation), s ≠ 0 ∧ compareValue cf A B = compareTable rA rB C D ∧
      (∀ t : ℝ, A.relation.holds ((a : ℝ) * t + (c : ℝ)) ↔ rA.holds (s * t + C)) ∧
      (∀ t : ℝ, B.relation.holds ((b : ℝ) * t + (d : ℝ)) ↔ rB.holds (s * t + D)) := by
  have ha := h.a_ne
  have hb := h.b_ne
  have haq : (a : ℚ) ≠ 0 := Int.cast_ne_zero.mpr ha
  have hbq : (b : ℚ) ≠ 0 := Int.cast_ne_zero.mpr hb
  have haR : (a : ℝ) ≠ 0 := Int.cast_ne_zero.mpr ha
  have hbR : (b : ℝ) ≠ 0 := Int.cast_ne_zero.mpr hb
  rw [compare_eq_table h]
  by_cases hlt : b.natAbs < a.natAbs
  · rw [if_pos hlt]
    refine ⟨a, c, ((d * ((a : ℚ) / (b : ℚ)) : ℚ) : ℝ), A.relation, _, haR,
      compareTable_cast _ _ _ _, fun t => Iff.rfl, fun t => ?_⟩
    have hg : (a : ℚ) / (b : ℚ) ≠ 0 := div_ne_zero haq hbq
    rw [holds_scale B.relation _ hg]
    have hval : (((a : ℚ) / (b : ℚ) : ℚ) : ℝ) * ((b : ℝ) * t + (d : ℝ))
        = (a : ℝ) * t + ((d * ((a : ℚ) / (b : ℚ)) : ℚ) : ℝ) := by
      push_cast
      field_simp
      ring
    rw [hval]
  · rw [if_neg hlt]
    refine ⟨b, ((c * ((b : ℚ) / (a : ℚ)) : ℚ) : ℝ), d, _, B.relation, hbR,
      compareTable_cast _ _ _ _, fun t => ?_, fun t => Iff.rfl⟩
    have hg : (b : ℚ) / (a : ℚ) ≠ 0 := div_ne_zero hbq haq
    rw [holds_scale A.relation _ hg]
    have hval : (((b : ℚ) / (a : ℚ) : ℚ) : ℝ) * ((a : ℝ) * t + (c : ℝ))
        = (b : ℝ) * t + ((c * ((b : ℚ) / (a : ℚ)) : ℚ) : ℝ) := by
      push_cast
      field_simp
      ring
    rw [hval]

/-! ## The coprime factor of `a * q + c` -/

/-- Numerator and denominator of an integer multiple of an integral
coefficient. -/
theorem int_mul_coeff (a : ℤ) (x : ℚ) (hx : x.den = 1) :
    ((a : ℚ) * x).num = a * x.num ∧ ((a : ℚ) * x).den = 1 := by
  have hx2 : ((a : ℚ) * x) = ((a * x.num : ℤ) : ℚ) := by
    rw [Int.cast_mul, Rat.coe_int_num_of_den_eq_one hx]
  rw [hx2]
  exact ⟨Rat.intCast_num _, Rat.den_intCast _⟩

/-- The gcd of the numerators of `a * q` is `|a|` times the gcd of the
numerators of `q`. -/
theorem gcd_fold_affine (a : ℤ) (l : List (Monomial × ℚ)) (hl : ∀ t ∈ l, t.2.den = 1) :
    (l.map (fun t => (t.1, (a : ℚ) * t.2))).foldr (fun t g => Nat.gcd t.2.num.natAbs g) 0
      = a.natAbs * l.foldr (fun t g => Nat.gcd t.2.num.natAbs g) 0 := by
  induction l with
  | nil => simp
  | cons t l ih =>
    have ht : t.2.den = 1 := hl t (List.mem_cons_self t l)
    have hl2 : ∀ u ∈ l, u.2.den = 1 := fun u hu => hl u (List.mem_cons_of_mem t hu)
    simp only [List.map_cons, List.foldr_cons]
    rw [ih hl2, (int_mul_coeff a t.2 ht).1, Int.natAbs_mul, Nat.gcd_mul_left]

/-- The lcm of the denominators of `a * q` is one. -/
theorem lcm_fold_affine (a : ℤ) (l : List (Monomial × ℚ)) (hl : ∀ t ∈ l, t.2.den = 1) :
    (l.map (fun t => (t.1, (a : ℚ) * t.2))).foldr (fun t m => Nat.lcm t.2.den m) 1 = 1 := by
  induction l with
  | nil => simp
  | cons t l ih =>
    have ht : t.2.den = 1 := hl t (List.mem_cons_self t l)
    have hl2 : ∀ u ∈ l, u.2.den = 1 := fun u hu => hl u (List.mem_cons_of_mem t hu)
    simp only [List.map_cons, List.foldr_cons]
    rw [ih hl2, (int_mul_coeff a t.2 ht).2]
    rfl

/-- The modelled coprime factor of `a * q + c` is `1 / a` when `q` is
normalised. -/
theorem coprimeFactor_affine (q : Pol) (a : ℤ) (c : ℚ) (ha : a ≠ 0) (hq : q.IsNormalised) :
    (Pol.affine a q c).coprimeFactorWithoutConstant = 1 / (a : ℚ) := by
  obtain ⟨hint, hgcd, t, hlast, hpos⟩ := hq
  have haq : (a : ℚ) ≠ 0 := Int.cast_ne_zero.mpr ha
  have hca : ((a.natAbs : ℕ) : ℚ) = |(a : ℚ)| := by
    rw [Nat.cast_natAbs, Int.cast_abs]
  simp only [Pol.coprimeFactorWithoutConstant, Pol.affine, gcd_fold_affine a q.terms hint,
    lcm_fold_affine a q.terms hint, hgcd, List.getLast?_map, hlast, Option.map_some,
    mul_one, Nat.cast_one, hca]
  rcases lt_or_gt_of_ne ha with h1 | h1
  · have h1q : (a : ℚ) < 0 := Int.cast_lt_zero.mpr h1
    simp only [Option.map, if_pos (mul_neg_of_neg_of_pos h1q hpos), abs_of_neg h1q]
    field_simp
  · have h1q : (0 : ℚ) < a := Int.cast_pos.mpr h1
    simp only [Option.map, if_neg (not_lt.mpr (mul_pos h1q hpos).le), abs_of_pos h1q]

/-- Constraints over `a * q + c` and `b * q + d` with normalised `q` and
nonzero integers `a`, `b` are a comparable pair for the modelled coprime
factor. -/
theorem comparable_of_normalised (A B : Constraint) (q : Pol) (a b : ℤ) (c d : ℚ)
    (hq : q.IsNormalised) (ha : a ≠ 0) (hb : b ≠ 0)
    (hA : A.lhs = Pol.affine a q c) (hB : B.lhs = Pol.affine b q d) :
    Comparable Pol.coprimeFactorWithoutConstant A B q a b c d where
  nonconstant := by
    obtain ⟨_, _, t, hlast, _⟩ := hq
    intro hnil
    rw [hnil] at hlast
    simp at hlast
  a_ne := ha
  b_ne := hb
  lhsA := hA
  lhsB := hB
  factorA := by rw [hA]; exact coprimeFactor_affine q a c ha hq
  factorB := by rw [hB]; exact coprimeFactor_affine q b d hb hq

/-- On a comparable pair the assertion of line 730 holds. -/
theorem compareAssertion_of_comparable {cf : Pol → ℚ} {A B : Constraint} {q : Pol} {a b : ℤ}
    {c d : ℚ} (h : Comparable cf A B q a b c d) : compareAssertion cf B = true := by
  have hb : 0 < |b| := abs_pos.mpr h.b_ne
  have habs : |(1 : ℚ) / (b : ℚ)| = ((|b| : ℤ) : ℚ)⁻¹ := by
    rw [abs_div, abs_one, one_div, Int.cast_abs]
  simp only [compareAssertion, h.factorB, habs, Rat.inv_intCast_num_of_pos hb, decide_True]

/-- The function returns the value of the lines after the assertion when the
assertion holds, and nothing otherwise. -/
theorem compare_eq (cf : Pol → ℚ) (A B : Constraint) :
    compare cf A B
      = if compareAssertion cf B = true then some (compareValue cf A B) else none := by
  unfold compare compareValue compareAssertion
  simp only [decide_eq_true_eq]
  split_ifs <;> rfl

/-- On a comparable pair the assertion holds and the function returns the value
of the lines after it. -/
theorem compare_of_comparable {cf : Pol → ℚ} {A B : Constraint} {q : Pol} {a b : ℤ}
    {c d : ℚ} (h : Comparable cf A B q a b c d) :
    compare cf A B = some (compareValue cf A B) := by
  rw [compare_eq, if_pos (compareAssertion_of_comparable h)]

/-- A value returned by the function is the value of the lines after the
assertion. -/
theorem compareValue_of_compare {cf : Pol → ℚ} {A B : Constraint} {v : Int}
    (h : compare cf A B = some v) : compareValue cf A B = v := by
  rw [compare_eq] at h
  split_ifs at h
  exact Option.some.inj h

/-- On a comparable pair the function returns the value of the lines after the
assertion. -/
theorem compare_of_value {cf : Pol → ℚ} {A B : Constraint} {q : Pol} {a b : ℤ}
    {c d : ℚ} (h : Comparable cf A B q a b c d) {v : Int} (hv : compareValue cf A B = v) :
    compare cf A B = some v := by
  rw [compare_of_comparable h, hv]

/-! ## Soundness of the outcomes -/

/-- C3: on a comparable pair, an outcome A_IFF_B (2) of compare means that A and
B have the same solutions in the shared quantity: every real value t of q
satisfies a*t + c ~A 0 exactly when it satisfies b*t + d ~B 0. -/
theorem compare_iff_sound (cf : Pol → ℚ) (A B : Constraint) (q : Pol) (a b : ℤ) (c d : ℚ)
    (h : Comparable cf A B q a b c d) (hres : compare cf A B = some A_IFF_B) :
    ∀ t : ℝ, A.relation.holds ((a : ℝ) * t + (c : ℝ)) ↔
      B.relation.holds ((b : ℝ) * t + (d : ℝ)) := by
  have hres := compareValue_of_compare hres
  obtain ⟨s, C, D, rA, rB, _, hcmp, hA, hB⟩ := compare_reduce h
  intro t
  rw [hA t, hB t]
  exact compareTable_iff_sound rA rB C D (hcmp ▸ hres) (s * t)

/-- C4: on a comparable pair, an outcome NOT__A_AND_B (-2) of compare means that
no real value of the shared quantity satisfies both A and B. -/
theorem compare_not_sound (cf : Pol → ℚ) (A B : Constraint) (q : Pol) (a b : ℤ) (c d : ℚ)
    (h : Comparable cf A B q a b c d) (hres : compare cf A B = some NOT__A_AND_B) :
    ∀ t : ℝ, ¬ (A.relation.holds ((a : ℝ) * t + (c : ℝ)) ∧
      B.relation.holds ((b : ℝ) * t + (d : ℝ))) := by
  have hres := compareValue_of_compare hres
  obtain ⟨s, C, D, rA, rB, _, hcmp, hA, hB⟩ := compare_reduce h
  intro t
  rw [hA t, hB t]
  exact compareTable_not_sound rA rB C D (hcmp ▸ hres) (s * t)

/-- C5: on a comparable pair, an outcome A_XOR_B (-4) of compare means that the
two solution sets partition the real line: every real value of the shared
quantity satisfies exactly one of A and B. -/
theorem compare_xor_sound (cf : Pol → ℚ) (A B : Constraint) (q : Pol) (a b : ℤ) (c d : ℚ)
    (h : Comparable cf A B q a b c d) (hres : compare cf A B = some A_XOR_B) :
    ∀ t : ℝ,
      (A.relation.holds ((a : ℝ) * t + (c : ℝ)) ∧ ¬ B.relation.holds ((b : ℝ) * t + (d : ℝ))) ∨
      (¬ A.relation.holds ((a : ℝ) * t + (c : ℝ)) ∧ B.relation.holds ((b : ℝ) * t + (d : ℝ))) := by
  have hres := compareValue_of_compare hres
  obtain ⟨s, C, D, rA, rB, _, hcmp, hA, hB⟩ := compare_reduce h
  intro t
  rw [hA t, hB t]
  have hx := compareTable_xor_sound rA rB C D (hcmp ▸ hres) (s * t)
  by_cases hb : rB.holds (s * t + D)
  · exact Or.inr ⟨fun ha => (hx.mp ha) hb, hb⟩
  · exact Or.inl ⟨hx.mpr hb, hb⟩

/-- The atom `s * t + C = 0` in `t`, for nonzero `s`. -/
theorem point_iff (s C t : ℝ) (hs : s ≠ 0) : s * t + C = 0 ↔ t = -C / s := by
  rw [eq_div_iff hs]
  constructor <;> intro h0 <;> linarith

/-- The atom `s * t + C < 0` in `t`, for positive `s`. -/
theorem ray_lt_of_pos (s C t : ℝ) (hs : 0 < s) : s * t + C < 0 ↔ t < -C / s := by
  rw [lt_div_iff₀ hs]
  constructor <;> intro h0 <;> linarith

/-- The atom `0 < s * t + C` in `t`, for positive `s`. -/
theorem ray_gt_of_pos (s C t : ℝ) (hs : 0 < s) : 0 < s * t + C ↔ -C / s < t := by
  rw [div_lt_iff₀ hs]
  constructor <;> intro h0 <;> linarith

/-- The atom `s * t + C < 0` in `t`, for negative `s`. -/
theorem ray_lt_of_neg (s C t : ℝ) (hs : s < 0) : s * t + C < 0 ↔ -C / s < t := by
  rw [div_lt_iff_of_neg hs]
  constructor <;> intro h0 <;> linarith

/-- The atom `0 < s * t + C` in `t`, for negative `s`. -/
theorem ray_gt_of_neg (s C t : ℝ) (hs : s < 0) : 0 < s * t + C ↔ t < -C / s := by
  rw [lt_div_iff_of_neg hs]
  constructor <;> intro h0 <;> linarith

/-- C6 (amended): on a comparable pair, an outcome A_AND_B__IFF_C (-3) of compare
means that neither solution set contains the other and that the common
solutions are those of one constraint C over the shared quantity: exactly one
point, or one open ray ending in a point. -/
theorem compare_and_meaning (cf : Pol → ℚ) (A B : Constraint) (q : Pol) (a b : ℤ) (c d : ℚ)
    (h : Comparable cf A B q a b c d) (hres : compare cf A B = some A_AND_B__IFF_C) :
    (∃ t : ℝ, A.relation.holds ((a : ℝ) * t + (c : ℝ)) ∧
      ¬ B.relation.holds ((b : ℝ) * t + (d : ℝ))) ∧
    (∃ t : ℝ, B.relation.holds ((b : ℝ) * t + (d : ℝ)) ∧
      ¬ A.relation.holds ((a : ℝ) * t + (c : ℝ))) ∧
    ∃ θ : ℝ,
      (∀ t : ℝ, (A.relation.holds ((a : ℝ) * t + (c : ℝ)) ∧
        B.relation.holds ((b : ℝ) * t + (d : ℝ))) ↔ t = θ) ∨
      (∀ t : ℝ, (A.relation.holds ((a : ℝ) * t + (c : ℝ)) ∧
        B.relation.holds ((b : ℝ) * t + (d : ℝ))) ↔ t < θ) ∨
      (∀ t : ℝ, (A.relation.holds ((a : ℝ) * t + (c : ℝ)) ∧
        B.relation.holds ((b : ℝ) * t + (d : ℝ))) ↔ θ < t) := by
  have hres := compareValue_of_compare hres
  obtain ⟨s, C, D, rA, rB, hs, hcmp, hA, hB⟩ := compare_reduce h
  obtain ⟨⟨p1, hp1, hp1n⟩, ⟨p2, hp2, hp2n⟩, hmeet⟩ :=
    compareTable_and_sound rA rB C D (hcmp ▸ hres)
  have hmul : ∀ p : ℝ, s * (p / s) = p := fun p => mul_div_cancel₀ p hs
  refine ⟨⟨p1 / s, ?_, ?_⟩, ⟨p2 / s, ?_, ?_⟩, -C / s, ?_⟩
  · rw [hA, hmul]; exact hp1
  · rw [hB, hmul]; exact hp1n
  · rw [hB, hmul]; exact hp2
  · rw [hA, hmul]; exact hp2n
  · rcases hmeet with hpt | hlt | hgt
    · left
      intro t
      rw [hA t, hB t, hpt (s * t)]
      exact point_iff s C t hs
    · rcases lt_or_gt_of_ne hs with hneg | hpos
      · right; right
        intro t
        rw [hA t, hB t, hlt (s * t)]
        exact ray_lt_of_neg s C t hneg
      · right; left
        intro t
        rw [hA t, hB t, hlt (s * t)]
        exact ray_lt_of_pos s C t hpos
    · rcases lt_or_gt_of_ne hs with hneg | hpos
      · right; left
        intro t
        rw [hA t, hB t, hgt (s * t)]
        exact ray_gt_of_neg s C t hneg
      · right; right
        intro t
        rw [hA t, hB t, hgt (s * t)]
        exact ray_gt_of_pos s C t hpos

/-- C8 (amended): on a comparable pair with disjoint solution sets, compare
returns NOT__A_AND_B (-2) when some real value of the shared quantity satisfies
neither constraint, and A_XOR_B (-4) when every real value satisfies one of
them. -/
theorem compare_disjoint_classified (cf : Pol → ℚ) (A B : Constraint) (q : Pol) (a b : ℤ)
    (c d : ℚ) (h : Comparable cf A B q a b c d)
    (hdisj : ∀ t : ℝ, ¬ (A.relation.holds ((a : ℝ) * t + (c : ℝ)) ∧
      B.relation.holds ((b : ℝ) * t + (d : ℝ)))) :
    ((∃ t : ℝ, ¬ A.relation.holds ((a : ℝ) * t + (c : ℝ)) ∧
        ¬ B.relation.holds ((b : ℝ) * t + (d : ℝ))) → compare cf A B = some NOT__A_AND_B) ∧
    ((∀ t : ℝ, A.relation.holds ((a : ℝ) * t + (c : ℝ)) ∨
        B.relation.holds ((b : ℝ) * t + (d : ℝ))) → compare cf A B = some A_XOR_B) := by
  obtain ⟨s, C, D, rA, rB, hs, hcmp, hA, hB⟩ := compare_reduce h
  have hmul : ∀ p : ℝ, s * (p / s) = p := fun p => mul_div_cancel₀ p hs
  have hdisjp : ∀ p : ℝ, ¬ (rA.holds (p + C) ∧ rB.holds (p + D)) := by
    intro p hp
    apply hdisj (p / s)
    rw [hA, hB, hmul]
    exact hp
  rw [compare_of_comparable h, hcmp]
  rcases compareTable_disjoint rA rB C D hdisjp with hnot | hxor
  · refine ⟨fun _ => congrArg some hnot, fun hcover => ?_⟩
    obtain ⟨p, hpA, hpB⟩ := compareTable_not_gap rA rB C D hnot
    exfalso
    rcases hcover (p / s) with hc | hc
    · rw [hA, hmul] at hc; exact hpA hc
    · rw [hB, hmul] at hc; exact hpB hc
  · refine ⟨fun hgap => ?_, fun _ => congrArg some hxor⟩
    obtain ⟨t, htA, htB⟩ := hgap
    exfalso
    rw [hA] at htA
    rw [hB] at htB
    exact htA ((compareTable_xor_sound rA rB C D hxor (s * t)).mpr htB)

/-! ## Reflexivity and negation -/

/-- The case table on equal relations and equal constant parts. -/
theorem compareTable_self (r : Relation) (c : ℚ) : compareTable r r c c = A_IFF_B := by
  cases r <;> simp [compareTable]

/-- The case table on a relation, its inverse and equal constant parts. -/
theorem compareTable_inverse (r : Relation) (c : ℚ) :
    compareTable r (inverse r) c c = A_XOR_B := by
  cases r <;> simp [compareTable, inverse]

/-- With one left-hand side on both sides `compare` reaches the case table with
the relations and the constant part unchanged. -/
theorem compare_same_lhs (cf : Pol → ℚ) (p : Pol) (rA rB : Relation) :
    compareValue cf ⟨p, rA⟩ ⟨p, rB⟩ = compareTable rA rB p.constantPart p.constantPart := by
  have hden : ((cf p).den : ℚ) ≠ 0 := Nat.cast_ne_zero.mpr (cf p).den_ne_zero
  have h10 : ¬ ((1 : ℚ) < 0) := by norm_num
  simp [compareValue, div_self hden, h10]

/-! ## Concrete pairs -/

/-- The polynomial `x` is normalised. -/
theorem xPol_normalised : xPol.IsNormalised := by
  refine ⟨?_, ?_, ([(0, 1)], 1), ?_, ?_⟩ <;> simp [xPol]

/-- The polynomial `x` is `1 * x + 0`. -/
theorem xPol_affine : xPol = Pol.affine ((1 : ℤ) : ℚ) xPol 0 := by
  simp [xPol, Pol.affine]

/-- C1: the pair `x >= 0`, `x > 0` is comparable and compare returns
A_IMPLIES_B (1) on it, although the value 0 of `x` satisfies `x >= 0` and not
`x > 0`. -/
theorem compare_geq_greater_unsound :
    Comparable Pol.coprimeFactorWithoutConstant ⟨xPol, Relation.GEQ⟩ ⟨xPol, Relation.GREATER⟩
      xPol 1 1 0 0 ∧
    compare Pol.coprimeFactorWithoutConstant ⟨xPol, Relation.GEQ⟩ ⟨xPol, Relation.GREATER⟩
      = some A_IMPLIES_B ∧
    Relation.GEQ.holds (((1 : ℤ) : ℝ) * 0 + ((0 : ℚ) : ℝ)) ∧
    ¬ Relation.GREATER.holds (((1 : ℤ) : ℝ) * 0 + ((0 : ℚ) : ℝ)) := by
  refine ⟨comparable_of_normalised _ _ xPol 1 1 0 0 xPol_normalised (by decide) (by decide)
    xPol_affine xPol_affine, ?_, ?_, ?_⟩
  · refine compare_of_value (comparable_of_normalised _ _ xPol 1 1 0 0 xPol_normalised (by decide) (by decide)
      xPol_affine xPol_affine) ?_
    norm_num [compareValue, Pol.coprimeFactorWithoutConstant, xPol, Pol.subNum, Pol.mulNum,
      compareTable, A_IMPLIES_B]
  · norm_num [Relation.holds]
  · norm_num [Relation.holds]

/-- C2: the pair `x > 0`, `x + 1 >= 0` is comparable and compare returns
B_IMPLIES_A (-1) on it, although the value -1 of `x` satisfies `x + 1 >= 0` and
not `x > 0`. -/
theorem compare_greater_geq_unsound :
    Comparable Pol.coprimeFactorWithoutConstant ⟨xPol, Relation.GREATER⟩
      ⟨Pol.affine ((1 : ℤ) : ℚ) xPol 1, Relation.GEQ⟩ xPol 1 1 0 1 ∧
    compare Pol.coprimeFactorWithoutConstant ⟨xPol, Relation.GREATER⟩
      ⟨Pol.affine ((1 : ℤ) : ℚ) xPol 1, Relation.GEQ⟩ = some B_IMPLIES_A ∧
    Relation.GEQ.holds (((1 : ℤ) : ℝ) * (-1) + ((1 : ℚ) : ℝ)) ∧
    ¬ Relation.GREATER.holds (((1 : ℤ) : ℝ) * (-1) + ((0 : ℚ) : ℝ)) := by
  refine ⟨comparable_of_normalised _ _ xPol 1 1 0 1 xPol_normalised (by decide) (by decide)
    xPol_affine rfl, ?_, ?_, ?_⟩
  · refine compare_of_value (comparable_of_normalised _ _ xPol 1 1 0 1 xPol_normalised (by decide) (by decide)
      xPol_affine rfl) ?_
    norm_num [compareValue, Pol.coprimeFactorWithoutConstant, xPol, Pol.subNum, Pol.mulNum,
      Pol.affine, compareTable, B_IMPLIES_A]
  · norm_num [Relation.holds]
  · norm_num [Relation.holds]

/-- C7: the pair `x - 1 > 0`, `x >= 0` is comparable, every solution of the
first constraint is a solution of the second and 0 is a solution of the second
only, yet compare returns B_IMPLIES_A (-1) and not A_IMPLIES_B (1). -/
theorem compare_proper_subset_missed :
    Comparable Pol.coprimeFactorWithoutConstant
      ⟨Pol.affine ((1 : ℤ) : ℚ) xPol (-1), Relation.GREATER⟩ ⟨xPol, Relation.GEQ⟩
      xPol 1 1 (-1) 0 ∧
    (∀ t : ℝ, Relation.GREATER.holds (((1 : ℤ) : ℝ) * t + ((-1 : ℚ) : ℝ)) →
      Relation.GEQ.holds (((1 : ℤ) : ℝ) * t + ((0 : ℚ) : ℝ))) ∧
    (Relation.GEQ.holds (((1 : ℤ) : ℝ) * 0 + ((0 : ℚ) : ℝ)) ∧
      ¬ Relation.GREATER.holds (((1 : ℤ) : ℝ) * 0 + ((-1 : ℚ) : ℝ))) ∧
    compare Pol.coprimeFactorWithoutConstant
      ⟨Pol.affine ((1 : ℤ) : ℚ) xPol (-1), Relation.GREATER⟩ ⟨xPol, Relation.GEQ⟩
      = some B_IMPLIES_A ∧
    compare Pol.coprimeFactorWithoutConstant
      ⟨Pol.affine ((1 : ℤ) : ℚ) xPol (-1), Relation.GREATER⟩ ⟨xPol, Relation.GEQ⟩
      ≠ some A_IMPLIES_B := by
  have hval : compareValue Pol.coprimeFactorWithoutConstant
      ⟨Pol.affine ((1 : ℤ) : ℚ) xPol (-1), Relation.GREATER⟩ ⟨xPol, Relation.GEQ⟩
      = B_IMPLIES_A := by
    norm_num [compareValue, Pol.coprimeFactorWithoutConstant, xPol, Pol.subNum, Pol.mulNum,
      Pol.affine, compareTable, B_IMPLIES_A]
  have hc : Comparable Pol.coprimeFactorWithoutConstant
      ⟨Pol.affine ((1 : ℤ) : ℚ) xPol (-1), Relation.GREATER⟩ ⟨xPol, Relation.GEQ⟩
      xPol 1 1 (-1) 0 :=
    comparable_of_normalised _ _ xPol 1 1 (-1) 0 xPol_normalised (by decide) (by decide)
      rfl xPol_affine
  have hcv := compare_of_value hc hval
  refine ⟨hc, ?_, ⟨?_, ?_⟩, hcv, ?_⟩
  · intro t ht
    simp only [Relation.holds] at ht ⊢
    push_cast at ht ⊢
    linarith
  · norm_num [Relation.holds]
  · norm_num [Relation.holds]
  · rw [hcv]
    decide

/-- C6: the pair `x <= 0`, `x != 0` is comparable and compare returns
A_AND_B__IFF_C (-3) on it, while the common solutions are all negative values
of `x` and not one point. -/
theorem compare_leq_neq_not_a_point :
    Comparable Pol.coprimeFactorWithoutConstant ⟨xPol, Relation.LEQ⟩ ⟨xPol, Relation.NEQ⟩
      xPol 1 1 0 0 ∧
    compare Pol.coprimeFactorWithoutConstant ⟨xPol, Relation.LEQ⟩ ⟨xPol, Relation.NEQ⟩
      = some A_AND_B__IFF_C ∧
    ¬ ∃ θ : ℝ, ∀ t : ℝ, (Relation.LEQ.holds (((1 : ℤ) : ℝ) * t + ((0 : ℚ) : ℝ)) ∧
      Relation.NEQ.holds (((1 : ℤ) : ℝ) * t + ((0 : ℚ) : ℝ))) ↔ t = θ := by
  refine ⟨comparable_of_normalised _ _ xPol 1 1 0 0 xPol_normalised (by decide) (by decide)
    xPol_affine xPol_affine, ?_, ?_⟩
  · refine compare_of_value (comparable_of_normalised _ _ xPol 1 1 0 0 xPol_normalised (by decide) (by decide)
      xPol_affine xPol_affine) ?_
    norm_num [compareValue, Pol.coprimeFactorWithoutConstant, xPol, Pol.subNum, Pol.mulNum,
      Pol.affine, compareTable, turnAround, A_IFF_B, A_IMPLIES_B, B_IMPLIES_A, NOT__A_AND_B,
      A_AND_B__IFF_C, A_XOR_B]
  · rintro ⟨θ, hθ⟩
    have h1 : (-1 : ℝ) = θ := (hθ (-1)).mp (by norm_num [Relation.holds])
    have h2 : (-2 : ℝ) = θ := (hθ (-2)).mp (by norm_num [Relation.holds])
    linarith

/-- C8: the pair `x = 0`, `x != 0` is comparable and has disjoint solution
sets, and compare returns A_XOR_B (-4) on it, not NOT__A_AND_B (-2). -/
theorem compare_eq_neq_disjoint_is_xor :
    Comparable Pol.coprimeFactorWithoutConstant ⟨xPol, Relation.EQ⟩ ⟨xPol, Relation.NEQ⟩
      xPol 1 1 0 0 ∧
    (∀ t : ℝ, ¬ (Relation.EQ.holds (((1 : ℤ) : ℝ) * t + ((0 : ℚ) : ℝ)) ∧
      Relation.NEQ.holds (((1 : ℤ) : ℝ) * t + ((0 : ℚ) : ℝ)))) ∧
    compare Pol.coprimeFactorWithoutConstant ⟨xPol, Relation.EQ⟩ ⟨xPol, Relation.NEQ⟩
      = some A_XOR_B ∧
    compare Pol.coprimeFactorWithoutConstant ⟨xPol, Relation.EQ⟩ ⟨xPol, Relation.NEQ⟩
      ≠ some NOT__A_AND_B := by
  have hval : compareValue Pol.coprimeFactorWithoutConstant ⟨xPol, Relation.EQ⟩
      ⟨xPol, Relation.NEQ⟩ = A_XOR_B := by
    norm_num [compareValue, Pol.coprimeFactorWithoutConstant, xPol, Pol.subNum, Pol.mulNum,
      Pol.affine, compareTable, turnAround, A_IFF_B, A_IMPLIES_B, B_IMPLIES_A, NOT__A_AND_B,
      A_AND_B__IFF_C, A_XOR_B]
  have hc : Comparable Pol.coprimeFactorWithoutConstant ⟨xPol, Relation.EQ⟩
      ⟨xPol, Relation.NEQ⟩ xPol 1 1 0 0 :=
    comparable_of_normalised _ _ xPol 1 1 0 0 xPol_normalised (by decide) (by decide)
      xPol_affine xPol_affine
  have hcv := compare_of_value hc hval
  refine ⟨hc, ?_, hcv, ?_⟩
  · intro t ht
    exact ht.2 ht.1
  · rw [hcv]
    decide

/-! ## Instances of the theorems -/

/-- Instance of C3: `2x + 2 <= 0` and `-3x - 3 >= 0` are classified equivalent
and have the same solutions. -/
theorem compare_iff_sound_witness :
    Comparable Pol.coprimeFactorWithoutConstant
      ⟨Pol.affine ((2 : ℤ) : ℚ) xPol 2, Relation.LEQ⟩
      ⟨Pol.affine ((-3 : ℤ) : ℚ) xPol (-3), Relation.GEQ⟩ xPol 2 (-3) 2 (-3) ∧
    compare Pol.coprimeFactorWithoutConstant
      ⟨Pol.affine ((2 : ℤ) : ℚ) xPol 2, Relation.LEQ⟩
      ⟨Pol.affine ((-3 : ℤ) : ℚ) xPol (-3), Relation.GEQ⟩ = some A_IFF_B ∧
    ∀ t : ℝ, Relation.LEQ.holds (((2 : ℤ) : ℝ) * t + ((2 : ℚ) : ℝ)) ↔
      Relation.GEQ.holds (((-3 : ℤ) : ℝ) * t + ((-3 : ℚ) : ℝ)) := by
  have hc : Comparable Pol.coprimeFactorWithoutConstant
      ⟨Pol.affine ((2 : ℤ) : ℚ) xPol 2, Relation.LEQ⟩
      ⟨Pol.affine ((-3 : ℤ) : ℚ) xPol (-3), Relation.GEQ⟩ xPol 2 (-3) 2 (-3) :=
    comparable_of_normalised _ _ xPol 2 (-3) 2 (-3) xPol_normalised (by decide) (by decide)
      rfl rfl
  have hv : compareValue Pol.coprimeFactorWithoutConstant
      ⟨Pol.affine ((2 : ℤ) : ℚ) xPol 2, Relation.LEQ⟩
      ⟨Pol.affine ((-3 : ℤ) : ℚ) xPol (-3), Relation.GEQ⟩ = A_IFF_B := by
    norm_num [compareValue, Pol.coprimeFactorWithoutConstant, xPol, Pol.subNum, Pol.mulNum,
      Pol.affine, compareTable, turnAround, A_IFF_B, A_IMPLIES_B, B_IMPLIES_A, NOT__A_AND_B,
      A_AND_B__IFF_C, A_XOR_B]
  exact ⟨hc, compare_of_value hc hv,
    compare_iff_sound _ _ _ xPol 2 (-3) 2 (-3) hc (compare_of_value hc hv)⟩

/-- Instance of C4: `2x - 4 > 0` and `-x + 1 >= 0` are classified mutually
exclusive and have no common solution. -/
theorem compare_not_sound_witness :
    Comparable Pol.coprimeFactorWithoutConstant
      ⟨Pol.affine ((2 : ℤ) : ℚ) xPol (-4), Relation.GREATER⟩
      ⟨Pol.affine ((-1 : ℤ) : ℚ) xPol 1, Relation.GEQ⟩ xPol 2 (-1) (-4) 1 ∧
    compare Pol.coprimeFactorWithoutConstant
      ⟨Pol.affine ((2 : ℤ) : ℚ) xPol (-4), Relation.GREATER⟩
      ⟨Pol.affine ((-1 : ℤ) : ℚ) xPol 1, Relation.GEQ⟩ = some NOT__A_AND_B ∧
    ∀ t : ℝ, ¬ (Relation.GREATER.holds (((2 : ℤ) : ℝ) * t + ((-4 : ℚ) : ℝ)) ∧
      Relation.GEQ.holds (((-1 : ℤ) : ℝ) * t + ((1 : ℚ) : ℝ))) := by
  have hc : Comparable Pol.coprimeFactorWithoutConstant
      ⟨Pol.affine ((2 : ℤ) : ℚ) xPol (-4), Relation.GREATER⟩
      ⟨Pol.affine ((-1 : ℤ) : ℚ) xPol 1, Relation.GEQ⟩ xPol 2 (-1) (-4) 1 :=
    comparable_of_normalised _ _ xPol 2 (-1) (-4) 1 xPol_normalised (by decide) (by decide)
      rfl rfl
  have hv : compareValue Pol.coprimeFactorWithoutConstant
      ⟨Pol.affine ((2 : ℤ) : ℚ) xPol (-4), Relation.GREATER⟩
      ⟨Pol.affine ((-1 : ℤ) : ℚ) xPol 1, Relation.GEQ⟩ = NOT__A_AND_B := by
    norm_num [compareValue, Pol.coprimeFactorWithoutConstant, xPol, Pol.subNum, Pol.mulNum,
      Pol.affine, compareTable, turnAround, A_IFF_B, A_IMPLIES_B, B_IMPLIES_A, NOT__A_AND_B,
      A_AND_B__IFF_C, A_XOR_B]
  exact ⟨hc, compare_of_value hc hv,
    compare_not_sound _ _ _ xPol 2 (-1) (-4) 1 hc (compare_of_value hc hv)⟩

/-- Instance of C5: `-x < 0` and `2x <= 0` are classified complementary and
every real value satisfies exactly one of them. -/
theorem compare_xor_sound_witness :
    Comparable Pol.coprimeFactorWithoutConstant
      ⟨Pol.affine ((-1 : ℤ) : ℚ) xPol 0, Relation.LESS⟩
      ⟨Pol.affine ((2 : ℤ) : ℚ) xPol 0, Relation.LEQ⟩ xPol (-1) 2 0 0 ∧
    compare Pol.coprimeFactorWithoutConstant
      ⟨Pol.affine ((-1 : ℤ) : ℚ) xPol 0, Relation.LESS⟩
      ⟨Pol.affine ((2 : ℤ) : ℚ) xPol 0, Relation.LEQ⟩ = some A_XOR_B ∧
    ∀ t : ℝ,
      (Relation.LESS.holds (((-1 : ℤ) : ℝ) * t + ((0 : ℚ) : ℝ)) ∧
        ¬ Relation.LEQ.holds (((2 : ℤ) : ℝ) * t + ((0 : ℚ) : ℝ))) ∨
      (¬ Relation.LESS.holds (((-1 : ℤ) : ℝ) * t + ((0 : ℚ) : ℝ)) ∧
        Relation.LEQ.holds (((2 : ℤ) : ℝ) * t + ((0 : ℚ) : ℝ))) := by
  have hc : Comparable Pol.coprimeFactorWithoutConstant
      ⟨Pol.affine ((-1 : ℤ) : ℚ) xPol 0, Relation.LESS⟩
      ⟨Pol.affine ((2 : ℤ) : ℚ) xPol 0, Relation.LEQ⟩ xPol (-1) 2 0 0 :=
    comparable_of_normalised _ _ xPol (-1) 2 0 0 xPol_normalised (by decide) (by decide)
      rfl rfl
  have hv : compareValue Pol.coprimeFactorWithoutConstant
      ⟨Pol.affine ((-1 : ℤ) : ℚ) xPol 0, Relation.LESS⟩
      ⟨Pol.affine ((2 : ℤ) : ℚ) xPol 0, Relation.LEQ⟩ = A_XOR_B := by
    norm_num [compareValue, Pol.coprimeFactorWithoutConstant, xPol, Pol.subNum, Pol.mulNum,
      Pol.affine, compareTable, turnAround, A_IFF_B, A_IMPLIES_B, B_IMPLIES_A, NOT__A_AND_B,
      A_AND_B__IFF_C, A_XOR_B]
  exact ⟨hc, compare_of_value hc hv,
    compare_xor_sound _ _ _ xPol (-1) 2 0 0 hc (compare_of_value hc hv)⟩

/-- Instance of C6 (amended): `x <= 0` and `x >= 0` are classified -3; neither
contains the other and the common solutions are a point or an open ray. -/
theorem compare_and_meaning_witness :
    Comparable Pol.coprimeFactorWithoutConstant ⟨xPol, Relation.LEQ⟩ ⟨xPol, Relation.GEQ⟩
      xPol 1 1 0 0 ∧
    compare Pol.coprimeFactorWithoutConstant ⟨xPol, Relation.LEQ⟩ ⟨xPol, Relation.GEQ⟩
      = some A_AND_B__IFF_C ∧
    ((∃ t : ℝ, Relation.LEQ.holds (((1 : ℤ) : ℝ) * t + ((0 : ℚ) : ℝ)) ∧
      ¬ Relation.GEQ.holds (((1 : ℤ) : ℝ) * t + ((0 : ℚ) : ℝ))) ∧
    (∃ t : ℝ, Relation.GEQ.holds (((1 : ℤ) : ℝ) * t + ((0 : ℚ) : ℝ)) ∧
      ¬ Relation.LEQ.holds (((1 : ℤ) : ℝ) * t + ((0 : ℚ) : ℝ))) ∧
    ∃ θ : ℝ,
      (∀ t : ℝ, (Relation.LEQ.holds (((1 : ℤ) : ℝ) * t + ((0 : ℚ) : ℝ)) ∧
        Relation.GEQ.holds (((1 : ℤ) : ℝ) * t + ((0 : ℚ) : ℝ))) ↔ t = θ) ∨
      (∀ t : ℝ, (Relation.LEQ.holds (((1 : ℤ) : ℝ) * t + ((0 : ℚ) : ℝ)) ∧
        Relation.GEQ.holds (((1 : ℤ) : ℝ) * t + ((0 : ℚ) : ℝ))) ↔ t < θ) ∨
      (∀ t : ℝ, (Relation.LEQ.holds (((1 : ℤ) : ℝ) * t + ((0 : ℚ) : ℝ)) ∧
        Relation.GEQ.holds (((1 : ℤ) : ℝ) * t + ((0 : ℚ) : ℝ))) ↔ θ < t)) := by
  have hc : Comparable Pol.coprimeFactorWithoutConstant ⟨xPol, Relation.LEQ⟩
      ⟨xPol, Relation.GEQ⟩ xPol 1 1 0 0 :=
    comparable_of_normalised _ _ xPol 1 1 0 0 xPol_normalised (by decide) (by decide)
      xPol_affine xPol_affine
  have hv : compareValue Pol.coprimeFactorWithoutConstant ⟨xPol, Relation.LEQ⟩
      ⟨xPol, Relation.GEQ⟩ = A_AND_B__IFF_C := by
    norm_num [compareValue, Pol.coprimeFactorWithoutConstant, xPol, Pol.subNum, Pol.mulNum,
      Pol.affine, compareTable, turnAround, A_IFF_B, A_IMPLIES_B, B_IMPLIES_A, NOT__A_AND_B,
      A_AND_B__IFF_C, A_XOR_B]
  exact ⟨hc, compare_of_value hc hv,
    compare_and_meaning _ _ _ xPol 1 1 0 0 hc (compare_of_value hc hv)⟩

/-- Instance of C8 (amended): `x < 0` and `x > 0` have disjoint solution sets
and 0 satisfies neither, so compare returns NOT__A_AND_B. -/
theorem compare_disjoint_classified_witness :
    Comparable Pol.coprimeFactorWithoutConstant ⟨xPol, Relation.LESS⟩
      ⟨xPol, Relation.GREATER⟩ xPol 1 1 0 0 ∧
    (∀ t : ℝ, ¬ (Relation.LESS.holds (((1 : ℤ) : ℝ) * t + ((0 : ℚ) : ℝ)) ∧
      Relation.GREATER.holds (((1 : ℤ) : ℝ) * t + ((0 : ℚ) : ℝ)))) ∧
    (((∃ t : ℝ, ¬ Relation.LESS.holds (((1 : ℤ) : ℝ) * t + ((0 : ℚ) : ℝ)) ∧
        ¬ Relation.GREATER.holds (((1 : ℤ) : ℝ) * t + ((0 : ℚ) : ℝ))) →
      compare Pol.coprimeFactorWithoutConstant ⟨xPol, Relation.LESS⟩
        ⟨xPol, Relation.GREATER⟩ = some NOT__A_AND_B) ∧
    ((∀ t : ℝ, Relation.LESS.holds (((1 : ℤ) : ℝ) * t + ((0 : ℚ) : ℝ)) ∨
        Relation.GREATER.holds (((1 : ℤ) : ℝ) * t + ((0 : ℚ) : ℝ))) →
      compare Pol.coprimeFactorWithoutConstant ⟨xPol, Relation.LESS⟩
        ⟨xPol, Relation.GREATER⟩ = some A_XOR_B)) := by
  have hc : Comparable Pol.coprimeFactorWithoutConstant ⟨xPol, Relation.LESS⟩
      ⟨xPol, Relation.GREATER⟩ xPol 1 1 0 0 :=
    comparable_of_normalised _ _ xPol 1 1 0 0 xPol_normalised (by decide) (by decide)
      xPol_affine xPol_affine
  have hd : ∀ t : ℝ, ¬ (Relation.LESS.holds (((1 : ℤ) : ℝ) * t + ((0 : ℚ) : ℝ)) ∧
      Relation.GREATER.holds (((1 : ℤ) : ℝ) * t + ((0 : ℚ) : ℝ))) := by
    intro t ht
    simp only [Relation.holds] at ht
    exact lt_asymm ht.1 ht.2
  exact ⟨hc, hd, compare_disjoint_classified _ _ _ xPol 1 1 0 0 hc hd⟩

/-! ## Folding, non-comparable inputs and the outcome 0 -/

/-- C11: the pair `x - 1 < 0`, `x <= 0` is comparable and compare returns
B_IMPLIES_A (-1) on it; after the second left-hand side is multiplied by -1
and its relation mirrored (`-x >= 0`) compare returns A_IMPLIES_B (1). -/
theorem compare_folding_changes_outcome :
    Comparable Pol.coprimeFactorWithoutConstant
      ⟨Pol.affine ((1 : ℤ) : ℚ) xPol (-1), Relation.LESS⟩ ⟨xPol, Relation.LEQ⟩
      xPol 1 1 (-1) 0 ∧
    compare Pol.coprimeFactorWithoutConstant
      ⟨Pol.affine ((1 : ℤ) : ℚ) xPol (-1), Relation.LESS⟩ ⟨xPol, Relation.LEQ⟩
      = some B_IMPLIES_A ∧
    compare Pol.coprimeFactorWithoutConstant
      ⟨Pol.affine ((1 : ℤ) : ℚ) xPol (-1), Relation.LESS⟩
      ⟨xPol.mulNum (((-1 : ℤ) : ℚ)), turnAround Relation.LEQ⟩
      = some A_IMPLIES_B := by
  refine ⟨comparable_of_normalised _ _ xPol 1 1 (-1) 0 xPol_normalised (by decide) (by decide)
    rfl xPol_affine, ?_, ?_⟩
  · refine compare_of_value (comparable_of_normalised _ _ xPol 1 1 (-1) 0 xPol_normalised (by decide) (by decide)
      rfl xPol_affine) ?_
    norm_num [compareValue, Pol.coprimeFactorWithoutConstant, xPol, yPol, Pol.subNum, Pol.mulNum,
      Pol.affine, compareTable, turnAround, A_IFF_B, A_IMPLIES_B, B_IMPLIES_A, NOT__A_AND_B,
      A_AND_B__IFF_C, A_XOR_B]
  · refine compare_of_value (comparable_of_normalised _ _ xPol 1 (-1) (-1) 0 xPol_normalised (by decide) (by decide)
      rfl (by simp [Pol.affine, Pol.mulNum, xPol])) ?_
    norm_num [compareValue, Pol.coprimeFactorWithoutConstant, xPol, yPol, Pol.subNum, Pol.mulNum,
      Pol.affine, compareTable, turnAround, A_IFF_B, A_IMPLIES_B, B_IMPLIES_A, NOT__A_AND_B,
      A_AND_B__IFF_C, A_XOR_B]

/-- C13: on a comparable pair, an outcome 0 of compare means that none of the
relationships holds: each solution set has a point outside the other, the two
sets share two different points, they are not equal and not complementary. -/
theorem compare_zero_sound (cf : Pol → ℚ) (A B : Constraint) (q : Pol) (a b : ℤ) (c d : ℚ)
    (h : Comparable cf A B q a b c d) (hres : compare cf A B = some 0) :
    (∃ t : ℝ, A.relation.holds ((a : ℝ) * t + (c : ℝ)) ∧
      ¬ B.relation.holds ((b : ℝ) * t + (d : ℝ))) ∧
    (∃ t : ℝ, B.relation.holds ((b : ℝ) * t + (d : ℝ)) ∧
      ¬ A.relation.holds ((a : ℝ) * t + (c : ℝ))) ∧
    (∃ t1 t2 : ℝ, t1 ≠ t2 ∧
      A.relation.holds ((a : ℝ) * t1 + (c : ℝ)) ∧
      B.relation.holds ((b : ℝ) * t1 + (d : ℝ)) ∧
      A.relation.holds ((a : ℝ) * t2 + (c : ℝ)) ∧
      B.relation.holds ((b : ℝ) * t2 + (d : ℝ))) ∧
    ¬ (∀ t : ℝ, A.relation.holds ((a : ℝ) * t + (c : ℝ)) ↔
      B.relation.holds ((b : ℝ) * t + (d : ℝ))) ∧
    ¬ (∀ t : ℝ, A.relation.holds ((a : ℝ) * t + (c : ℝ)) ↔
      ¬ B.relation.holds ((b : ℝ) * t + (d : ℝ))) := by
  have hres := compareValue_of_compare hres
  obtain ⟨s, C, D, rA, rB, hs, hcmp, hA, hB⟩ := compare_reduce h
  have htab : compareTable rA rB C D = 0 := hcmp ▸ hres
  have hmul : ∀ p : ℝ, s * (p / s) = p := fun p => mul_div_cancel₀ p hs
  obtain ⟨p1, hp1, hp1n⟩ := compareTable_zero_left rA rB C D htab
  obtain ⟨p2, hp2n, hp2⟩ := compareTable_zero_right rA rB C D htab
  obtain ⟨u, v, huv, huA, huB, hvA, hvB⟩ := compareTable_zero_meet rA rB C D htab
  have h1A : A.relation.holds ((a : ℝ) * (p1 / s) + (c : ℝ)) := by rw [hA, hmul]; exact hp1
  have h1B : ¬ B.relation.holds ((b : ℝ) * (p1 / s) + (d : ℝ)) := by rw [hB, hmul]; exact hp1n
  have h2A : ¬ A.relation.holds ((a : ℝ) * (p2 / s) + (c : ℝ)) := by rw [hA, hmul]; exact hp2n
  have h2B : B.relation.holds ((b : ℝ) * (p2 / s) + (d : ℝ)) := by rw [hB, hmul]; exact hp2
  have h3A : A.relation.holds ((a : ℝ) * (u / s) + (c : ℝ)) := by rw [hA, hmul]; exact huA
  have h3B : B.relation.holds ((b : ℝ) * (u / s) + (d : ℝ)) := by rw [hB, hmul]; exact huB
  have h4A : A.relation.holds ((a : ℝ) * (v / s) + (c : ℝ)) := by rw [hA, hmul]; exact hvA
  have h4B : B.relation.holds ((b : ℝ) * (v / s) + (d : ℝ)) := by rw [hB, hmul]; exact hvB
  refine ⟨⟨p1 / s, h1A, h1B⟩, ⟨p2 / s, h2B, h2A⟩, ⟨u / s, v / s, ?_, h3A, h3B, h4A, h4B⟩, ?_, ?_⟩
  · intro heq
    have huv2 : u = v := by
      have := congrArg (fun z => s * z) heq
      simpa [hmul] using this
    exact (ne_of_lt huv) huv2
  · intro hall
    exact h1B ((hall (p1 / s)).mp h1A)
  · intro hall
    exact ((hall (u / s)).mp h3A) h3B

/-- Instance of C13: `x < 0` and `x + 1 > 0` are classified 0; the open
interval between -1 and 0 is common to both and neither contains the other. -/
theorem compare_zero_sound_witness :
    Comparable Pol.coprimeFactorWithoutConstant ⟨xPol, Relation.LESS⟩
      ⟨Pol.affine ((1 : ℤ) : ℚ) xPol 1, Relation.GREATER⟩ xPol 1 1 0 1 ∧
    compare Pol.coprimeFactorWithoutConstant ⟨xPol, Relation.LESS⟩
      ⟨Pol.affine ((1 : ℤ) : ℚ) xPol 1, Relation.GREATER⟩ = some 0 ∧
    ((∃ t : ℝ, Relation.LESS.holds (((1 : ℤ) : ℝ) * t + ((0 : ℚ) : ℝ)) ∧
      ¬ Relation.GREATER.holds (((1 : ℤ) : ℝ) * t + ((1 : ℚ) : ℝ))) ∧
    (∃ t : ℝ, Relation.GREATER.holds (((1 : ℤ) : ℝ) * t + ((1 : ℚ) : ℝ)) ∧
      ¬ Relation.LESS.holds (((1 : ℤ) : ℝ) * t + ((0 : ℚ) : ℝ))) ∧
    (∃ t1 t2 : ℝ, t1 ≠ t2 ∧
      Relation.LESS.holds (((1 : ℤ) : ℝ) * t1 + ((0 : ℚ) : ℝ)) ∧
      Relation.GREATER.holds (((1 : ℤ) : ℝ) * t1 + ((1 : ℚ) : ℝ)) ∧
      Relation.LESS.holds (((1 : ℤ) : ℝ) * t2 + ((0 : ℚ) : ℝ)) ∧
      Relation.GREATER.holds (((1 : ℤ) : ℝ) * t2 + ((1 : ℚ) : ℝ))) ∧
    ¬ (∀ t : ℝ, Relation.LESS.holds (((1 : ℤ) : ℝ) * t + ((0 : ℚ) : ℝ)) ↔
      Relation.GREATER.holds (((1 : ℤ) : ℝ) * t + ((1 : ℚ) : ℝ))) ∧
    ¬ (∀ t : ℝ, Relation.LESS.holds (((1 : ℤ) : ℝ) * t + ((0 : ℚ) : ℝ)) ↔
      ¬ Relation.GREATER.holds (((1 : ℤ) : ℝ) * t + ((1 : ℚ) : ℝ)))) := by
  have hc : Comparable Pol.coprimeFactorWithoutConstant ⟨xPol, Relation.LESS⟩
      ⟨Pol.affine ((1 : ℤ) : ℚ) xPol 1, Relation.GREATER⟩ xPol 1 1 0 1 :=
    comparable_of_normalised _ _ xPol 1 1 0 1 xPol_normalised (by decide) (by decide)
      xPol_affine rfl
  have hv : compareValue Pol.coprimeFactorWithoutConstant ⟨xPol, Relation.LESS⟩
      ⟨Pol.affine ((1 : ℤ) : ℚ) xPol 1, Relation.GREATER⟩ = 0 := by
    norm_num [compareValue, Pol.coprimeFactorWithoutConstant, xPol, yPol, Pol.subNum, Pol.mulNum,
      Pol.affine, compareTable, turnAround, A_IFF_B, A_IMPLIES_B, B_IMPLIES_A, NOT__A_AND_B,
      A_AND_B__IFF_C, A_XOR_B]
  exact ⟨hc, compare_of_value hc hv,
    compare_zero_sound _ _ _ xPol 1 1 0 1 hc (compare_of_value hc hv)⟩

/-! ## compare never fails -/

/-- The case table returns one of the seven outcome values. -/
theorem compareTable_range (rA rB : Relation) (c d : ℚ) :
    compareTable rA rB c d = 2 ∨ compareTable rA rB c d = 1 ∨ compareTable rA rB c d = -1 ∨
    compareTable rA rB c d = -2 ∨ compareTable rA rB c d = -3 ∨
    compareTable rA rB c d = -4 ∨ compareTable rA rB c d = 0 := by
  cases rA <;> cases rB <;> simp only [compareTable] <;> split_ifs <;> decide

/-- The gcd of the numerators divides every numerator. -/
theorem gcd_fold_dvd (l : List (Monomial × ℚ)) :
    ∀ t ∈ l, l.foldr (fun t g => Nat.gcd t.2.num.natAbs g) 0 ∣ t.2.num.natAbs := by
  induction l with
  | nil => intro t ht; simp at ht
  | cons u l ih =>
    intro t ht
    simp only [List.foldr_cons]
    rcases List.mem_cons.mp ht with h1 | h1
    · rw [h1]; exact Nat.gcd_dvd_left _ _
    · exact (Nat.gcd_dvd_right _ _).trans (ih t h1)

/-- The gcd of the numerators is nonzero exactly when some coefficient is
nonzero. -/
theorem gcd_fold_ne_zero (l : List (Monomial × ℚ)) :
    l.foldr (fun t g => Nat.gcd t.2.num.natAbs g) 0 ≠ 0 ↔ ∃ t ∈ l, t.2 ≠ 0 := by
  induction l with
  | nil => simp
  | cons u l ih =>
    simp only [List.foldr_cons, ne_eq, Nat.gcd_eq_zero_iff, not_and_or, List.mem_cons,
      exists_eq_or_imp, Int.natAbs_eq_zero, Rat.num_eq_zero]
    rw [← ne_eq (List.foldr _ _ _), ih]

/-- Every denominator divides the lcm of the denominators, which is positive. -/
theorem lcm_fold_dvd (l : List (Monomial × ℚ)) :
    0 < l.foldr (fun t m => Nat.lcm t.2.den m) 1 ∧
    ∀ t ∈ l, t.2.den ∣ l.foldr (fun t m => Nat.lcm t.2.den m) 1 := by
  induction l with
  | nil => exact ⟨Nat.one_pos, fun t ht => by simp at ht⟩
  | cons u l ih =>
    simp only [List.foldr_cons]
    refine ⟨Nat.lcm_pos u.2.den_pos ih.1, fun t ht => ?_⟩
    rcases List.mem_cons.mp ht with h1 | h1
    · rw [h1]; exact Nat.dvd_lcm_left _ _
    · exact (ih.2 t h1).trans (Nat.dvd_lcm_right _ _)

/-- The lcm of the denominators is one when all coefficients are integers. -/
theorem lcm_fold_eq_one (l : List (Monomial × ℚ)) (hl : ∀ t ∈ l, t.2.den = 1) :
    l.foldr (fun t m => Nat.lcm t.2.den m) 1 = 1 := by
  induction l with
  | nil => rfl
  | cons u l ih =>
    simp only [List.foldr_cons]
    rw [ih (fun t ht => hl t (List.mem_cons_of_mem u ht)), hl u (List.mem_cons_self u l)]
    rfl

/-- The absolute value of the modelled coprime factor is the lcm of the
denominators over the gcd of the numerators. -/
theorem abs_coprimeFactor (p : Pol) :
    |p.coprimeFactorWithoutConstant| =
      ((p.terms.foldr (fun t m => Nat.lcm t.2.den m) 1 : ℕ) : ℚ) /
      ((p.terms.foldr (fun t g => Nat.gcd t.2.num.natAbs g) 0 : ℕ) : ℚ) := by
  have hsign : ∀ o : Option (Monomial × ℚ),
      |(match o with
        | some t => if t.2 < 0 then (-1 : ℚ) else 1
        | none => 1)| = 1 := by
    intro o
    cases o with
    | none => simp
    | some t => by_cases ht : t.2 < 0 <;> simp [ht]
  simp only [Pol.coprimeFactorWithoutConstant, abs_div, abs_mul, hsign, one_mul, Nat.abs_cast]

/-- For the modelled coprime factor the assertion of line 730 holds exactly
when the left-hand side of `B` has a nonzero non-constant coefficient and all
its non-constant coefficients are integers. -/
theorem compareAssertion_iff (B : Constraint) :
    compareAssertion Pol.coprimeFactorWithoutConstant B = true ↔
      (∀ t ∈ B.lhs.terms, t.2.den = 1) ∧ ∃ t ∈ B.lhs.terms, t.2 ≠ 0 := by
  simp only [compareAssertion, decide_eq_true_eq, abs_coprimeFactor]
  obtain ⟨hDpos, hDdvd⟩ := lcm_fold_dvd B.lhs.terms
  have hNdvd := gcd_fold_dvd B.lhs.terms
  have hNne := gcd_fold_ne_zero B.lhs.terms
  have hD1 := lcm_fold_eq_one B.lhs.terms
  generalize B.lhs.terms.foldr (fun t m => Nat.lcm t.2.den m) 1 = D at *
  generalize B.lhs.terms.foldr (fun t g => Nat.gcd t.2.num.natAbs g) 0 = N at *
  constructor
  · intro h
    have hN : N ≠ 0 := by
      intro h0
      rw [h0] at h
      simp at h
    have hNq : (N : ℚ) ≠ 0 := Nat.cast_ne_zero.mpr hN
    have hkq : (((D : ℚ) / (N : ℚ)).den : ℚ) ≠ 0 :=
      Nat.cast_ne_zero.mpr ((D : ℚ) / (N : ℚ)).den_ne_zero
    have hq := Rat.num_div_den ((D : ℚ) / (N : ℚ))
    rw [h] at hq
    have hmul : (D : ℚ) * (((D : ℚ) / (N : ℚ)).den : ℚ) = (N : ℚ) := by
      field_simp at hq
      linarith
    have hdvd : D ∣ N := ⟨((D : ℚ) / (N : ℚ)).den, by exact_mod_cast hmul.symm⟩
    refine ⟨fun t ht => ?_, hNne.mp hN⟩
    have h1 : t.2.den ∣ t.2.num.natAbs := ((hDdvd t ht).trans hdvd).trans (hNdvd t ht)
    exact Nat.Coprime.eq_one_of_dvd t.2.reduced.symm h1
  · rintro ⟨hint, hex⟩
    have hN : 0 < N := Nat.pos_of_ne_zero (hNne.mpr hex)
    have hD : D = 1 := hD1 hint
    rw [hD, Nat.cast_one, one_div]
    exact Rat.inv_natCast_num_of_pos hN

/-- With the modelled coprime factor the assertion fails on a left-hand side
that has a non-constant coefficient which is not an integer. -/
theorem compareAssertion_false_of_den (B : Constraint) (t : Monomial × ℚ)
    (ht : t ∈ B.lhs.terms) (hden : t.2.den ≠ 1) :
    compareAssertion Pol.coprimeFactorWithoutConstant B = false := by
  rw [← Bool.not_eq_true, compareAssertion_iff]
  rintro ⟨hint, _⟩
  exact hden (hint t ht)

/-- The assertion fails on `x / 2 ~ 0`. -/
theorem halfX_assertion (rel : Relation) :
    compareAssertion Pol.coprimeFactorWithoutConstant ⟨halfXPol, rel⟩ = false :=
  compareAssertion_false_of_den _ ([(0, 1)], 1 / 2) (by simp [halfXPol]) (by norm_num)

/-- The assertion fails on `y / 2 ~ 0`. -/
theorem halfY_assertion (rel : Relation) :
    compareAssertion Pol.coprimeFactorWithoutConstant ⟨halfYPol, rel⟩ = false :=
  compareAssertion_false_of_den _ ([(1, 1)], 1 / 2) (by simp [halfYPol]) (by norm_num)

/-- The assertion holds on `2x + 3 ~ 0`. -/
theorem twoXPlusThree_assertion (rel : Relation) :
    compareAssertion Pol.coprimeFactorWithoutConstant ⟨Pol.affine 2 xPol 3, rel⟩ = true := by
  rw [compareAssertion_iff]
  constructor
  · intro t ht
    simp only [Pol.affine, xPol, List.map_cons, List.map_nil, List.mem_singleton] at ht
    rw [ht]
    norm_num
  · refine ⟨([(0, 1)], 2 * 1), by simp [Pol.affine, xPol], by norm_num⟩

/-- Counterexample to C14: for the constraint `x / 2 = 0` on the second place
the assertion of compare is violated, the coprime factor of `x / 2` being 2,
and compare returns no value. -/
theorem compare_assertion_violated :
    compareAssertion Pol.coprimeFactorWithoutConstant ⟨halfXPol, Relation.EQ⟩ = false ∧
    |Pol.coprimeFactorWithoutConstant halfXPol| = 2 ∧
    compare Pol.coprimeFactorWithoutConstant ⟨xPol, Relation.EQ⟩ ⟨halfXPol, Relation.EQ⟩
      = none := by
  refine ⟨halfX_assertion _, ?_, ?_⟩
  · norm_num [Pol.coprimeFactorWithoutConstant, halfXPol]
  · rw [compare_eq, halfX_assertion]
    rfl

/-- C14 (amended): for every pair of constraints and every coprime factor
compare returns no value exactly when its assertion is violated, and a value
it returns is one of 2, 1, -1, -2, -3, -4, 0; with the modelled coprime factor
the assertion holds exactly when the left-hand side of B has a nonzero
non-constant coefficient and all its non-constant coefficients are integers. -/
theorem compare_never_fails (A B : Constraint) :
    (∀ cf : Pol → ℚ,
      (compare cf A B = none ↔ compareAssertion cf B = false) ∧
      (compareAssertion cf B = true → ∃ v, compare cf A B = some v) ∧
      ∀ v, compare cf A B = some v →
        (v = 2 ∨ v = 1 ∨ v = -1 ∨ v = -2 ∨ v = -3 ∨ v = -4 ∨ v = 0)) ∧
    (compareAssertion Pol.coprimeFactorWithoutConstant B = true ↔
      (∀ t ∈ B.lhs.terms, t.2.den = 1) ∧ ∃ t ∈ B.lhs.terms, t.2 ≠ 0) := by
  refine ⟨fun cf => ⟨?_, ?_, ?_⟩, compareAssertion_iff B⟩
  · rw [compare_eq]
    cases hb : compareAssertion cf B <;> simp
  · intro hb
    exact ⟨_, by rw [compare_eq, if_pos hb]⟩
  · intro v hv
    have hval := compareValue_of_compare hv
    rw [← hval]
    unfold compareValue
    simp only
    split_ifs <;>
      first
      | exact compareTable_range _ _ _ _
      | (right; right; right; right; right; right; rfl)

/-! ## Reflexivity, negation and non-comparable inputs under the assertion -/

/-- Counterexample to C9: `x / 2 = 0` has a non-constant left-hand side, and
compare of it with itself fails the assertion of line 730. -/
theorem compare_self_fails :
    halfXPol.terms ≠ [] ∧
    compare Pol.coprimeFactorWithoutConstant ⟨halfXPol, Relation.EQ⟩ ⟨halfXPol, Relation.EQ⟩
      = none := by
  refine ⟨by simp [halfXPol], ?_⟩
  rw [compare_eq, halfX_assertion]
  rfl

/-- C9 (amended): compare(c, c) returns A_IFF_B (2) for every constraint c on
which the assertion of compare holds, whatever its relation, and returns no
value when the assertion fails. -/
theorem compare_self (cf : Pol → ℚ) (c : Constraint) :
    compare cf c c = if compareAssertion cf c = true then some A_IFF_B else none := by
  have hv : compareValue cf c c = A_IFF_B := by
    rw [show c = ⟨c.lhs, c.relation⟩ from rfl, compare_same_lhs]
    exact compareTable_self _ _
  rw [compare_eq, hv]

/-- Instance of C9 (amended): `2x + 3 < 0` compared with itself. -/
theorem compare_self_witness :
    compareAssertion Pol.coprimeFactorWithoutConstant ⟨Pol.affine 2 xPol 3, Relation.LESS⟩
      = true ∧
    compare Pol.coprimeFactorWithoutConstant ⟨Pol.affine 2 xPol 3, Relation.LESS⟩
      ⟨Pol.affine 2 xPol 3, Relation.LESS⟩ = some A_IFF_B :=
  ⟨twoXPlusThree_assertion _,
    (compare_self Pol.coprimeFactorWithoutConstant ⟨Pol.affine 2 xPol 3, Relation.LESS⟩).trans
      (if_pos (twoXPlusThree_assertion _))⟩

/-- Counterexample to C10: `x / 2 < 0` has a non-constant left-hand side, and
compare of it with its negation fails the assertion of line 730. -/
theorem compare_negation_fails :
    halfXPol.terms ≠ [] ∧
    compare Pol.coprimeFactorWithoutConstant ⟨halfXPol, Relation.LESS⟩
      (Constraint.negation ⟨halfXPol, Relation.LESS⟩) = none := by
  refine ⟨by simp [halfXPol], ?_⟩
  rw [compare_eq]
  exact if_neg (by rw [show Constraint.negation ⟨halfXPol, Relation.LESS⟩
    = ⟨halfXPol, Relation.GEQ⟩ from rfl, halfX_assertion]; decide)

/-- C10 (amended): compare(c, c.negation()) returns A_XOR_B (-4) for every
constraint c on which the assertion of compare holds and each of the six
relations, and returns no value when the assertion fails. -/
theorem compare_negation (cf : Pol → ℚ) (c : Constraint) :
    compare cf c c.negation = if compareAssertion cf c = true then some A_XOR_B else none := by
  have hv : compareValue cf c c.negation = A_XOR_B := by
    rw [show c.negation = ⟨c.lhs, inverse c.relation⟩ from rfl]
    conv_lhs => rw [show c = ⟨c.lhs, c.relation⟩ from rfl]
    rw [compare_same_lhs]
    exact compareTable_inverse _ _
  rw [compare_eq, hv]
  rfl

/-- Instance of C10 (amended): `2x + 3 < 0` compared with its negation
`2x + 3 >= 0`. -/
theorem compare_negation_witness :
    compareAssertion Pol.coprimeFactorWithoutConstant ⟨Pol.affine 2 xPol 3, Relation.LESS⟩
      = true ∧
    compare Pol.coprimeFactorWithoutConstant ⟨Pol.affine 2 xPol 3, Relation.LESS⟩
      (Constraint.negation ⟨Pol.affine 2 xPol 3, Relation.LESS⟩) = some A_XOR_B :=
  ⟨twoXPlusThree_assertion _,
    (compare_negation Pol.coprimeFactorWithoutConstant
      ⟨Pol.affine 2 xPol 3, Relation.LESS⟩).trans (if_pos (twoXPlusThree_assertion _))⟩

/-- Counterexample to C12: the left-hand sides of `x < 0` and `y / 2 < 0`
without their constant parts, multiplied by their coprime factors, are the
different polynomials `x` and `y`, and compare fails the assertion of line
730, which stands before the test of line 735. -/
theorem compare_not_comparable_fails :
    ((⟨xPol, Relation.LESS⟩ : Constraint).lhs.subNum
        (⟨xPol, Relation.LESS⟩ : Constraint).lhs.constantPart).mulNum
        (Pol.coprimeFactorWithoutConstant (⟨xPol, Relation.LESS⟩ : Constraint).lhs) ≠
      ((⟨halfYPol, Relation.LESS⟩ : Constraint).lhs.subNum
        (⟨halfYPol, Relation.LESS⟩ : Constraint).lhs.constantPart).mulNum
        (Pol.coprimeFactorWithoutConstant (⟨halfYPol, Relation.LESS⟩ : Constraint).lhs) ∧
    compare Pol.coprimeFactorWithoutConstant ⟨xPol, Relation.LESS⟩ ⟨halfYPol, Relation.LESS⟩
      = none := by
  constructor
  · norm_num [Pol.coprimeFactorWithoutConstant, xPol, halfYPol, Pol.subNum, Pol.mulNum]
  · rw [compare_eq, halfY_assertion]
    rfl

/-- C12 (amended): when the two left-hand sides without their constant parts,
multiplied by their coprime factors, are different polynomials, the pair is
not comparable, and compare returns 0 when its assertion holds and no value
when the assertion fails. -/
theorem compare_not_comparable (cf : Pol → ℚ) (A B : Constraint)
    (h : (A.lhs.subNum A.lhs.constantPart).mulNum (cf A.lhs) ≠
      (B.lhs.subNum B.lhs.constantPart).mulNum (cf B.lhs)) :
    compare cf A B = (if compareAssertion cf B = true then some 0 else none) ∧
    ¬ ∃ (q : Pol) (a b : ℤ) (c d : ℚ), Comparable cf A B q a b c d := by
  constructor
  · have hv : compareValue cf A B = 0 := by
      unfold compareValue
      simp only [ne_eq, h, not_false_eq_true, if_true]
    rw [compare_eq, hv]
  · rintro ⟨q, a, b, c, d, _, ha, hb, hA, hB, hfa, hfb⟩
    apply h
    rw [hfa, hfb, hA, hB, normalise_affine a (Int.cast_ne_zero.mpr ha) q c,
      normalise_affine b (Int.cast_ne_zero.mpr hb) q d]

/-- Instance of C12 (amended): `x < 0` and `y < 0` have different normalised
left-hand sides, the assertion holds, and compare returns 0. -/
theorem compare_not_comparable_witness :
    ((⟨xPol, Relation.LESS⟩ : Constraint).lhs.subNum
        (⟨xPol, Relation.LESS⟩ : Constraint).lhs.constantPart).mulNum
        (Pol.coprimeFactorWithoutConstant (⟨xPol, Relation.LESS⟩ : Constraint).lhs) ≠
      ((⟨yPol, Relation.LESS⟩ : Constraint).lhs.subNum
        (⟨yPol, Relation.LESS⟩ : Constraint).lhs.constantPart).mulNum
        (Pol.coprimeFactorWithoutConstant (⟨yPol, Relation.LESS⟩ : Constraint).lhs) ∧
    compareAssertion Pol.coprimeFactorWithoutConstant ⟨yPol, Relation.LESS⟩ = true ∧
    compare Pol.coprimeFactorWithoutConstant ⟨xPol, Relation.LESS⟩ ⟨yPol, Relation.LESS⟩
      = some 0 := by
  have hne : ((⟨xPol, Relation.LESS⟩ : Constraint).lhs.subNum
        (⟨xPol, Relation.LESS⟩ : Constraint).lhs.constantPart).mulNum
        (Pol.coprimeFactorWithoutConstant (⟨xPol, Relation.LESS⟩ : Constraint).lhs) ≠
      ((⟨yPol, Relation.LESS⟩ : Constraint).lhs.subNum
        (⟨yPol, Relation.LESS⟩ : Constraint).lhs.constantPart).mulNum
        (Pol.coprimeFactorWithoutConstant (⟨yPol, Relation.LESS⟩ : Constraint).lhs) := by
    norm_num [Pol.coprimeFactorWithoutConstant, xPol, yPol, Pol.subNum, Pol.mulNum]
  have ha : compareAssertion Pol.coprimeFactorWithoutConstant ⟨yPol, Relation.LESS⟩ = true := by
    rw [compareAssertion_iff]
    constructor
    · intro t ht
      simp only [yPol, List.mem_singleton] at ht
      rw [ht]
      norm_num
    · exact ⟨([(1, 1)], 1), by simp [yPol], by norm_num⟩
  exact ⟨hne, ha, (compare_not_comparable _ _ _ hne).1.trans (if_pos ha)⟩

/-! ## The pool: lookup and invariants -/

/-- A record found by key is live and has that key. -/
theorem find_some {s : ConstraintPool} {lhs : Pol} {rel : Relation} {e : PoolEntry}
    (h : s.find lhs rel = some e) :
    e ∈ s.mConstraints ∧ e.content.mLhs = lhs ∧ e.content.mRelation = rel := by
  unfold ConstraintPool.find at h
  have h1 := List.find?_some h
  simp only [decide_eq_true_eq] at h1
  exact ⟨List.mem_of_find?_eq_some h, h1.1, h1.2⟩

/-- When the lookup fails no live record has the key. -/
theorem find_none {s : ConstraintPool} {lhs : Pol} {rel : Relation}
    (h : s.find lhs rel = none) :
    ∀ e ∈ s.mConstraints, ¬ (e.content.mLhs = lhs ∧ e.content.mRelation = rel) := by
  unfold ConstraintPool.find at h
  intro e he
  have h1 := List.find?_eq_none.mp h e he
  simpa using h1

/-- A live record with the key makes the lookup succeed. -/
theorem find_isSome {s : ConstraintPool} {e : PoolEntry} (he : e ∈ s.mConstraints) :
    ∃ e2, s.find e.content.mLhs e.content.mRelation = some e2 := by
  cases hf : s.find e.content.mLhs e.content.mRelation with
  | some e2 => exact ⟨e2, rfl⟩
  | none => exact absurd ⟨rfl, rfl⟩ (find_none hf e he)

/-- The fresh address is above the address of every live record. -/
theorem address_lt_fresh (s : ConstraintPool) :
    ∀ e ∈ s.mConstraints, e.address < s.freshAddress := by
  unfold ConstraintPool.freshAddress
  induction s.mConstraints with
  | nil => intro e he; simp at he
  | cons u l ih =>
    intro e he
    simp only [List.map_cons, List.foldr_cons]
    rcases List.mem_cons.mp he with h1 | h1
    · rw [h1]
      have := le_max_left u.address (List.foldr max 0 (List.map PoolEntry.address l))
      omega
    · have h2 := ih e h1
      have := le_max_right u.address (List.foldr max 0 (List.map PoolEntry.address l))
      omega

/-- The empty pool satisfies the invariant. -/
theorem invariant_empty : ConstraintPool.empty.Invariant := by
  refine ⟨Nat.one_pos, fun e he => ?_, List.Pairwise.nil⟩
  simp [ConstraintPool.empty] at he

/-- `intern` keeps the invariant. -/
theorem invariant_intern {s : ConstraintPool} (hs : s.Invariant) (lhs : Pol) (rel : Relation) :
    (s.intern lhs rel).2.Invariant := by
  unfold ConstraintPool.intern
  cases hf : s.find lhs rel with
  | some e => exact hs
  | none =>
    obtain ⟨hpos, hid, hpw⟩ := hs
    refine ⟨Nat.succ_pos _, fun e he => ?_, ?_⟩
    · rcases List.mem_cons.mp he with h1 | h1
      · rw [h1]
        exact ⟨hpos, Nat.lt_succ_self _⟩
      · exact ⟨(hid e h1).1, Nat.lt_succ_of_lt (hid e h1).2⟩
    · refine List.Pairwise.cons (fun e he => ⟨?_, ?_, ?_⟩) hpw
      · exact Nat.ne_of_gt (address_lt_fresh s e he)
      · exact Nat.ne_of_gt (hid e he).2
      · intro hk
        exact find_none hf e he ⟨hk.1.symm, hk.2.symm⟩

/-- `release` keeps the invariant. -/
theorem invariant_release {s : ConstraintPool} (hs : s.Invariant) (h : Handle) :
    (s.release h).Invariant := by
  obtain ⟨hpos, hid, hpw⟩ := hs
  exact ⟨hpos, fun e he => hid e (List.mem_of_mem_filter he), hpw.filter _⟩

/-- Every operation keeps the invariant. -/
theorem invariant_step {s : ConstraintPool} (hs : s.Invariant) (op : PoolOp) :
    (s.step op).Invariant := by
  cases op with
  | intern lhs rel => exact invariant_intern hs lhs rel
  | release h => exact invariant_release hs h

/-- Every sequence of operations keeps the invariant. -/
theorem invariant_run {s : ConstraintPool} (hs : s.Invariant) (ops : List PoolOp) :
    (s.run ops).Invariant := by
  induction ops generalizing s with
  | nil => exact hs
  | cons op ops ih => exact ih (invariant_step hs op)

/-- Under the invariant two live records with one address, one id or one key
are the same record. -/
theorem entry_unique {s : ConstraintPool} (hs : s.Invariant) {e1 e2 : PoolEntry}
    (h1 : e1 ∈ s.mConstraints) (h2 : e2 ∈ s.mConstraints)
    (h : e1.address = e2.address ∨ e1.content.mID = e2.content.mID ∨
      (e1.content.mLhs = e2.content.mLhs ∧ e1.content.mRelation = e2.content.mRelation)) :
    e1 = e2 := by
  by_contra hne
  have hsymm : Symmetric (fun e1 e2 : PoolEntry =>
      e1.address ≠ e2.address ∧ e1.content.mID ≠ e2.content.mID ∧
      ¬ (e1.content.mLhs = e2.content.mLhs ∧ e1.content.mRelation = e2.content.mRelation)) := by
    intro x y hxy
    exact ⟨fun hh => hxy.1 hh.symm, fun hh => hxy.2.1 hh.symm,
      fun hh => hxy.2.2 ⟨hh.1.symm, hh.2.symm⟩⟩
  have hR := hs.2.2.forall hsymm h1 h2 hne
  rcases h with h | h | h
  · exact hR.1 h
  · exact hR.2.1 h
  · exact hR.2.2 h

/-- Under the invariant the handle to a live record reads the content of that
record. -/
theorem content_of_mem {s : ConstraintPool} (hs : s.Invariant) {e : PoolEntry}
    (he : e ∈ s.mConstraints) : s.content ⟨e.address⟩ = some e.content := by
  unfold ConstraintPool.content
  cases hf : s.mConstraints.find? (fun x => decide (x.address = e.address)) with
  | none =>
    have := List.find?_eq_none.mp hf e he
    simp at this
  | some e2 =>
    have h2 : e2.address = e.address := by simpa using List.find?_some hf
    have := entry_unique hs (List.mem_of_find?_eq_some hf) he (Or.inl h2)
    simp [this]

/-- A handle with a content points to a live record with that content. -/
theorem mem_of_content {s : ConstraintPool} {h : Handle} {c : ConstraintContent}
    (hc : s.content h = some c) :
    ∃ e ∈ s.mConstraints, h = ⟨e.address⟩ ∧ e.content = c := by
  unfold ConstraintPool.content at hc
  cases hf : s.mConstraints.find? (fun x => decide (x.address = h.mpContent)) with
  | none => rw [hf] at hc; simp at hc
  | some e =>
    rw [hf] at hc
    have h2 : e.address = h.mpContent := by simpa using List.find?_some hf
    refine ⟨e, List.mem_of_find?_eq_some hf, ?_, by simpa using hc⟩
    cases h
    simp only [Handle.mk.injEq]
    exact h2.symm

/-- The handle returned by `intern` points to a live record of the new pool
with the requested key. -/
theorem intern_mem (s : ConstraintPool) (lhs : Pol) (rel : Relation) :
    ∃ e ∈ (s.intern lhs rel).2.mConstraints, (s.intern lhs rel).1 = ⟨e.address⟩ ∧
      e.content.mLhs = lhs ∧ e.content.mRelation = rel ∧
      (s.find lhs rel = none → e.content.mID = s.mIdAllocator) := by
  unfold ConstraintPool.intern
  cases hf : s.find lhs rel with
  | some e =>
    obtain ⟨h1, h2, h3⟩ := find_some hf
    exact ⟨e, h1, rfl, h2, h3, fun hh => by simp at hh⟩
  | none =>
    exact ⟨_, List.mem_cons_self _ _, rfl, rfl, rfl, fun _ => rfl⟩

/-- `intern` keeps the live records. -/
theorem mem_intern {s : ConstraintPool} {e : PoolEntry} (he : e ∈ s.mConstraints)
    (lhs : Pol) (rel : Relation) : e ∈ (s.intern lhs rel).2.mConstraints := by
  unfold ConstraintPool.intern
  cases hf : s.find lhs rel with
  | some e2 => exact he
  | none => exact List.mem_cons_of_mem _ he

/-- Under the invariant, `intern` on the key of a live record returns the
handle to that record and leaves the pool unchanged. -/
theorem intern_of_mem {s : ConstraintPool} (hs : s.Invariant) {e : PoolEntry}
    (he : e ∈ s.mConstraints) :
    s.intern e.content.mLhs e.content.mRelation = (⟨e.address⟩, s) := by
  obtain ⟨e2, hf⟩ := find_isSome he
  obtain ⟨h1, h2, h3⟩ := find_some hf
  have := entry_unique hs h1 he (Or.inr (Or.inr ⟨h2, h3⟩))
  unfold ConstraintPool.intern
  rw [hf, this]

/-! ## The pool: interning, negation, equality and order of handles -/

/-- Under the invariant, interning a key twice gives the same handle, the
second time without change of the pool, and the handle reads the id of a live
record. -/
theorem intern_twice {s : ConstraintPool} (hs : s.Invariant) (lhs : Pol) (rel : Relation) :
    ((s.intern lhs rel).2.intern lhs rel) = ((s.intern lhs rel).1, (s.intern lhs rel).2) ∧
    ∃ c, (s.intern lhs rel).2.content (s.intern lhs rel).1 = some c ∧
      c.mLhs = lhs ∧ c.mRelation = rel := by
  obtain ⟨e, he, hh, hl, hr, _⟩ := intern_mem s lhs rel
  have hs1 := invariant_intern hs lhs rel
  have h2 := intern_of_mem hs1 he
  rw [hl, hr] at h2
  refine ⟨by rw [h2, hh], e.content, ?_, hl, hr⟩
  rw [hh]
  exact content_of_mem hs1 he

/-- The inverse of the inverse relation is the relation. -/
theorem inverse_inverse (r : Relation) : inverse (inverse r) = r := by
  cases r <;> rfl

/-- The inverse relation holds exactly when the relation does not. -/
theorem holds_inverse {K : Type} [LinearOrderedField K] (r : Relation) (v : K) :
    (inverse r).holds v ↔ ¬ r.holds v := by
  cases r <;> simp [inverse, Relation.holds]

/-- Under the invariant, the negation of a live constraint is the interned
constraint of the left-hand side and the inverse relation, and negating it
again gives back the handle. -/
theorem negation_twice {s : ConstraintPool} (hs : s.Invariant) {h : Handle}
    {c : ConstraintContent} (hc : s.content h = some c) :
    h.negation s = some (s.intern c.mLhs (inverse c.mRelation)) ∧
    (∃ cn, (s.intern c.mLhs (inverse c.mRelation)).2.content
        (s.intern c.mLhs (inverse c.mRelation)).1 = some cn ∧
      cn.mLhs = c.mLhs ∧ cn.mRelation = inverse c.mRelation) ∧
    (s.intern c.mLhs (inverse c.mRelation)).1.negation (s.intern c.mLhs (inverse c.mRelation)).2
      = some (h, (s.intern c.mLhs (inverse c.mRelation)).2) ∧
    (s.intern c.mLhs (inverse c.mRelation)).2.content h = some c := by
  obtain ⟨e, he, hh, hec⟩ := mem_of_content hc
  obtain ⟨_, cn, hcn, hl, hr⟩ := intern_twice hs c.mLhs (inverse c.mRelation)
  have hs1 := invariant_intern hs c.mLhs (inverse c.mRelation)
  have he1 := mem_intern he c.mLhs (inverse c.mRelation)
  have hback := intern_of_mem hs1 he1
  rw [hec] at hback
  refine ⟨by simp [Handle.negation, hc], ⟨cn, hcn, hl, hr⟩, ?_, ?_⟩
  · simp only [Handle.negation, hcn, Option.map_some', hl, hr, inverse_inverse, hback, hh]
  · have hlive := content_of_mem hs1 he1
    rw [hec] at hlive
    rw [hh]
    exact hlive

/-- C16: in every state of the pool and for every live constraint c, the
negation of the negation of c is a handle with the same id as c. -/
theorem negation_involution (ops : List PoolOp) (h : Handle) (c : ConstraintContent)
    (hc : (ConstraintPool.empty.run ops).content h = some c) :
    ∃ (n : Handle) (s1 : ConstraintPool) (nn : Handle) (s2 : ConstraintPool),
      h.negation (ConstraintPool.empty.run ops) = some (n, s1) ∧
      n.negation s1 = some (nn, s2) ∧
      nn.id s2 = some c.mID ∧ h.id (ConstraintPool.empty.run ops) = some c.mID := by
  obtain ⟨h1, _, h3, h4⟩ := negation_twice (invariant_run invariant_empty ops) hc
  refine ⟨_, _, h, _, h1, h3, ?_, ?_⟩
  · simp [Handle.id, h4]
  · simp [Handle.id, hc]

/-- C17: in every state of the pool the negation of a live constraint c is the
interned constraint for (c.lhs, inverse(c.relation)): it keeps the left-hand
side, carries the inverse relation and is satisfied by a real assignment
exactly when c is not; and the negation of the constraint `x < 0` reads the
same id as the constraint `x >= 0`. -/
theorem negation_meaning (ops : List PoolOp) (h : Handle) (c : ConstraintContent)
    (hc : (ConstraintPool.empty.run ops).content h = some c) :
    (∃ (n : Handle) (s1 : ConstraintPool) (cn : ConstraintContent),
      h.negation (ConstraintPool.empty.run ops) = some (n, s1) ∧
      (n, s1) = (ConstraintPool.empty.run ops).intern c.mLhs (inverse c.mRelation) ∧
      s1.content n = some cn ∧ cn.mLhs = c.mLhs ∧ cn.mRelation = inverse c.mRelation ∧
      ∀ σ : Variable → ℝ, cn.satisfiedBy σ ↔ ¬ c.satisfiedBy σ) ∧
    (∃ (hx : Handle) (s1 : ConstraintPool) (n : Handle) (s2 : ConstraintPool) (i : Nat),
      (ConstraintPool.empty.run ops).intern xPol Relation.LESS = (hx, s1) ∧
      hx.negation s1 = some (n, s2) ∧
      n.id (s2.intern xPol Relation.GEQ).2 = some i ∧
      (s2.intern xPol Relation.GEQ).1.id (s2.intern xPol Relation.GEQ).2 = some i) := by
  have hs := invariant_run invariant_empty ops
  constructor
  · obtain ⟨h1, ⟨cn, hcn, hl, hr⟩, _, _⟩ := negation_twice hs hc
    refine ⟨_, _, cn, h1, rfl, hcn, hl, hr, fun σ => ?_⟩
    simp only [ConstraintContent.satisfiedBy, hl, hr]
    exact holds_inverse _ _
  · obtain ⟨_, cx, hcx, hxl, hxr⟩ := intern_twice hs xPol Relation.LESS
    have hs1 := invariant_intern hs xPol Relation.LESS
    obtain ⟨h1, _, _, _⟩ := negation_twice hs1 hcx
    rw [hxl, hxr] at h1
    obtain ⟨h2, cg, hcg, _, _⟩ := intern_twice hs1 xPol (inverse Relation.LESS)
    have hinv : inverse Relation.LESS = Relation.GEQ := rfl
    rw [hinv] at h1 h2 hcg
    refine ⟨((ConstraintPool.empty.run ops).intern xPol Relation.LESS).1,
      ((ConstraintPool.empty.run ops).intern xPol Relation.LESS).2,
      (((ConstraintPool.empty.run ops).intern xPol Relation.LESS).2.intern xPol Relation.GEQ).1,
      (((ConstraintPool.empty.run ops).intern xPol Relation.LESS).2.intern xPol Relation.GEQ).2,
      cg.mID, rfl, h1, ?_, ?_⟩
    · rw [h2]
      simp [Handle.id, hcg]
    · rw [h2]
      simp [Handle.id, hcg]

/-- C18: in every state of the pool, two handles to live records are equal
under operator== exactly when their ids are equal and different under
operator!= exactly when their ids differ; operator== on the two contents gives
the same answer. -/
theorem handle_eq_iff_id_eq (ops : List PoolOp) (a b : Handle) (ia ib : Nat)
    (ha : a.id (ConstraintPool.empty.run ops) = some ia)
    (hb : b.id (ConstraintPool.empty.run ops) = some ib) :
    (Handle.eq a b = true ↔ ia = ib) ∧ (Handle.ne a b = true ↔ ia ≠ ib) ∧
    (∀ ca cb : ConstraintContent, (ConstraintPool.empty.run ops).content a = some ca →
      (ConstraintPool.empty.run ops).content b = some cb →
      Handle.eq a b = ConstraintContent.eq ca cb) := by
  have hs := invariant_run invariant_empty ops
  have key : ∀ ca cb : ConstraintContent, (ConstraintPool.empty.run ops).content a = some ca →
      (ConstraintPool.empty.run ops).content b = some cb →
      (a.mpContent = b.mpContent ↔ ca.mID = cb.mID) := by
    intro ca cb hca hcb
    obtain ⟨ea, hea, haa, hac⟩ := mem_of_content hca
    obtain ⟨eb, heb, hbb, hbc⟩ := mem_of_content hcb
    constructor
    · intro hab
      have hab2 : a = b := by
        cases a; cases b; simpa using hab
      rw [hab2, hcb] at hca
      rw [Option.some.inj hca]
    · intro hid
      rw [← hac, ← hbc] at hid
      have := entry_unique hs hea heb (Or.inr (Or.inl hid))
      rw [haa, hbb, this]
  simp only [Handle.id, Option.map_eq_some'] at ha hb
  obtain ⟨ca, hca, hia⟩ := ha
  obtain ⟨cb, hcb, hib⟩ := hb
  have hk := key ca cb hca hcb
  rw [hia, hib] at hk
  refine ⟨by simpa [Handle.eq] using hk, by simpa [Handle.ne] using not_congr hk, ?_⟩
  intro ca2 cb2 hca2 hcb2
  have hk2 := key ca2 cb2 hca2 hcb2
  simp only [Handle.eq, ConstraintContent.eq]
  exact decide_eq_decide.mpr hk2

/-- C19: for handles a, b, c with nonzero ids the four comparison operators
return a result; exactly one of a < b, a.id() == b.id(), a > b holds, a <= b is
the negation of a > b, a >= b is the negation of a < b, and < is transitive. -/
theorem handle_order (s : ConstraintPool) (a b c : Handle) (ia ib ic : Nat)
    (ha : a.id s = some ia) (hb : b.id s = some ib) (hc : c.id s = some ic)
    (hia : ia ≠ 0) (hib : ib ≠ 0) (hic : ic ≠ 0) :
    ∃ x y : Bool, Handle.lt s a b = some x ∧ Handle.gt s a b = some y ∧
      Handle.le s a b = some (!y) ∧ Handle.ge s a b = some (!x) ∧
      ((x = true ∧ ia ≠ ib ∧ y = false) ∨ (x = false ∧ ia = ib ∧ y = false) ∨
        (x = false ∧ ia ≠ ib ∧ y = true)) ∧
      (Handle.lt s a b = some true → Handle.lt s b c = some true →
        Handle.lt s a c = some true) := by
  refine ⟨decide (ia < ib), decide (ia > ib), ?_, ?_, ?_, ?_, ?_, ?_⟩
  · simp [Handle.lt, Handle.compareIds, ha, hb, hia, hib]
  · simp [Handle.gt, Handle.compareIds, ha, hb, hia, hib]
  · by_cases h : ia ≤ ib
    · simp [Handle.le, Handle.compareIds, ha, hb, hia, hib, h, Nat.not_lt.mpr h]
    · simp [Handle.le, Handle.compareIds, ha, hb, hia, hib, h, Nat.lt_of_not_le h]
  · by_cases h : ib ≤ ia
    · simp [Handle.ge, Handle.compareIds, ha, hb, hia, hib, h, Nat.not_lt.mpr h]
    · simp [Handle.ge, Handle.compareIds, ha, hb, hia, hib, h, Nat.lt_of_not_le h]
  · rcases Nat.lt_trichotomy ia ib with h | h | h
    · left
      simp only [decide_eq_true_eq, decide_eq_false_iff_not]
      omega
    · right; left
      simp only [decide_eq_true_eq, decide_eq_false_iff_not]
      omega
    · right; right
      simp only [decide_eq_true_eq, decide_eq_false_iff_not]
      omega
  · simp only [Handle.lt, Handle.compareIds, ha, hb, hc, hia, hib, hic, ne_eq, not_false_eq_true,
      and_self, if_true, Option.some.injEq, decide_eq_true_eq]
    intro h1 h2
    exact Nat.lt_trans h1 h2

/-- Instance of C16: the constraint `x < 0` with id 3 negated twice. -/
theorem negation_involution_witness :
    (ConstraintPool.empty.run ops3).content ⟨3⟩ = some ⟨3, Relation.LESS, xPol⟩ ∧
    ∃ (n : Handle) (s1 : ConstraintPool) (nn : Handle) (s2 : ConstraintPool),
      Handle.negation (ConstraintPool.empty.run ops3) ⟨3⟩ = some (n, s1) ∧
      n.negation s1 = some (nn, s2) ∧
      nn.id s2 = some (⟨3, Relation.LESS, xPol⟩ : ConstraintContent).mID ∧
      Handle.id (ConstraintPool.empty.run ops3) ⟨3⟩
        = some (⟨3, Relation.LESS, xPol⟩ : ConstraintContent).mID :=
  ⟨by decide, negation_involution ops3 ⟨3⟩ ⟨3, Relation.LESS, xPol⟩ (by decide)⟩

/-- Instance of C17: the negation of the constraint `0 != 0` with id 2. -/
theorem negation_meaning_witness :
    (ConstraintPool.empty.run ops3).content ⟨2⟩ = some ⟨2, Relation.NEQ, zeroPol⟩ ∧
    ((∃ (n : Handle) (s1 : ConstraintPool) (cn : ConstraintContent),
      Handle.negation (ConstraintPool.empty.run ops3) ⟨2⟩ = some (n, s1) ∧
      (n, s1) = (ConstraintPool.empty.run ops3).intern
        (⟨2, Relation.NEQ, zeroPol⟩ : ConstraintContent).mLhs
        (inverse (⟨2, Relation.NEQ, zeroPol⟩ : ConstraintContent).mRelation) ∧
      s1.content n = some cn ∧
      cn.mLhs = (⟨2, Relation.NEQ, zeroPol⟩ : ConstraintContent).mLhs ∧
      cn.mRelation = inverse (⟨2, Relation.NEQ, zeroPol⟩ : ConstraintContent).mRelation ∧
      ∀ σ : Variable → ℝ, cn.satisfiedBy σ ↔
        ¬ (⟨2, Relation.NEQ, zeroPol⟩ : ConstraintContent).satisfiedBy σ) ∧
    (∃ (hx : Handle) (s1 : ConstraintPool) (n : Handle) (s2 : ConstraintPool) (i : Nat),
      (ConstraintPool.empty.run ops3).intern xPol Relation.LESS = (hx, s1) ∧
      hx.negation s1 = some (n, s2) ∧
      n.id (s2.intern xPol Relation.GEQ).2 = some i ∧
      (s2.intern xPol Relation.GEQ).1.id (s2.intern xPol Relation.GEQ).2 = some i)) :=
  ⟨by decide, negation_meaning ops3 ⟨2⟩ ⟨2, Relation.NEQ, zeroPol⟩ (by decide)⟩

/-- Instance of C18: the handles of `0 = 0` and `0 != 0` after the
initialisation. -/
theorem handle_eq_iff_id_eq_witness :
    Handle.id (ConstraintPool.empty.run ops3) ⟨1⟩ = some 1 ∧
    Handle.id (ConstraintPool.empty.run ops3) ⟨2⟩ = some 2 ∧
    ((Handle.eq ⟨1⟩ ⟨2⟩ = true ↔ 1 = 2) ∧ (Handle.ne ⟨1⟩ ⟨2⟩ = true ↔ 1 ≠ 2) ∧
    (∀ ca cb : ConstraintContent, (ConstraintPool.empty.run ops3).content ⟨1⟩ = some ca →
      (ConstraintPool.empty.run ops3).content ⟨2⟩ = some cb →
      Handle.eq ⟨1⟩ ⟨2⟩ = ConstraintContent.eq ca cb)) :=
  ⟨by decide, by decide, handle_eq_iff_id_eq ops3 ⟨1⟩ ⟨2⟩ 1 2 (by decide) (by decide)⟩

/-- Instance of C19: the handles with ids 1, 2 and 3. -/
theorem handle_order_witness :
    Handle.id (ConstraintPool.empty.run ops3) ⟨1⟩ = some 1 ∧
    Handle.id (ConstraintPool.empty.run ops3) ⟨2⟩ = some 2 ∧
    Handle.id (ConstraintPool.empty.run ops3) ⟨3⟩ = some 3 ∧
    ∃ x y : Bool, Handle.lt (ConstraintPool.empty.run ops3) ⟨1⟩ ⟨2⟩ = some x ∧
      Handle.gt (ConstraintPool.empty.run ops3) ⟨1⟩ ⟨2⟩ = some y ∧
      Handle.le (ConstraintPool.empty.run ops3) ⟨1⟩ ⟨2⟩ = some (!y) ∧
      Handle.ge (ConstraintPool.empty.run ops3) ⟨1⟩ ⟨2⟩ = some (!x) ∧
      ((x = true ∧ 1 ≠ 2 ∧ y = false) ∨ (x = false ∧ 1 = 2 ∧ y = false) ∨
        (x = false ∧ 1 ≠ 2 ∧ y = true)) ∧
      (Handle.lt (ConstraintPool.empty.run ops3) ⟨1⟩ ⟨2⟩ = some true →
        Handle.lt (ConstraintPool.empty.run ops3) ⟨2⟩ ⟨3⟩ = some true →
        Handle.lt (ConstraintPool.empty.run ops3) ⟨1⟩ ⟨3⟩ = some true) :=
  ⟨by decide, by decide, by decide,
    handle_order (ConstraintPool.empty.run ops3) ⟨1⟩ ⟨2⟩ ⟨3⟩ 1 2 3 (by decide) (by decide)
      (by decide) (by decide) (by decide) (by decide)⟩

/-- The lookup in a list of pairs built from a list of keys. -/
theorem lookup_map_pair {β : Type} (f : Variable → β) (l : List Variable) (v : Variable) :
    (l.map (fun u => (u, f u))).lookup v = if v ∈ l then some (f v) else none := by
  induction l with
  | nil => simp
  | cons u l ih =>
    simp only [List.map_cons, List.lookup_cons, List.mem_cons]
    by_cases h : v = u
    · subst h
      simp
    · have h2 : (v == u) = false := by simpa using h
      rw [h2, ih]
      simp [h]

/-- The map of variable information of a constructed record is the one
computed from the left-hand side. -/
theorem make_varInfoMap (id : Nat) (lhs : Pol) (rel : Relation) :
    (ConstraintRecord.make id lhs rel).mVarInfoMap = lhs.getVarInfo := by
  simp [ConstraintRecord.make, ConstraintRecord.initVariableInformations]

/-- In a constructed record exactly the variables of the left-hand side have
an entry. -/
theorem make_lookup (id : Nat) (lhs : Pol) (rel : Relation) (v : Variable) :
    (ConstraintRecord.make id lhs rel).mVarInfoMap.lookup v =
      if v ∈ lhs.variableList then some (lhs.getVarInfoOf false v) else none := by
  rw [make_varInfoMap]
  exact lookup_map_pair _ _ _

/-- A variable that does not occur in the left-hand side has no entry in a
constructed record. -/
theorem make_missing (id : Nat) (lhs : Pol) (rel : Relation) (v : Variable)
    (hv : v ∉ lhs.variableList) :
    (ConstraintRecord.make id lhs rel).mVarInfoMap.lookup v = none := by
  rw [make_lookup, if_neg hv]

/-- C22: for every constructed constraint and every variable v that does not
occur in its left-hand side, maxDegree(v), minDegree(v) and occurences(v)
return 0. -/
theorem missing_variable (id : Nat) (lhs : Pol) (rel : Relation) (v : Variable)
    (hv : v ∉ lhs.variableList) :
    (ConstraintRecord.make id lhs rel).maxDegreeOf v = 0 ∧
    (ConstraintRecord.make id lhs rel).minDegree v = 0 ∧
    (ConstraintRecord.make id lhs rel).occurences v = 0 := by
  have h := make_missing id lhs rel v hv
  simp [ConstraintRecord.maxDegreeOf, ConstraintRecord.minDegree, ConstraintRecord.occurences, h]

/-- C23 (amended): isBound() returns true if and only if exactly one variable
occurs in the constraint, the maximal degree of that variable is 1 and the
relation is not NEQ. -/
theorem isBound_iff (r : ConstraintRecord) :
    r.isBound false = true ↔
      (∃ v, r.mVariables = [v] ∧ r.maxDegreeOf v = 1) ∧ r.content.mRelation ≠ Relation.NEQ := by
  unfold ConstraintRecord.isBound
  constructor
  · intro h
    by_cases h1 : r.mVariables.length ≠ 1 ∨ r.maxDegreeOf (r.mVariables.headD 0) ≠ 1
    · rw [if_pos h1] at h
      exact absurd h (by decide)
    · rw [if_neg h1] at h
      obtain ⟨h2, h3⟩ := not_or.mp h1
      have h4 : r.mVariables.length = 1 := not_not.mp h2
      obtain ⟨v, hv⟩ := List.length_eq_one.mp h4
      refine ⟨⟨v, hv, ?_⟩, by simpa using h⟩
      rw [hv] at h3
      simpa using h3
  · rintro ⟨⟨v, hv, hd⟩, hrel⟩
    simp [hv, hd, hrel]

/-- The loop of `maxDegree()` computes the maximum. -/
theorem foldl_max (f : Variable → Nat) (l : List Variable) (init : Nat) :
    l.foldl (fun result var => if f var > result then f var else result) init
      = max init ((l.map f).foldr max 0) := by
  induction l generalizing init with
  | nil => simp
  | cons u l ih =>
    simp only [List.foldl_cons, List.map_cons, List.foldr_cons]
    rw [ih]
    split_ifs with h <;> omega

/-- Every element is below the maximum of the list. -/
theorem le_foldr_max (f : Variable → Nat) (l : List Variable) :
    ∀ v ∈ l, f v ≤ (l.map f).foldr max 0 := by
  induction l with
  | nil => intro v hv; simp at hv
  | cons u l ih =>
    intro v hv
    simp only [List.map_cons, List.foldr_cons]
    rcases List.mem_cons.mp hv with h | h
    · rw [h]; exact le_max_left _ _
    · exact le_trans (ih v h) (le_max_right _ _)

/-- C26: for every constructed constraint maxDegree() is the maximum of
maxDegree(v) over the variables of the constraint, it is 0 without variables,
and maxDegree(v) <= maxDegree() for every variable v. -/
theorem maxDegree_is_max (id : Nat) (lhs : Pol) (rel : Relation) :
    (ConstraintRecord.make id lhs rel).maxDegree =
      ((ConstraintRecord.make id lhs rel).mVariables.map
        (ConstraintRecord.make id lhs rel).maxDegreeOf).foldr max 0 ∧
    ((ConstraintRecord.make id lhs rel).mVariables = [] →
      (ConstraintRecord.make id lhs rel).maxDegree = 0) ∧
    ∀ v : Variable, (ConstraintRecord.make id lhs rel).maxDegreeOf v ≤
      (ConstraintRecord.make id lhs rel).maxDegree := by
  have hmax : (ConstraintRecord.make id lhs rel).maxDegree =
      ((ConstraintRecord.make id lhs rel).mVariables.map
        (ConstraintRecord.make id lhs rel).maxDegreeOf).foldr max 0 := by
    unfold ConstraintRecord.maxDegree
    rw [foldl_max]
    exact Nat.zero_max _
  refine ⟨hmax, fun h => ?_, fun v => ?_⟩
  · rw [hmax, h]
    rfl
  · rw [hmax]
    by_cases hv : v ∈ lhs.variableList
    · exact le_foldr_max _ _ v (by simpa [ConstraintRecord.make,
        ConstraintRecord.initVariableInformations] using hv)
    · simp [ConstraintRecord.maxDegreeOf, make_missing id lhs rel v hv]

/-- Turning a relation around twice gives the relation. -/
theorem turnAround_turnAround (r : Relation) : turnAround (turnAround r) = r := by
  cases r <;> rfl

/-- The atom `a * t + b ~ 0` in `t` is an atom on `t - θ` with `θ = -b / a`,
the relation turned around when `a` is negative. -/
theorem holds_linear (rel : Relation) (a b : ℚ) (ha : a ≠ 0) (t : ℝ) :
    rel.holds ((a : ℝ) * t + (b : ℝ)) ↔
      (if a < 0 then turnAround rel else rel).holds (t - (-(b : ℝ) / (a : ℝ))) := by
  have haR : (a : ℝ) ≠ 0 := by exact_mod_cast ha
  have hval : (a : ℝ) * (t - (-(b : ℝ) / (a : ℝ))) = (a : ℝ) * t + (b : ℝ) := by
    field_simp
    ring
  rw [holds_scale (if a < 0 then turnAround rel else rel) a ha, hval]
  by_cases h : a < 0
  · simp only [h, if_true, turnAround_turnAround]
  · simp only [h, if_false]

/-- The solutions of an atom on `t - θ` are bounded below exactly for the
relations EQ, GREATER and GEQ. -/
theorem bddBelow_canonical (r : Relation) (θ : ℝ) :
    BddBelow {t : ℝ | r.holds (t - θ)} ↔
      (r = Relation.EQ ∨ r = Relation.GREATER ∨ r = Relation.GEQ) := by
  constructor
  · rintro ⟨L, hL⟩
    have hlow : min L θ - 1 ∈ {t : ℝ | r.holds (t - θ)} → False := by
      intro hm
      have := hL hm
      have := min_le_left L θ
      linarith
    have h1 := min_le_right L θ
    cases r
    · exact Or.inl rfl
    · exact absurd (show min L θ - 1 - θ ≠ 0 by intro h0; linarith) hlow
    · exact absurd (show min L θ - 1 - θ < 0 by linarith) hlow
    · exact absurd (show min L θ - 1 - θ ≤ 0 by linarith) hlow
    · exact Or.inr (Or.inl rfl)
    · exact Or.inr (Or.inr rfl)
  · rintro (h | h | h) <;> subst h <;> refine ⟨θ, fun t ht => ?_⟩ <;>
      simp only [Set.mem_setOf_eq, Relation.holds] at ht <;> linarith

/-- The solutions of an atom on `t - θ` are bounded above exactly for the
relations EQ, LESS and LEQ. -/
theorem bddAbove_canonical (r : Relation) (θ : ℝ) :
    BddAbove {t : ℝ | r.holds (t - θ)} ↔
      (r = Relation.EQ ∨ r = Relation.LESS ∨ r = Relation.LEQ) := by
  constructor
  · rintro ⟨U, hU⟩
    have hup : max U θ + 1 ∈ {t : ℝ | r.holds (t - θ)} → False := by
      intro hm
      have := hU hm
      have := le_max_left U θ
      linarith
    have h1 := le_max_right U θ
    cases r
    · exact Or.inl rfl
    · exact absurd (show max U θ + 1 - θ ≠ 0 by intro h0; linarith) hup
    · exact Or.inr (Or.inl rfl)
    · exact Or.inr (Or.inr rfl)
    · exact absurd (show 0 < max U θ + 1 - θ by linarith) hup
    · exact absurd (show 0 ≤ max U θ + 1 - θ by linarith) hup
  · rintro (h | h | h) <;> subst h <;> refine ⟨θ, fun t ht => ?_⟩ <;>
      simp only [Set.mem_setOf_eq, Relation.holds] at ht <;> linarith

/-- The record constructed for `a * x + b ~ 0`: one variable of maximal degree
one, and `isBound()` depends on the relation only. -/
theorem make_linear (id : Nat) (x : Variable) (a b : ℚ) (rel : Relation) :
    (ConstraintRecord.make id (Pol.linear x a b) rel).mVariables = [x] ∧
    (ConstraintRecord.make id (Pol.linear x a b) rel).maxDegreeOf x = 1 ∧
    (ConstraintRecord.make id (Pol.linear x a b) rel).isBound false
      = decide (rel ≠ Relation.NEQ) ∧
    (ConstraintRecord.make id (Pol.linear x a b) rel).content.mLhs.lcoeff = a ∧
    (ConstraintRecord.make id (Pol.linear x a b) rel).content.mRelation = rel := by
  have hvars : (Pol.linear x a b).variableList = [x] := by
    simp [Pol.variableList, Pol.linear, Pol.has, Monomial.exponentOf]
  have hV : (ConstraintRecord.make id (Pol.linear x a b) rel).mVariables = [x] := by
    simp [ConstraintRecord.make, ConstraintRecord.initVariableInformations, hvars]
  have hD : (ConstraintRecord.make id (Pol.linear x a b) rel).maxDegreeOf x = 1 := by
    rw [ConstraintRecord.maxDegreeOf, make_lookup, hvars]
    simp [Pol.getVarInfoOf, Pol.linear, Monomial.exponentOf]
  refine ⟨hV, hD, ?_, ?_, ?_⟩
  · simp only [ConstraintRecord.isBound, hV, List.length_singleton, ne_eq, not_true_eq_false,
      List.headD_cons, hD, or_self, if_false, Bool.false_eq_true]
    rfl
  · simp [ConstraintRecord.make, ConstraintRecord.initVariableInformations, Pol.lcoeff,
      Pol.linear]
  · simp [ConstraintRecord.make, ConstraintRecord.initVariableInformations]

/-- The value of `a * x + b` at a point. -/
theorem eval_linear (x : Variable) (a b : ℚ) (σ : Variable → ℝ) :
    (Pol.linear x a b).eval σ = (a : ℝ) * σ x + (b : ℝ) := by
  simp [Pol.eval, Pol.linear]
  ring

/-- C24: for every constraint a*x + b ~ 0 with a nonzero, isLowerBound() is
true exactly when the set of the real values of x satisfying the constraint is
bounded below, and isUpperBound() is true exactly when it is bounded above;
none of the two calls fails. -/
theorem bound_direction (id : Nat) (x : Variable) (a b : ℚ) (rel : Relation) (ha : a ≠ 0) :
    ((ConstraintRecord.make id (Pol.linear x a b) rel).isLowerBound = some true ↔
      BddBelow {t : ℝ |
        (ConstraintRecord.make id (Pol.linear x a b) rel).content.satisfiedBy (fun _ => t)}) ∧
    ((ConstraintRecord.make id (Pol.linear x a b) rel).isUpperBound = some true ↔
      BddAbove {t : ℝ |
        (ConstraintRecord.make id (Pol.linear x a b) rel).content.satisfiedBy (fun _ => t)}) ∧
    (ConstraintRecord.make id (Pol.linear x a b) rel).isLowerBound ≠ none ∧
    (ConstraintRecord.make id (Pol.linear x a b) rel).isUpperBound ≠ none := by
  obtain ⟨_, _, hB, hL, hR⟩ := make_linear id x a b rel
  have hlhs : (ConstraintRecord.make id (Pol.linear x a b) rel).content.mLhs
      = Pol.linear x a b := by
    simp [ConstraintRecord.make, ConstraintRecord.initVariableInformations]
  have hset : {t : ℝ |
        (ConstraintRecord.make id (Pol.linear x a b) rel).content.satisfiedBy (fun _ => t)} =
      {t : ℝ | (if a < 0 then turnAround rel else rel).holds (t - (-(b : ℝ) / (a : ℝ)))} := by
    ext t
    simp only [Set.mem_setOf_eq, ConstraintContent.satisfiedBy, hR, hlhs, eval_linear]
    exact holds_linear rel a b ha t
  rw [hset, bddBelow_canonical, bddAbove_canonical]
  simp only [ConstraintRecord.isLowerBound, ConstraintRecord.isUpperBound, hB, hL, hR]
  rcases lt_or_gt_of_ne ha with h | h
  · have h2 : ¬ (a > 0) := not_lt.mpr h.le
    cases rel <;> simp [h, h2, turnAround]
  · have h2 : ¬ (a < 0) := not_lt.mpr h.le
    cases rel <;> simp [h, h2, turnAround]

/-- Instance of C22: the variable with index 1 does not occur in `x < 0`, and
the three queries return 0 for it. -/
theorem missing_variable_witness :
    (1 : Variable) ∉ xPol.variableList ∧
    (ConstraintRecord.make 1 xPol Relation.LESS).maxDegreeOf 1 = 0 ∧
    (ConstraintRecord.make 1 xPol Relation.LESS).minDegree 1 = 0 ∧
    (ConstraintRecord.make 1 xPol Relation.LESS).occurences 1 = 0 :=
  ⟨by decide, missing_variable 1 xPol Relation.LESS 1 (by decide)⟩

/-- Counterexample to C23: `x != 0` has exactly one variable, of maximal
degree 1, and `isBound()` returns false. -/
theorem isBound_neq_false :
    (ConstraintRecord.make 1 xPol Relation.NEQ).mVariables = [0] ∧
    (ConstraintRecord.make 1 xPol Relation.NEQ).maxDegreeOf 0 = 1 ∧
    (ConstraintRecord.make 1 xPol Relation.NEQ).isBound false = false := by
  decide

/-- Instance of C24: `-x <= 0` is a lower bound and no upper bound, and the
solutions are bounded below and not bounded above. -/
theorem bound_direction_witness :
    (-1 : ℚ) ≠ 0 ∧
    ((ConstraintRecord.make 1 (Pol.linear 0 (-1) 0) Relation.LEQ).isLowerBound = some true ↔
      BddBelow {t : ℝ | (ConstraintRecord.make 1 (Pol.linear 0 (-1) 0)
        Relation.LEQ).content.satisfiedBy (fun _ => t)}) ∧
    ((ConstraintRecord.make 1 (Pol.linear 0 (-1) 0) Relation.LEQ).isUpperBound = some true ↔
      BddAbove {t : ℝ | (ConstraintRecord.make 1 (Pol.linear 0 (-1) 0)
        Relation.LEQ).content.satisfiedBy (fun _ => t)}) ∧
    (ConstraintRecord.make 1 (Pol.linear 0 (-1) 0) Relation.LEQ).isLowerBound ≠ none ∧
    (ConstraintRecord.make 1 (Pol.linear 0 (-1) 0) Relation.LEQ).isUpperBound ≠ none :=
  ⟨by norm_num, bound_direction 1 0 (-1) 0 Relation.LEQ (by norm_num)⟩

/-! ## The record: factorization -/

/-- A state with a non-empty factorization is left as it is. -/
theorem ensure_of_ne_nil (initFactorization : ConstraintRecord → List (Pol × Nat))
    (s : FactorizationState) (h : s.record.mFactorization ≠ []) :
    s.ensure initFactorization = s := by
  unfold FactorizationState.ensure
  rw [if_neg]
  simpa [List.isEmpty_iff] using h

/-- Later calls on a state with a non-empty factorization leave it as it is. -/
theorem calls_of_ne_nil (initFactorization : ConstraintRecord → List (Pol × Nat))
    (s : FactorizationState) (h : s.record.mFactorization ≠ []) (which : List Bool) :
    s.calls initFactorization which = s := by
  unfold FactorizationState.calls
  induction which with
  | nil => rfl
  | cons w ws ih =>
    rw [List.foldl_cons]
    have hstep : (if w then (s.hasFactorization initFactorization).2
        else (s.factorization initFactorization).2) = s := by
      cases w <;>
        simp [FactorizationState.hasFactorization, FactorizationState.factorization,
          ensure_of_ne_nil initFactorization s h]
    rw [hstep]
    exact ih

/-- Counterexample to C27: when `initFactorization` leaves the factorization
empty, the second call of `factorization()` invokes it again. -/
theorem factorization_empty_recomputed :
    ((FactorizationState.mk (ConstraintRecord.make 1 xPol Relation.LESS) 0).factorization
      (fun _ => [])).2.initCalls = 1 ∧
    (((FactorizationState.mk (ConstraintRecord.make 1 xPol Relation.LESS) 0).factorization
      (fun _ => [])).2.factorization (fun _ => [])).2.initCalls = 2 ∧
    (((FactorizationState.mk (ConstraintRecord.make 1 xPol Relation.LESS) 0).hasFactorization
      (fun _ => [])).2.hasFactorization (fun _ => [])).2.initCalls = 2 := by
  decide

/-- C27 (amended): if the first call of factorization() or hasFactorization()
leaves a non-empty factorization, then the first call invoked
initFactorization at most once, every sequence of later calls leaves the
record and the number of invocations unchanged, and a later call returns the
stored factorization. -/
theorem factorization_once (initFactorization : ConstraintRecord → List (Pol × Nat))
    (s : FactorizationState) (which : List Bool)
    (h : (s.ensure initFactorization).record.mFactorization ≠ []) :
    (s.factorization initFactorization).2 = s.ensure initFactorization ∧
    (s.hasFactorization initFactorization).2 = s.ensure initFactorization ∧
    (s.ensure initFactorization).initCalls ≤ s.initCalls + 1 ∧
    (s.ensure initFactorization).calls initFactorization which
      = s.ensure initFactorization ∧
    (((s.ensure initFactorization).calls initFactorization which).factorization
      initFactorization)
      = ((s.ensure initFactorization).record.mFactorization, s.ensure initFactorization) ∧
    (((s.ensure initFactorization).calls initFactorization which).hasFactorization
      initFactorization)
      = (decide ((s.ensure initFactorization).record.mFactorization.length > 1),
          s.ensure initFactorization) := by
  have hc := calls_of_ne_nil initFactorization _ h which
  have he := ensure_of_ne_nil initFactorization _ h
  refine ⟨rfl, rfl, ?_, hc, ?_, ?_⟩
  · unfold FactorizationState.ensure
    split_ifs <;> simp
  · rw [hc]
    simp [FactorizationState.factorization, he]
  · rw [hc]
    simp [FactorizationState.hasFactorization, he]

/-- Instance of C27 (amended): with the trivial factorization, one factor of
multiplicity 1, the calls after the first leave the state unchanged. -/
theorem factorization_once_witness :
    ((FactorizationState.mk (ConstraintRecord.make 1 xPol Relation.LESS) 0).ensure
      (fun r => [(r.content.mLhs, 1)])).record.mFactorization ≠ [] ∧
    ((FactorizationState.mk (ConstraintRecord.make 1 xPol Relation.LESS) 0).ensure
      (fun r => [(r.content.mLhs, 1)])).initCalls = 1 ∧
    (((FactorizationState.mk (ConstraintRecord.make 1 xPol Relation.LESS) 0).ensure
      (fun r => [(r.content.mLhs, 1)])).calls (fun r => [(r.content.mLhs, 1)])
        [true, false, false]).initCalls = 1 := by
  have h := factorization_once (fun r => [(r.content.mLhs, 1)])
    (FactorizationState.mk (ConstraintRecord.make 1 xPol Relation.LESS) 0) [true, false, false]
    (by decide)
  refine ⟨by decide, by decide, ?_⟩
  rw [h.2.2.2.1]
  decide

/-! ## The record: variable information with coefficients -/

/-- The lookup after the assignment through the iterator. -/
theorem lookup_setVarInfo (m : List (Variable × VarInfo)) (v u : Variable) (vi : VarInfo) :
    (setVarInfo m v vi).lookup u =
      if u = v then (m.lookup v).map (fun _ => vi) else m.lookup u := by
  induction m with
  | nil => simp [setVarInfo]
  | cons e m ih =>
    obtain ⟨k, x⟩ := e
    unfold setVarInfo at ih ⊢
    rw [List.map_cons]
    by_cases hkv : k = v
    · by_cases huk : u = k
      · subst huk
        subst hkv
        simp [List.lookup_cons]
      · have huv : ¬ u = v := fun h => huk (h.trans hkv.symm)
        have h1 : (u == k) = false := by simpa using huk
        rw [if_neg huv] at ih ⊢
        simp only [hkv, if_true]
        rw [List.lookup_cons, List.lookup_cons, ← hkv, h1]
        rw [← hkv] at ih
        exact ih
    · by_cases huk : u = k
      · have huv : ¬ u = v := fun h => hkv (huk.symm.trans h)
        rw [if_neg huv]
        simp only [hkv, if_false]
        rw [List.lookup_cons, List.lookup_cons]
        simp [huk]
      · have h1 : (u == k) = false := by simpa using huk
        simp only [hkv, if_false]
        rw [List.lookup_cons, h1]
        simp only []
        rw [ih]
        by_cases huv : u = v
        · have h2 : (v == k) = false := by
            simpa using fun h : v = k => hkv h.symm
          simp only [huv, if_true, List.lookup_cons, h2]
        · simp only [huv, if_false, List.lookup_cons, h1]

/-- Assigning the same value twice is assigning it once. -/
theorem setVarInfo_idem (m : List (Variable × VarInfo)) (v : Variable) (vi : VarInfo) :
    setVarInfo (setVarInfo m v vi) v vi = setVarInfo m v vi := by
  unfold setVarInfo
  rw [List.map_map]
  apply List.map_congr_left
  intro e _
  by_cases h : e.1 = v <;> simp [h]

/-- The assignment keeps the variables that have an entry. -/
theorem setVarInfo_keys (m : List (Variable × VarInfo)) (v : Variable) (vi : VarInfo) :
    (setVarInfo m v vi).map Prod.fst = m.map Prod.fst := by
  unfold setVarInfo
  rw [List.map_map]
  apply List.map_congr_left
  intro e _
  by_cases h : e.1 = v <;> simp [h]

/-- The outcome of `varInfo` on a record with an entry for the variable: the
entry the call leaves in the map is returned. -/
theorem varInfo_of_lookup (r : ConstraintRecord) (v : Variable) (w : Bool) (e : VarInfo)
    (h : r.mVarInfoMap.lookup v = some e) :
    ∃ vi r1, r.varInfo v w = some (vi, r1) ∧ r1.mVarInfoMap.lookup v = some vi := by
  unfold ConstraintRecord.varInfo
  rw [h]
  by_cases hc : (w && !e.hasCoeff) = true
  · refine ⟨r.content.mLhs.getVarInfoOf true v,
      ⟨r.content, r.mVariables, r.mFactorization,
        setVarInfo r.mVarInfoMap v (r.content.mLhs.getVarInfoOf true v)⟩,
      by simp only [hc, if_true], ?_⟩
    simp [lookup_setVarInfo, h]
  · exact ⟨e, r, by simp only [hc, if_false, Bool.false_eq_true], h⟩

/-- C28: varInfo(v, withCoefficients) fails if and only if the variable v has
no entry in the map of variable information, which for a constructed
constraint says that v does not occur in it; exactly for the occurring
variables the call returns a value, the entry of v in the map. -/
theorem varInfo_fails_iff (r : ConstraintRecord) (id : Nat) (lhs : Pol) (rel : Relation)
    (v : Variable) (w : Bool) :
    (r.varInfo v w = none ↔ r.mVarInfoMap.lookup v = none) ∧
    ((ConstraintRecord.make id lhs rel).varInfo v w = none ↔ v ∉ lhs.variableList) ∧
    (v ∈ lhs.variableList ↔ ∃ vi r1,
      (ConstraintRecord.make id lhs rel).varInfo v w = some (vi, r1) ∧
      r1.mVarInfoMap.lookup v = some vi) ∧
    ((ConstraintRecord.make id lhs rel).varInfo v false =
      if v ∈ lhs.variableList
      then some (lhs.getVarInfoOf false v, ConstraintRecord.make id lhs rel) else none) := by
  have hgen : ∀ r : ConstraintRecord, r.varInfo v w = none ↔ r.mVarInfoMap.lookup v = none := by
    intro r
    constructor
    · intro h
      cases hl : r.mVarInfoMap.lookup v with
      | none => rfl
      | some e =>
        obtain ⟨vi, r1, h1, _⟩ := varInfo_of_lookup r v w e hl
        rw [h] at h1
        exact absurd h1 (by simp)
    · intro h
      simp [ConstraintRecord.varInfo, h]
  have hmk : (ConstraintRecord.make id lhs rel).varInfo v w = none ↔ v ∉ lhs.variableList := by
    rw [hgen, make_lookup]
    by_cases hv : v ∈ lhs.variableList <;> simp [hv]
  refine ⟨hgen r, hmk, ?_, ?_⟩
  · constructor
    · intro hv
      have hl := make_lookup id lhs rel v
      rw [if_pos hv] at hl
      exact varInfo_of_lookup _ v w _ hl
    · rintro ⟨vi, r1, h1, _⟩
      by_contra hv
      rw [hmk.mpr hv] at h1
      exact absurd h1 (by simp)
  · unfold ConstraintRecord.varInfo
    rw [make_lookup]
    by_cases hv : v ∈ lhs.variableList <;> simp [hv]

/-- C29: when varInfo(v, true) returns, the entries of all other variables,
the variables with an entry and the other members of the record are as
before, and a second call varInfo(v, true) returns the same value and leaves
the record as the first call left it. -/
theorem varInfo_coefficients_idempotent (r : ConstraintRecord) (v : Variable) (vi1 : VarInfo)
    (r1 : ConstraintRecord) (h : r.varInfo v true = some (vi1, r1)) :
    (∀ u, u ≠ v → r1.mVarInfoMap.lookup u = r.mVarInfoMap.lookup u) ∧
    r1.mVarInfoMap.map Prod.fst = r.mVarInfoMap.map Prod.fst ∧
    r1.content = r.content ∧ r1.mVariables = r.mVariables ∧
    r1.mFactorization = r.mFactorization ∧
    r1.varInfo v true = some (vi1, r1) := by
  unfold ConstraintRecord.varInfo at h
  cases hl : r.mVarInfoMap.lookup v with
  | none =>
    rw [hl] at h
    exact absurd h (by simp)
  | some e =>
    rw [hl] at h
    by_cases hc : e.hasCoeff = true
    · simp only [hc, Bool.not_true, Bool.and_false, Bool.false_eq_true, if_false,
        Option.some.injEq, Prod.mk.injEq] at h
      obtain ⟨h1, h2⟩ := h
      subst h1
      subst h2
      refine ⟨fun _ _ => rfl, rfl, rfl, rfl, rfl, ?_⟩
      simp [ConstraintRecord.varInfo, hl, hc]
    · have hc2 : e.hasCoeff = false := by simpa using hc
      simp only [hc2, Bool.not_false, Bool.and_true, if_true, Option.some.injEq,
        Prod.mk.injEq] at h
      obtain ⟨h1, h2⟩ := h
      subst h2
      refine ⟨fun u hu => ?_, setVarInfo_keys _ _ _, rfl, rfl, rfl, ?_⟩
      · simp [lookup_setVarInfo, hu]
      · unfold ConstraintRecord.varInfo
        simp only [lookup_setVarInfo, hl, if_true, Option.map_some']
        rw [h1]
        by_cases hg : vi1.hasCoeff = true
        · simp [hg]
        · have hg2 : vi1.hasCoeff = false := by simpa using hg
          simp only [hg2, Bool.not_false, Bool.and_true, if_true, h1, setVarInfo_idem]

/-- Instance of C29: the coefficient-carrying information on `x` in `x < 0`. -/
theorem varInfo_coefficients_idempotent_witness :
    (ConstraintRecord.make 1 xPol Relation.LESS).varInfo 0 true =
      some (xPol.getVarInfoOf true 0,
        ⟨⟨1, Relation.LESS, xPol⟩, [0], [], [(0, xPol.getVarInfoOf true 0)]⟩) ∧
    (ConstraintRecord.mk ⟨1, Relation.LESS, xPol⟩ [0] []
      [(0, xPol.getVarInfoOf true 0)]).varInfo 0 true =
      some (xPol.getVarInfoOf true 0,
        ⟨⟨1, Relation.LESS, xPol⟩, [0], [], [(0, xPol.getVarInfoOf true 0)]⟩) :=
  ⟨rfl,
    (varInfo_coefficients_idempotent (ConstraintRecord.make 1 xPol Relation.LESS) 0
      (xPol.getVarInfoOf true 0)
      ⟨⟨1, Relation.LESS, xPol⟩, [0], [], [(0, xPol.getVarInfoOf true 0)]⟩ rfl).2.2.2.2.2⟩

/-! ## The variables of a polynomial -/

/-- C30 (the code at the failing input): after the constant term `1` and the
term `x` were added to a map, whatever capacity the map has, `readTerms`
delivers the leading term `x` at the beginning and the constant part at the
end of the vector; the map is empty and the user slot is null afterwards. -/
theorem readTerms_leading_first (less : Monomial → Monomial → Bool) (capacity : Nat) :
    managerOneX less capacity =
      some ⟨0, [some 7], [[(none, oneTerm), (some [(0, 1)], xTerm)]], [max capacity 2],
        [some (some [(0, 1)])], [some none]⟩ ∧
    (TermAdditionManager.mk 0 [some 7] [[(none, oneTerm), (some [(0, 1)], xTerm)]]
        [max capacity 2] [some (some [(0, 1)])] [some none]).readTerms 7 0 =
      some ([xTerm, oneTerm], ⟨0, [none], [[]], [max capacity 2], [none], [none]⟩) := by
  constructor
  · simp [managerOneX, TermAdditionManager.create, TermAdditionManager.getTermMapId,
      TermAdditionManager.addTerm, xTerm, oneTerm, lt_max_iff, List.lookup]
  · rfl

/-! ## The two orders of the arguments of compare -/

/-- C32 (the code at the failing inputs): the pair `x >= 0`, `x > 0` is
comparable in both orders and compare returns A_IMPLIES_B (1) in both orders;
the pair `x > 0`, `x + 1 >= 0` is comparable in both orders and compare
returns B_IMPLIES_A (-1) in both orders. -/
theorem compare_swap_not_mirrored :
    Comparable Pol.coprimeFactorWithoutConstant ⟨xPol, Relation.GEQ⟩ ⟨xPol, Relation.GREATER⟩
      xPol 1 1 0 0 ∧
    Comparable Pol.coprimeFactorWithoutConstant ⟨xPol, Relation.GREATER⟩ ⟨xPol, Relation.GEQ⟩
      xPol 1 1 0 0 ∧
    compare Pol.coprimeFactorWithoutConstant ⟨xPol, Relation.GEQ⟩ ⟨xPol, Relation.GREATER⟩
      = some A_IMPLIES_B ∧
    compare Pol.coprimeFactorWithoutConstant ⟨xPol, Relation.GREATER⟩ ⟨xPol, Relation.GEQ⟩
      = some A_IMPLIES_B ∧
    Comparable Pol.coprimeFactorWithoutConstant ⟨xPol, Relation.GREATER⟩
      ⟨Pol.affine ((1 : ℤ) : ℚ) xPol 1, Relation.GEQ⟩ xPol 1 1 0 1 ∧
    Comparable Pol.coprimeFactorWithoutConstant ⟨Pol.affine ((1 : ℤ) : ℚ) xPol 1, Relation.GEQ⟩
      ⟨xPol, Relation.GREATER⟩ xPol 1 1 1 0 ∧
    compare Pol.coprimeFactorWithoutConstant ⟨xPol, Relation.GREATER⟩
      ⟨Pol.affine ((1 : ℤ) : ℚ) xPol 1, Relation.GEQ⟩ = some B_IMPLIES_A ∧
    compare Pol.coprimeFactorWithoutConstant ⟨Pol.affine ((1 : ℤ) : ℚ) xPol 1, Relation.GEQ⟩
      ⟨xPol, Relation.GREATER⟩ = some B_IMPLIES_A ∧
    A_IMPLIES_B ≠ B_IMPLIES_A := by
  refine ⟨comparable_of_normalised _ _ xPol 1 1 0 0 xPol_normalised (by decide) (by decide)
      xPol_affine xPol_affine,
    comparable_of_normalised _ _ xPol 1 1 0 0 xPol_normalised (by decide) (by decide)
      xPol_affine xPol_affine, ?_, ?_,
    comparable_of_normalised _ _ xPol 1 1 0 1 xPol_normalised (by decide) (by decide)
      xPol_affine rfl,
    comparable_of_normalised _ _ xPol 1 1 1 0 xPol_normalised (by decide) (by decide)
      rfl xPol_affine, ?_, ?_, by decide⟩
  · refine compare_of_value (comparable_of_normalised _ _ xPol 1 1 0 0 xPol_normalised (by decide) (by decide)
      xPol_affine xPol_affine) ?_
    norm_num [compareValue, Pol.coprimeFactorWithoutConstant, xPol, Pol.subNum, Pol.mulNum,
      compareTable, A_IMPLIES_B]
  · refine compare_of_value (comparable_of_normalised _ _ xPol 1 1 0 0 xPol_normalised (by decide) (by decide)
      xPol_affine xPol_affine) ?_
    norm_num [compareValue, Pol.coprimeFactorWithoutConstant, xPol, Pol.subNum, Pol.mulNum,
      compareTable, A_IMPLIES_B]
  · refine compare_of_value (comparable_of_normalised _ _ xPol 1 1 0 1 xPol_normalised (by decide) (by decide)
      xPol_affine rfl) ?_
    norm_num [compareValue, Pol.coprimeFactorWithoutConstant, xPol, Pol.subNum, Pol.mulNum,
      Pol.affine, compareTable, B_IMPLIES_A]
  · refine compare_of_value (comparable_of_normalised _ _ xPol 1 1 1 0 xPol_normalised (by decide) (by decide)
      rfl xPol_affine) ?_
    norm_num [compareValue, Pol.coprimeFactorWithoutConstant, xPol, Pol.subNum, Pol.mulNum,
      Pol.affine, compareTable, B_IMPLIES_A]

/-! ## Bounds: the negated bound and the sign assertions -/

/-- C34: isBound(negated = true) on a constraint gives the same answer as
isBound() on its negation, the record constructed for the same left-hand
side and the inverse relation, whatever the ids of the two records are. -/
theorem isBound_negated (id id2 : Nat) (c : Constraint) :
    (ConstraintRecord.make id c.lhs c.relation).isBound true =
      (ConstraintRecord.make id2 c.negation.lhs c.negation.relation).isBound false := by
  have hV : ∀ (i : Nat) (r : Relation), (ConstraintRecord.make i c.lhs r).mVariables
      = c.lhs.variableList := by
    intro i r
    simp [ConstraintRecord.make, ConstraintRecord.initVariableInformations]
  have hD : ∀ (i : Nat) (r : Relation) (v : Variable),
      (ConstraintRecord.make i c.lhs r).maxDegreeOf v
        = (ConstraintRecord.make id c.lhs c.relation).maxDegreeOf v := by
    intro i r v
    simp only [ConstraintRecord.maxDegreeOf, make_lookup]
  have hR : ∀ (i : Nat) (r : Relation), (ConstraintRecord.make i c.lhs r).content.mRelation = r := by
    intro i r
    simp [ConstraintRecord.make, ConstraintRecord.initVariableInformations]
  simp only [ConstraintRecord.isBound, Constraint.negation, hV, hR, hD id2 (inverse c.relation)]
  cases c.relation <;> simp [inverse]

/-- A polynomial with a variable has a non-constant term. -/
theorem terms_ne_nil_of_variable (p : Pol) (v : Variable) (hv : v ∈ p.variableList) :
    p.terms ≠ [] := by
  intro h
  simp [Pol.variableList, h] at hv

/-- C33: for every constraint whose left-hand side has no term with
coefficient zero and for which isBound() is true, the coefficient of the
leading term is nonzero, exactly one of the two sign branches applies and the
assertions of isLowerBound() and isUpperBound() do not fail. -/
theorem sign_assertions_hold (id : Nat) (lhs : Pol) (rel : Relation)
    (hcoeff : ∀ t ∈ lhs.terms, t.2 ≠ 0)
    (hbound : (ConstraintRecord.make id lhs rel).isBound false = true) :
    lhs.lcoeff ≠ 0 ∧
    ((lhs.lcoeff < 0 ∧ ¬ lhs.lcoeff > 0) ∨ (¬ lhs.lcoeff < 0 ∧ lhs.lcoeff > 0)) ∧
    (ConstraintRecord.make id lhs rel).isLowerBound ≠ none ∧
    (ConstraintRecord.make id lhs rel).isUpperBound ≠ none := by
  have hV : (ConstraintRecord.make id lhs rel).mVariables = lhs.variableList := by
    simp [ConstraintRecord.make, ConstraintRecord.initVariableInformations]
  have hL : (ConstraintRecord.make id lhs rel).content.mLhs = lhs := by
    simp [ConstraintRecord.make, ConstraintRecord.initVariableInformations]
  have hlen : lhs.variableList.length = 1 := by
    unfold ConstraintRecord.isBound at hbound
    by_cases h1 : (ConstraintRecord.make id lhs rel).mVariables.length ≠ 1 ∨
        (ConstraintRecord.make id lhs rel).maxDegreeOf
          ((ConstraintRecord.make id lhs rel).mVariables.headD 0) ≠ 1
    · rw [if_pos h1] at hbound
      exact absurd hbound (by decide)
    · rw [← hV]
      exact not_not.mp (not_or.mp h1).1
  obtain ⟨v, hv⟩ := List.length_eq_one.mp hlen
  have hterms : lhs.terms ≠ [] := terms_ne_nil_of_variable lhs v (by rw [hv]; simp)
  have hne : lhs.lcoeff ≠ 0 := by
    unfold Pol.lcoeff
    cases hlast : lhs.terms.getLast? with
    | none => exact absurd (List.getLast?_eq_none_iff.mp hlast) hterms
    | some t => exact hcoeff t (List.mem_of_getLast?_eq_some hlast)
  have hsign : (lhs.lcoeff < 0 ∧ ¬ lhs.lcoeff > 0) ∨ (¬ lhs.lcoeff < 0 ∧ lhs.lcoeff > 0) := by
    rcases lt_or_gt_of_ne hne with h | h
    · exact Or.inl ⟨h, not_lt.mpr h.le⟩
    · exact Or.inr ⟨not_lt.mpr h.le, h⟩
  refine ⟨hne, hsign, ?_, ?_⟩
  · simp only [ConstraintRecord.isLowerBound, hbound, if_true, hL]
    rcases hsign with ⟨h, h2⟩ | ⟨h2, h⟩ <;> split_ifs <;> simp
  · simp only [ConstraintRecord.isUpperBound, hbound, if_true, hL]
    rcases hsign with ⟨h, h2⟩ | ⟨h2, h⟩ <;> split_ifs <;> simp

/-- Instance of C33: `x < 0`. -/
theorem sign_assertions_hold_witness :
    (∀ t ∈ xPol.terms, t.2 ≠ 0) ∧
    (ConstraintRecord.make 1 xPol Relation.LESS).isBound false = true ∧
    xPol.lcoeff ≠ 0 ∧
    (ConstraintRecord.make 1 xPol Relation.LESS).isLowerBound ≠ none ∧
    (ConstraintRecord.make 1 xPol Relation.LESS).isUpperBound ≠ none := by
  have hc : ∀ t ∈ xPol.terms, t.2 ≠ 0 := by
    intro t ht
    simp only [xPol, List.mem_singleton] at ht
    rw [ht]
    norm_num
  have hb : (ConstraintRecord.make 1 xPol Relation.LESS).isBound false = true := by decide
  have h := sign_assertions_hold 1 xPol Relation.LESS hc hb
  exact ⟨hc, hb, h.1, h.2.2.1, h.2.2.2⟩

/-! ## The hash of a constraint -/

/-- The bits of the shifted hash value below position 3 are zero. -/
theorem testBit_shifted (h i : Nat) (hi : i < 3) :
    (((h % 2 ^ 64) <<< 3) % 2 ^ 64).testBit i = false := by
  rw [Nat.testBit_mod_two_pow, Nat.testBit_shiftLeft]
  have : ¬ i ≥ 3 := by omega
  simp [this]

/-- The low three bits of the hash are the code of the relation. -/
theorem constraint_hash_mod (h rel : Nat) (hr : rel < 8) : CONSTRAINT_HASH h rel % 8 = rel := by
  have h8 : (8 : Nat) = 2 ^ 3 := by norm_num
  have hr64 : rel % 2 ^ 64 = rel := Nat.mod_eq_of_lt (by omega)
  unfold CONSTRAINT_HASH
  rw [hr64, h8]
  apply Nat.eq_of_testBit_eq
  intro i
  rw [Nat.testBit_mod_two_pow, Nat.testBit_mod_two_pow, Nat.testBit_xor]
  by_cases hi : i < 3
  · have hi64 : i < 64 := by omega
    rw [testBit_shifted h i hi]
    simp [hi, hi64]
  · have hlt : rel < 2 ^ i := by
      have : 2 ^ 3 ≤ 2 ^ i := Nat.pow_le_pow_right (by norm_num) (by omega)
      omega
    rw [Nat.testBit_lt_two_pow hlt]
    simp [hi]

/-- C40: CONSTRAINT_HASH(lhs, rel) is ((hash(lhs) << 3) xor rel) modulo 2^64;
for every relation code rel < 8 the low three bits of the hash are rel, so two
constraints with equal left-hand sides have equal hashes exactly when their
relations are equal, the codes of the relations being different numbers
below 8. -/
theorem constraint_hash_low_bits (hashPol : Pol → Nat) (code : Relation → Nat) (h rel : Nat)
    (A B : Constraint) (hh : h < 2 ^ 64) (hr : rel < 8)
    (hcode : ∀ r, code r < 8) (hinj : ∀ r1 r2, code r1 = code r2 → r1 = r2) :
    CONSTRAINT_HASH h rel = ((h <<< 3) ^^^ rel) % 2 ^ 64 ∧
    CONSTRAINT_HASH h rel % 8 = rel ∧
    A.getHash hashPol code % 8 = code A.relation ∧
    (A.lhs = B.lhs →
      (A.getHash hashPol code = B.getHash hashPol code ↔ A.relation = B.relation)) := by
  refine ⟨?_, constraint_hash_mod h rel hr, constraint_hash_mod _ _ (hcode _), ?_⟩
  · unfold CONSTRAINT_HASH
    rw [Nat.mod_eq_of_lt hh, Nat.mod_eq_of_lt (show rel < 2 ^ 64 by omega)]
    apply Nat.eq_of_testBit_eq
    intro i
    simp only [Nat.testBit_mod_two_pow, Nat.testBit_xor, Nat.testBit_shiftLeft]
    by_cases hi : i < 64 <;> simp [hi]
  · intro hlhs
    constructor
    · intro heq
      have h1 := constraint_hash_mod (hashPol A.lhs) (code A.relation) (hcode _)
      have h2 := constraint_hash_mod (hashPol B.lhs) (code B.relation) (hcode _)
      unfold Constraint.getHash at heq
      rw [heq, h2] at h1
      exact (hinj _ _ h1).symm
    · intro heq
      unfold Constraint.getHash
      rw [hlhs, heq]

/-- Instance of C40: the hash value 5 of the left-hand side `x` with the codes
of LESS and GREATER. -/
theorem constraint_hash_low_bits_witness :
    (∀ r, Relation.code r < 8) ∧
    (∀ r1 r2, Relation.code r1 = Relation.code r2 → r1 = r2) ∧
    CONSTRAINT_HASH 5 2 = 42 ∧ CONSTRAINT_HASH 5 3 = 43 ∧
    (Constraint.mk xPol Relation.LESS).getHash (fun _ => 5) Relation.code = 42 ∧
    (Constraint.mk xPol Relation.GREATER).getHash (fun _ => 5) Relation.code = 43 ∧
    ((Constraint.mk xPol Relation.LESS).getHash (fun _ => 5) Relation.code =
        (Constraint.mk xPol Relation.GREATER).getHash (fun _ => 5) Relation.code ↔
      Relation.LESS = Relation.GREATER) := by
  have hcode : ∀ r, Relation.code r < 8 := by
    intro r
    cases r <;> decide
  have hinj : ∀ r1 r2, Relation.code r1 = Relation.code r2 → r1 = r2 := by
    intro r1 r2
    cases r1 <;> cases r2 <;> decide
  exact ⟨hcode, hinj, by decide, by decide, by decide, by decide,
    (constraint_hash_low_bits (fun _ => 5) Relation.code 5 2 ⟨xPol, Relation.LESS⟩
      ⟨xPol, Relation.GREATER⟩ (by norm_num) (by norm_num) hcode hinj).2.2.2 rfl⟩

/-! ## Comparison of a Thom encoded number with a rational -/

/-- C35 (the code on every input): the operator `<` of a Thom encoded number
and a rational returns what the operator `==` returns, in both orders of the
operands, so both are true when the number equals the rational, and `<` is
false when the number is smaller; the number 0 compared with 0 and with 1
shows both, while the operator `<` of the encoding itself is true for 0 and
1. -/
theorem thom_less_is_equal {TE : Type} (compareRational : TE → ℚ → ThomComparisonResult)
    (n : real_algebraic_number_thom TE) (r : ℚ) :
    n.ltNumber compareRational r = n.eqNumber compareRational r ∧
    real_algebraic_number_thom.numberLt compareRational r n = n.eqNumber compareRational r ∧
    n.ltNumber compareRational r
      = decide (compareRational n.te r = ThomComparisonResult.EQUAL) ∧
    (real_algebraic_number_thom.mk (0 : ℚ)).ltNumber compareRationalSelf 0 = true ∧
    (real_algebraic_number_thom.mk (0 : ℚ)).eqNumber compareRationalSelf 0 = true ∧
    (real_algebraic_number_thom.mk (0 : ℚ)).ltNumber compareRationalSelf 1 = false ∧
    ThomEncoding.ltNumber compareRationalSelf (0 : ℚ) 1 = true := by
  refine ⟨rfl, rfl, rfl, ?_, ?_, ?_, ?_⟩ <;>
    simp [real_algebraic_number_thom.ltNumber, real_algebraic_number_thom.eqNumber,
      ThomEncoding.eqNumber, ThomEncoding.ltNumber, compareRationalSelf]

/-! ## The term addition manager: iterators and merging -/

/-- C31 (the code at the failing input): whatever capacity the map has, after
`x` and `-x` were added the map is empty and the recorded leading term is not
the end marker but the iterator of the erased entry; after `1` and `-1` were
added the accumulated constant is 0 and the recorded constant term is not the
end marker. -/
theorem leading_term_dangling (less : Monomial → Monomial → Bool) (capacity : Nat) :
    managerAfter less 2 capacity [xTerm, minusXTerm] =
      some ⟨0, [some 7], [[]], [max capacity 2], [some (some [(0, 1)])], [none]⟩ ∧
    managerAfter less 2 capacity [oneTerm, minusOneTerm] =
      some ⟨0, [some 7], [[]], [max capacity 2], [none], [some none]⟩ := by
  constructor <;>
    norm_num [managerAfter, TermAdditionManager.create, TermAdditionManager.getTermMapId,
      TermAdditionManager.addTerms, TermAdditionManager.addTerm, xTerm, minusXTerm, oneTerm,
      minusOneTerm, MapIterator.erase, lt_max_iff]

/-- The lookup after the entries of a key were removed. -/
theorem lookup_erase (map : MapType) (key m : Option Monomial) :
    (MapIterator.erase map (some key)).lookup m = if m = key then none else map.lookup m := by
  show (map.filter (fun entry => decide (entry.1 ≠ key))).lookup m = _
  induction map with
  | nil => simp
  | cons e map ih =>
    obtain ⟨k, x⟩ := e
    simp only [List.filter_cons]
    by_cases hk : k = key
    · have hd : decide (k ≠ key) = false := by simpa using hk
      simp only [hd, Bool.false_eq_true, if_false]
      rw [ih]
      by_cases hm : m = key
      · simp [hm]
      · have h1 : (m == k) = false := by simpa [hk] using hm
        simp only [hm, if_false, List.lookup_cons, h1]
    · have hd : decide (k ≠ key) = true := by simpa using hk
      simp only [hd, if_true, List.lookup_cons]
      by_cases hmk : m = k
      · have hm : ¬ m = key := by rw [hmk]; exact hk
        simp [hmk, hk]
      · have h1 : (m == k) = false := by simpa using hmk
        simp only [h1]
        exact ih

/-- The lookup after the term of a key was replaced. -/
theorem lookup_replace (map : MapType) (key m : Option Monomial) (t : Term) :
    (map.map (fun entry => if entry.1 = key then (entry.1, t) else entry)).lookup m =
      if m = key then (map.lookup key).map (fun _ => t) else map.lookup m := by
  induction map with
  | nil => simp
  | cons e map ih =>
    obtain ⟨k, x⟩ := e
    rw [List.map_cons]
    by_cases hk : k = key
    · by_cases hm : m = key
      · simp [hk, hm]
      · have h1 : (m == key) = false := by simpa using hm
        simp only [hk, if_true, List.lookup_cons, h1, hm, if_false]
        rw [ih, if_neg hm]
    · by_cases hmk : m = k
      · have hm : ¬ m = key := by rw [hmk]; exact hk
        simp [hmk, hk]
      · have h1 : (m == k) = false := by simpa using hmk
        simp only [hk, if_false, List.lookup_cons, h1]
        rw [ih]
        by_cases hm : m = key
        · have h2 : (key == k) = false := by simpa using fun h : key = k => hk h.symm
          simp [hm, h2]
        · simp [hm]

/-- The lookup after a new entry was put behind the entries of a map. -/
theorem lookup_emplace (map : MapType) (key m : Option Monomial) (t : Term)
    (hnew : map.lookup key = none) :
    (map ++ [(key, t)]).lookup m = if m = key then some t else map.lookup m := by
  rw [List.lookup_append]
  by_cases hm : m = key
  · subst hm
    simp [hnew]
  · have h1 : (m == key) = false := by simpa using hm
    simp [hm, List.lookup_cons, h1]

/-- What a successful call of `addTerm` does to the map of the id: a new key is
put behind, the term of a stored key is replaced by the sum, or erased when
the sum is zero; the number of maps stays. -/
theorem addTerm_map (less : Monomial → Monomial → Bool) (M M1 : TermAdditionManager)
    (_user _id : Nat) (_term : Term) (hid : _id < M.mTermMaps.length)
    (h : M.addTerm less _user _id _term = some M1) :
    M1.mTermMaps.length = M.mTermMaps.length ∧
    ∀ m, (M1.mTermMaps.getD _id []).lookup m =
      if m = _term.monomial then
        match (M.mTermMaps.getD _id []).lookup _term.monomial with
        | none => some _term
        | some stored =>
          if stored.coeff + _term.coeff = 0 then none
          else some ⟨stored.coeff + _term.coeff, _term.monomial⟩
      else (M.mTermMaps.getD _id []).lookup m := by
  have hget : ∀ newMap : MapType, (M.mTermMaps.set _id newMap).getD _id [] = newMap := by
    intro newMap
    simp [List.getD_eq_getElem?_getD, List.getElem?_set, hid]
  unfold TermAdditionManager.addTerm at h
  by_cases h1 : M.mUsers[_id]? ≠ some (some _user)
  · rw [if_pos h1] at h
    exact absurd h (by simp)
  rw [if_neg h1] at h
  by_cases h2 : ¬ ((M.mTermMaps.getD _id []).length < M.mCapacity.getD _id 0)
  · rw [if_pos h2] at h
    exact absurd h (by simp)
  rw [if_neg h2] at h
  cases hl : (M.mTermMaps.getD _id []).lookup _term.monomial with
  | none =>
    rw [hl] at h
    have key : ∀ M2 : TermAdditionManager,
        M2.mTermMaps = M.mTermMaps.set _id (M.mTermMaps.getD _id [] ++ [(_term.monomial, _term)]) →
        some M2 = some M1 →
        M1.mTermMaps.length = M.mTermMaps.length ∧
        ∀ m, (M1.mTermMaps.getD _id []).lookup m =
          if m = _term.monomial then some _term else (M.mTermMaps.getD _id []).lookup m := by
      intro M2 hM2 heq
      injection heq with heq
      rw [← heq, hM2]
      refine ⟨by simp, fun m => ?_⟩
      rw [hget, lookup_emplace _ _ _ _ hl]
    simp only at h
    split at h
    · split_ifs at h
      exact key _ rfl h
    · split at h
      · exact key _ rfl h
      · exact absurd h (by simp)
      · split_ifs at h
        · exact key _ rfl h
        · exact key _ rfl h
  | some stored =>
    rw [hl] at h
    simp only at h
    split_ifs at h with h3
    · injection h with h
      rw [← h]
      refine ⟨by simp, fun m => ?_⟩
      simp only [hget, lookup_erase, h3, if_true]
    · injection h with h
      rw [← h]
      refine ⟨by simp, fun m => ?_⟩
      simp only [hget, lookup_replace, hl, Option.map_some', h3, if_false]

/-- The sum of the coefficients over a list with one more term in front. -/
theorem coeffSum_cons (t : Term) (ts : List Term) (m : Option Monomial) :
    coeffSum (t :: ts) m = (if t.monomial = m then t.coeff else 0) + coeffSum ts m := by
  unfold coeffSum
  by_cases h : t.monomial = m <;> simp [List.filter_cons, h]

/-- The map after a sequence of successful calls of `addTerm`: when the map
held for every monomial the nonzero value of `S0`, it holds afterwards the
nonzero value of `S0` plus the sum of the coefficients added. -/
theorem addTerms_lookup (less : Monomial → Monomial → Bool) (_user _id : Nat) :
    ∀ (ts : List Term) (M M1 : TermAdditionManager) (S0 : Option Monomial → ℚ),
      _id < M.mTermMaps.length →
      (∀ t ∈ ts, t.coeff ≠ 0) →
      (∀ m, (M.mTermMaps.getD _id []).lookup m = if S0 m = 0 then none else some ⟨S0 m, m⟩) →
      M.addTerms less _user _id ts = some M1 →
      ∀ m, (M1.mTermMaps.getD _id []).lookup m =
        if S0 m + coeffSum ts m = 0 then none else some ⟨S0 m + coeffSum ts m, m⟩ := by
  intro ts
  induction ts with
  | nil =>
    intro M M1 S0 _ _ hinv h m
    simp only [TermAdditionManager.addTerms, Option.some.injEq] at h
    rw [← h, hinv m]
    simp [coeffSum]
  | cons t rest ih =>
    intro M M1 S0 hid hcoeff hinv h m
    simp only [TermAdditionManager.addTerms] at h
    cases hstep : M.addTerm less _user _id t with
    | none =>
      rw [hstep] at h
      exact absurd h (by simp)
    | some M2 =>
      rw [hstep] at h
      simp only at h
      obtain ⟨hlen, hmap⟩ := addTerm_map less M M2 _user _id t hid hstep
      have ht : t.coeff ≠ 0 := hcoeff t (List.mem_cons_self _ _)
      have hinv2 : ∀ m, (M2.mTermMaps.getD _id []).lookup m =
          if S0 m + (if t.monomial = m then t.coeff else 0) = 0 then none
          else some ⟨S0 m + (if t.monomial = m then t.coeff else 0), m⟩ := by
        intro m
        rw [hmap m]
        by_cases hm : m = t.monomial
        · subst hm
          rw [if_pos rfl, hinv t.monomial]
          by_cases hS : S0 t.monomial = 0
          · simp [hS, ht]
          · simp only [hS, if_false, if_true]
        · have hm2 : ¬ t.monomial = m := fun h => hm h.symm
          rw [if_neg hm, hinv m]
          simp [hm2]
      have hres := ih M2 M1 (fun m => S0 m + (if t.monomial = m then t.coeff else 0))
        (by rw [hlen]; exact hid) (fun u hu => hcoeff u (List.mem_cons_of_mem _ hu)) hinv2 h m
      rw [coeffSum_cons, ← add_assoc]
      exact hres

/-- Reading a vector at the position that was just written. -/
theorem getD_set_self {α : Type} (l : List α) (i : Nat) (a d : α) (hi : i < l.length) :
    (l.set i a).getD i d = a := by
  simp [List.getD_eq_getElem?_getD, List.getElem?_set, hi]

/-- A state that accepts `room + 1` calls accepts one call with a positive
coefficient and accepts `room` calls afterwards. -/
theorem addTerm_accepts (less : Monomial → Monomial → Bool) (M : TermAdditionManager)
    (_user _id room : Nat) (_term : Term) (hpos : 0 < _term.coeff)
    (hacc : M.Accepts _user _id (room + 1)) :
    ∃ M1, M.addTerm less _user _id _term = some M1 ∧ M1.Accepts _user _id room := by
  obtain ⟨hu, hidM, hidL, hidC, hcap, hstored, hconst, hlead⟩ := hacc
  have h1 : ¬ (M.mUsers[_id]? ≠ some (some _user)) := not_not.mpr hu
  have h2 : ¬ ¬ ((M.mTermMaps.getD _id []).length < M.mCapacity.getD _id 0) := by
    rw [not_not]
    omega
  unfold TermAdditionManager.addTerm
  rw [if_neg h1, if_neg h2]
  -- the state after a new key was put behind
  have hnew : (M.mTermMaps.getD _id []).lookup _term.monomial = none →
      ∀ (L C : List MapIterator), _id < L.length → _id < C.length →
      (_term.monomial = none ∨ C.getD _id none = none) →
      (L.getD _id none = none ∨ ∃ lead, L.getD _id none = some (some lead) ∧
        ((M.mTermMaps.getD _id [] ++ [(_term.monomial, _term)]).lookup (some lead) ≠ none)) →
      (TermAdditionManager.mk M.mNextMapId M.mUsers
        (M.mTermMaps.set _id (M.mTermMaps.getD _id [] ++ [(_term.monomial, _term)]))
        M.mCapacity L C).Accepts _user _id room := by
    intro hl L C hL hC hCnew hLnew
    refine ⟨hu, by simpa using hidM, hL, hC, ?_, ?_, ?_, ?_⟩
    · simp only [getD_set_self _ _ _ _ hidM, List.length_append, List.length_singleton]
      omega
    · intro m stored hm
      simp only [getD_set_self _ _ _ _ hidM] at hm
      rw [lookup_emplace _ _ _ _ hl] at hm
      by_cases hmk : m = _term.monomial
      · rw [if_pos hmk] at hm
        injection hm with hm
        rw [← hm]
        exact hpos
      · rw [if_neg hmk] at hm
        exact hstored m stored hm
    · intro hnone
      simp only [getD_set_self _ _ _ _ hidM] at hnone
      rw [lookup_emplace _ _ _ _ hl] at hnone
      rcases hCnew with hk | hk
      · rw [if_pos hk.symm] at hnone
        exact absurd hnone (by simp)
      · exact hk
    · simp only [getD_set_self _ _ _ _ hidM]
      exact hLnew
  have hkeep : ∀ lead, (M.mTermMaps.getD _id []).lookup (some lead) ≠ none →
      (M.mTermMaps.getD _id []).lookup _term.monomial = none →
      (M.mTermMaps.getD _id [] ++ [(_term.monomial, _term)]).lookup (some lead) ≠ none := by
    intro lead hne hl
    rw [lookup_emplace _ _ _ _ hl]
    by_cases hk : some lead = _term.monomial
    · simp [hk]
    · rw [if_neg hk]
      exact hne
  cases hl : (M.mTermMaps.getD _id []).lookup _term.monomial with
  | none =>
    simp only
    cases hmon : _term.monomial with
    | none =>
      rw [hmon] at hl
      have hc := hconst hl
      simp only [hc, ne_eq, not_true_eq_false, if_false]
      refine ⟨_, rfl, ?_⟩
      have hacc2 := hnew (by rw [hmon]; exact hl) M.mLeadingTerms (M.mConstantTerms.set _id (some none))
        hidL (by simpa using hidC) (Or.inl hmon) ?_
      · rw [hmon] at hacc2
        exact hacc2
      · rcases hlead with h | ⟨lead, h, hne⟩
        · exact Or.inl h
        · exact Or.inr ⟨lead, h, hkeep lead hne (by rw [hmon]; exact hl)⟩
    | some mon =>
      rw [hmon] at hl
      have hconst2 : (M.mTermMaps.getD _id [] ++ [(some mon, _term)]).lookup none = none →
          M.mConstantTerms.getD _id none = none := by
        intro hnone
        rw [lookup_emplace _ _ _ _ hl, if_neg (by simp)] at hnone
        exact hconst hnone
      -- the accepted state with the constant iterator kept
      have hnew2 : ∀ (L : List MapIterator), _id < L.length →
          (L.getD _id none = none ∨ ∃ lead, L.getD _id none = some (some lead) ∧
            ((M.mTermMaps.getD _id [] ++ [(some mon, _term)]).lookup (some lead) ≠ none)) →
          (TermAdditionManager.mk M.mNextMapId M.mUsers
            (M.mTermMaps.set _id (M.mTermMaps.getD _id [] ++ [(some mon, _term)]))
            M.mCapacity L M.mConstantTerms).Accepts _user _id room := by
        intro L hL hLnew
        refine ⟨hu, by simpa using hidM, hL, hidC, ?_, ?_, ?_, ?_⟩
        · simp only [getD_set_self _ _ _ _ hidM, List.length_append, List.length_singleton]
          omega
        · intro m stored hm
          simp only [getD_set_self _ _ _ _ hidM] at hm
          rw [lookup_emplace _ _ _ _ hl] at hm
          by_cases hmk : m = some mon
          · rw [if_pos hmk] at hm
            injection hm with hm
            rw [← hm]
            exact hpos
          · rw [if_neg hmk] at hm
            exact hstored m stored hm
        · intro hnone
          simp only [getD_set_self _ _ _ _ hidM] at hnone
          exact hconst2 hnone
        · simp only [getD_set_self _ _ _ _ hidM]
          exact hLnew
      have hself : (M.mTermMaps.getD _id [] ++ [(some mon, _term)]).lookup (some mon) ≠ none := by
        rw [lookup_emplace _ _ _ _ hl]
        simp
      have hset : ((M.mLeadingTerms.set _id (some (some mon))).getD _id none = none ∨
          ∃ lead, (M.mLeadingTerms.set _id (some (some mon))).getD _id none = some (some lead) ∧
            ((M.mTermMaps.getD _id [] ++ [(some mon, _term)]).lookup (some lead) ≠ none)) :=
        Or.inr ⟨mon, getD_set_self _ _ _ _ hidL, hself⟩
      simp only
      rcases hlead with h | ⟨lead, h, hne⟩
      · rw [h]
        exact ⟨_, rfl, hnew2 _ (by simpa using hidL) hset⟩
      · rw [h]
        simp only
        have hsome : ((M.mTermMaps.getD _id []).lookup (some lead)).isNone = false := by
          cases hq : (M.mTermMaps.getD _id []).lookup (some lead) with
          | none => exact absurd hq hne
          | some _ => rfl
        rw [hsome]
        simp only [Bool.false_eq_true, if_false]
        by_cases hless : less lead mon = true
        · rw [if_pos hless]
          exact ⟨_, rfl, hnew2 _ (by simpa using hidL) hset⟩
        · rw [if_neg hless]
          refine ⟨_, rfl, hnew2 _ hidL (Or.inr ⟨lead, h, ?_⟩)⟩
          rw [lookup_emplace _ _ _ _ hl]
          by_cases hk : some lead = some mon
          · simp [hk]
          · rw [if_neg hk]
            exact hne
  | some stored =>
    have hs := hstored _ stored hl
    have hsum : ¬ (stored.coeff + _term.coeff = 0) := by
      intro h0
      linarith
    simp only [hsum, if_false]
    refine ⟨_, rfl, hu, by simpa using hidM, hidL, hidC, ?_, ?_, ?_, ?_⟩
    · simp only [getD_set_self _ _ _ _ hidM, List.length_map]
      omega
    · intro m st hm
      simp only [getD_set_self _ _ _ _ hidM] at hm
      rw [lookup_replace] at hm
      by_cases hmk : m = _term.monomial
      · rw [if_pos hmk, hl] at hm
        simp only [Option.map_some', Option.some.injEq] at hm
        rw [← hm]
        show 0 < stored.coeff + _term.coeff
        linarith
      · rw [if_neg hmk] at hm
        exact hstored m st hm
    · intro hnone
      simp only [getD_set_self _ _ _ _ hidM] at hnone
      rw [lookup_replace] at hnone
      by_cases hmk : none = _term.monomial
      · rw [if_pos hmk, hl] at hnone
        exact absurd hnone (by simp)
      · rw [if_neg hmk] at hnone
        exact hconst hnone
    · rcases hlead with h | ⟨lead, h, hne⟩
      · exact Or.inl h
      · refine Or.inr ⟨lead, h, ?_⟩
        simp only [getD_set_self _ _ _ _ hidM]
        rw [lookup_replace]
        by_cases hmk : some lead = _term.monomial
        · rw [if_pos hmk, hl]
          simp
        · rw [if_neg hmk]
          exact hne

/-- A state that accepts as many calls as the list has terms accepts the
whole sequence when the coefficients are positive. -/
theorem addTerms_accepts (less : Monomial → Monomial → Bool) (_user _id : Nat) :
    ∀ (ts : List Term) (M : TermAdditionManager),
      (∀ t ∈ ts, 0 < t.coeff) → M.Accepts _user _id ts.length →
      ∃ M1, M.addTerms less _user _id ts = some M1 := by
  intro ts
  induction ts with
  | nil =>
    intro M _ _
    exact ⟨M, rfl⟩
  | cons t rest ih =>
    intro M hpos hacc
    obtain ⟨M2, hstep, hacc2⟩ := addTerm_accepts less M _user _id rest.length t
      (hpos t (List.mem_cons_self _ _)) hacc
    obtain ⟨M1, hM1⟩ := ih M2 (fun u hu => hpos u (List.mem_cons_of_mem _ hu)) hacc2
    refine ⟨M1, ?_⟩
    simp only [TermAdditionManager.addTerms, hstep]
    exact hM1

/-- The state that `getTermMapId` returns: the map of the id is empty and the
state accepts as many calls as were reserved. -/
theorem getTermMapId_accepts (M M0 : TermAdditionManager)
    (_user _expectedSize capacity _id : Nat)
    (h : M.getTermMapId _user _expectedSize capacity = some (_id, M0)) :
    _id < M0.mTermMaps.length ∧ M0.mTermMaps.getD _id [] = [] ∧
    (_id < M.mCapacity.length → M0.Accepts _user _id _expectedSize) := by
  unfold TermAdditionManager.getTermMapId at h
  split at h
  · rename_i hu hm hl hc
    simp only [Option.some.injEq, Prod.mk.injEq] at h
    obtain ⟨h1, h2⟩ := h
    subst h1
    subst h2
    have hidU : M.mNextMapId < M.mUsers.length := by
      by_contra hlt
      rw [List.getElem?_eq_none (by omega)] at hu
      exact absurd hu (by simp)
    have hidM : M.mNextMapId < M.mTermMaps.length := by
      by_contra hlt
      rw [List.getElem?_eq_none (by omega)] at hm
      exact absurd hm (by simp)
    have hidL : M.mNextMapId < M.mLeadingTerms.length := by
      by_contra hlt
      rw [List.getElem?_eq_none (by omega)] at hl
      exact absurd hl (by simp)
    have hidC : M.mNextMapId < M.mConstantTerms.length := by
      by_contra hlt
      rw [List.getElem?_eq_none (by omega)] at hc
      exact absurd hc (by simp)
    have hmap : M.mTermMaps.getD M.mNextMapId [] = [] := by
      simp [List.getD_eq_getElem?_getD, hm]
    refine ⟨hidM, hmap, fun hcap => ⟨?_, hidM, hidL, hidC, ?_, ?_, ?_, ?_⟩⟩
    · simp [List.getElem?_set, hidU]
    · simp only [hmap, List.length_nil, Nat.zero_add, getD_set_self _ _ _ _ hcap]
      exact le_max_of_le_right (le_max_right _ _)
    · intro m stored hs
      simp only [hmap, List.lookup_nil] at hs
      exact absurd hs (by simp)
    · intro _
      simp [List.getD_eq_getElem?_getD, hc]
    · exact Or.inl (by simp [List.getD_eq_getElem?_getD, hl])
  · exact absurd h (by simp)

/-- On a map that was just reserved, when all calls of `addTerm` of a sequence
of terms with nonzero coefficients return, the map holds for every monomial
the term whose coefficient is the sum of the coefficients added for it when
that sum is not zero, and no term when the sum is zero; the calls all return
when the coefficients are positive and the terms are not more than the
reserved size. -/
theorem addTerms_reserved (less : Monomial → Monomial → Bool) (M M0 : TermAdditionManager)
    (_user _expectedSize capacity _id : Nat) (ts : List Term)
    (hres : M.getTermMapId _user _expectedSize capacity = some (_id, M0))
    (hcoeff : ∀ t ∈ ts, t.coeff ≠ 0) :
    (∀ M1, M0.addTerms less _user _id ts = some M1 →
      ∀ m, (M1.mTermMaps.getD _id []).lookup m =
        if coeffSum ts m = 0 then none else some ⟨coeffSum ts m, m⟩) ∧
    ((∀ t ∈ ts, 0 < t.coeff) → ts.length ≤ _expectedSize → _id < M.mCapacity.length →
      ∃ M1, M0.addTerms less _user _id ts = some M1) := by
  obtain ⟨hid, hmap, hacc⟩ := getTermMapId_accepts M M0 _user _expectedSize capacity _id hres
  constructor
  · intro M1 h1 m
    have h := addTerms_lookup less _user _id ts M0 M1 (fun _ => 0) hid hcoeff
      (by intro m; rw [hmap]; simp) h1 m
    simpa using h
  · intro hpos hlen hcap
    obtain ⟨hu, h2, h3, h4, h5, h6, h7, h8⟩ := hacc hcap
    exact addTerms_accepts less _user _id ts M0 hpos
      ⟨hu, h2, h3, h4, by omega, h6, h7, h8⟩

/-- C36 (the code at the failing inputs): on a map reserved for three terms,
whatever capacity the map has, the terms `1` and `-1` leave the map empty and
the recorded constant term on the erased entry, and the third call, with the
term `1`, fails the assertion of line 112, although the sum of the constant
coefficients is 1; the terms `x` and `-x` leave the recorded leading term on
the erased entry, and the third call, with the term `y`, reads that entry at
line 116, although the sum of the coefficients of `y` is 1. -/
theorem addTerm_refuses (less : Monomial → Monomial → Bool) (capacity : Nat) :
    managerAfter less 3 capacity [oneTerm, minusOneTerm] =
      some ⟨0, [some 7], [[]], [max capacity 3], [none], [some none]⟩ ∧
    (TermAdditionManager.mk 0 [some 7] [[]] [max capacity 3] [none] [some none]).addTerm
      less 7 0 oneTerm = none ∧
    managerAfter less 3 capacity [oneTerm, minusOneTerm, oneTerm] = none ∧
    coeffSum [oneTerm, minusOneTerm, oneTerm] none = 1 ∧
    managerAfter less 3 capacity [xTerm, minusXTerm] =
      some ⟨0, [some 7], [[]], [max capacity 3], [some (some [(0, 1)])], [none]⟩ ∧
    (TermAdditionManager.mk 0 [some 7] [[]] [max capacity 3] [some (some [(0, 1)])]
      [none]).addTerm less 7 0 yTerm = none ∧
    managerAfter less 3 capacity [xTerm, minusXTerm, yTerm] = none ∧
    coeffSum [xTerm, minusXTerm, yTerm] (some [(1, 1)]) = 1 := by
  refine ⟨?_, ?_, ?_, ?_, ?_, ?_, ?_, ?_⟩
  · norm_num [managerAfter, TermAdditionManager.create, TermAdditionManager.getTermMapId,
      TermAdditionManager.addTerms, TermAdditionManager.addTerm, oneTerm, minusOneTerm,
      MapIterator.erase, lt_max_iff]
  · simp [TermAdditionManager.addTerm, oneTerm, lt_max_iff]
  · simp [managerAfter, TermAdditionManager.create, TermAdditionManager.getTermMapId,
      TermAdditionManager.addTerms, TermAdditionManager.addTerm, oneTerm, minusOneTerm,
      MapIterator.erase, lt_max_iff]
  · simp [coeffSum, oneTerm, minusOneTerm]
  · norm_num [managerAfter, TermAdditionManager.create, TermAdditionManager.getTermMapId,
      TermAdditionManager.addTerms, TermAdditionManager.addTerm, xTerm, minusXTerm,
      MapIterator.erase, lt_max_iff]
  · simp [TermAdditionManager.addTerm, yTerm, lt_max_iff]
  · simp [managerAfter, TermAdditionManager.create, TermAdditionManager.getTermMapId,
      TermAdditionManager.addTerms, TermAdditionManager.addTerm, xTerm, minusXTerm, yTerm,
      MapIterator.erase, lt_max_iff]
  · simp [coeffSum, xTerm, minusXTerm, yTerm]

/-! ## The Horner scheme: the selected variable -/

/-- With the strategies GREEDY_I and GREEDY_Is a round of the loop leaves
`bestDelta` as it is. -/
theorem step_bestDelta (s : Strategy) (delta : Pol → Variable → ℚ) (inPut : Pol)
    (st : Selection) (v : Variable) (hs : s = Strategy.GREEDY_I ∨ s = Strategy.GREEDY_Is) :
    (Selection.step s delta inPut st v).bestDelta = st.bestDelta := by
  have h2 : ¬ (s = Strategy.GREEDY_II ∨ s = Strategy.GREEDY_IIs) := by
    rcases hs with h | h <;> rw [h] <;> decide
  unfold Selection.step
  simp only [hs, if_true, h2, if_false]
  split_ifs <;> rfl

/-- With the strategies GREEDY_I and GREEDY_Is the loop leaves `bestDelta` as
it is. -/
theorem foldl_bestDelta (s : Strategy) (delta : Pol → Variable → ℚ) (inPut : Pol)
    (hs : s = Strategy.GREEDY_I ∨ s = Strategy.GREEDY_Is) (vars : List Variable) :
    ∀ st : Selection,
      (vars.foldl (Selection.step s delta inPut) st).bestDelta = st.bestDelta := by
  induction vars with
  | nil => intro st; rfl
  | cons v vars ih =>
    intro st
    rw [List.foldl_cons, ih, step_bestDelta s delta inPut st v hs]

/-- A round of the loop leaves a variable selected when one was selected
before. -/
theorem step_isSome (s : Strategy) (delta : Pol → Variable → ℚ) (inPut : Pol)
    (st : Selection) (v : Variable) (h : st.selectedVariable.isSome = true) :
    (Selection.step s delta inPut st v).selectedVariable.isSome = true := by
  unfold Selection.step
  simp only
  split_ifs <;> first | exact h | rfl

/-- The loop leaves a variable selected when one was selected before. -/
theorem foldl_isSome (s : Strategy) (delta : Pol → Variable → ℚ) (inPut : Pol)
    (vars : List Variable) :
    ∀ st : Selection, st.selectedVariable.isSome = true →
      (vars.foldl (Selection.step s delta inPut) st).selectedVariable.isSome = true := by
  induction vars with
  | nil => intro st h; exact h
  | cons v vars ih =>
    intro st h
    rw [List.foldl_cons]
    exact ih _ (step_isSome s delta inPut st v h)

/-- With the strategies GREEDY_I and GREEDY_Is the first round of the loop
selects its variable. -/
theorem step_first_isSome (s : Strategy) (delta : Pol → Variable → ℚ) (inPut : Pol)
    (v : Variable) (hs : s = Strategy.GREEDY_I ∨ s = Strategy.GREEDY_Is) :
    (Selection.step s delta inPut ⟨none, 0, 0⟩ v).selectedVariable.isSome = true := by
  have h2 : ¬ (s = Strategy.GREEDY_II ∨ s = Strategy.GREEDY_IIs) := by
    rcases hs with h | h <;> rw [h] <;> decide
  unfold Selection.step
  simp [hs, h2]

/-- With the strategies GREEDY_I and GREEDY_Is the variable set for a scheme is
the first variable of the polynomial. -/
theorem selectVariable_greedy (s : Strategy) (delta : Pol → Variable → ℚ) (inPut : Pol)
    (hs : s = Strategy.GREEDY_I ∨ s = Strategy.GREEDY_Is) :
    MultivariateHorner.selectVariable s delta inPut = some inPut.gatherVariables.head? := by
  unfold MultivariateHorner.selectVariable
  cases hv : inPut.gatherVariables with
  | nil => rfl
  | cons first rest =>
    simp only [List.head?_cons]
    have hb := foldl_bestDelta s delta inPut hs (first :: rest) ⟨none, 0, 0⟩
    have hsome := foldl_isSome s delta inPut rest _ (step_first_isSome s delta inPut first hs)
    rw [← List.foldl_cons] at hsome
    split
    · rename_i hnone
      rw [hnone] at hsome
      exact absurd hsome (by decide)
    · rw [hb]
      simp

/-- C38 (the code at the failing input): in `x * y + y` the variable `x` occurs
in one term and `y` in two, the loop of the strategy GREEDY_I selects `y`, and
the variable set for the scheme is `x`; with GREEDY_I and GREEDY_Is the
variable set is the first variable of every polynomial. -/
theorem greedy_takes_first_variable (delta : Pol → Variable → ℚ) :
    xyPlusYPol.gatherVariables = [0, 1] ∧
    xyPlusYPol.monomialCounter 0 = 1 ∧ xyPlusYPol.monomialCounter 1 = 2 ∧
    (([0, 1] : List Variable).foldl (Selection.step Strategy.GREEDY_I delta xyPlusYPol)
      ⟨none, 0, 0⟩) = ⟨some 1, 2, 0⟩ ∧
    MultivariateHorner.selectVariable Strategy.GREEDY_I delta xyPlusYPol = some (some 0) ∧
    MultivariateHorner.selectVariable Strategy.GREEDY_Is delta xyPlusYPol = some (some 0) ∧
    (∀ inPut, MultivariateHorner.selectVariable Strategy.GREEDY_I delta inPut
      = some inPut.gatherVariables.head?) ∧
    (∀ inPut, MultivariateHorner.selectVariable Strategy.GREEDY_Is delta inPut
      = some inPut.gatherVariables.head?) := by
  have hv : xyPlusYPol.gatherVariables = [0, 1] := by decide
  have h0 : xyPlusYPol.monomialCounter 0 = 1 := by decide
  have h1 : xyPlusYPol.monomialCounter 1 = 2 := by decide
  refine ⟨hv, h0, h1, ?_, ?_, ?_, fun p => selectVariable_greedy _ delta p (Or.inl rfl),
    fun p => selectVariable_greedy _ delta p (Or.inr rfl)⟩
  · simp [Selection.step, h0, h1]
  · rw [selectVariable_greedy _ delta _ (Or.inl rfl), hv]
    rfl
  · rw [selectVariable_greedy _ delta _ (Or.inr rfl), hv]
    rfl

/-! ## The Horner scheme: the constructor -/

/-- The value of a child that is not null is the value of its scheme. -/
theorem childValue_of_ne_null {K : Type} (h : MultivariateHorner) (c v : K)
    (hne : h ≠ MultivariateHorner.null) : h.childValue c v = v := by
  cases h with
  | null => exact absurd rfl hne
  | node _ _ _ _ _ _ => rfl

/-- With the strategies GREEDY_II and GREEDY_IIs and a value `delta` of the
variable of the polynomial `x` that is not above zero, the loop assigns
nothing to the iterator, the test of line 146 dereferences it, and the
constructor returns no scheme. -/
theorem construct_never_assigned (s : Strategy) (delta : Pol → Variable → ℚ)
    (hs : s = Strategy.GREEDY_II ∨ s = Strategy.GREEDY_IIs) (hdelta : delta xPol 0 ≤ 0)
    (fuel : Nat) :
    MultivariateHorner.selectVariable s delta xPol = none ∧
    MultivariateHorner.construct s delta fuel xPol = none := by
  have h1 : ¬ (s = Strategy.GREEDY_I ∨ s = Strategy.GREEDY_Is) := by
    rcases hs with h | h <;> rw [h] <;> decide
  have hv : xPol.gatherVariables = [0] := by decide
  have hsel : MultivariateHorner.selectVariable s delta xPol = none := by
    unfold MultivariateHorner.selectVariable
    rw [hv]
    simp [Selection.step, h1, hs, not_lt.mpr hdelta]
  refine ⟨hsel, ?_⟩
  cases fuel with
  | zero => rfl
  | succ n =>
    unfold MultivariateHorner.construct
    rw [hsel]

/-- A scheme that is not null counts at least one. -/
theorem size_pos_of_ne_null (h : MultivariateHorner) (hne : h ≠ MultivariateHorner.null) :
    1 ≤ h.size := by
  cases h with
  | null => exact absurd rfl hne
  | node _ _ _ _ _ _ => simp [MultivariateHorner.size]; omega

/-- With fuel not below the size, `simplify` returns a scheme that is not
larger and denotes the same polynomial function. -/
theorem simplify_denotes :
    ∀ (fuel : Nat) (h : MultivariateHorner), h ≠ MultivariateHorner.null → h.size ≤ fuel →
      ∃ h1, simplify fuel h = some h1 ∧ h1 ≠ MultivariateHorner.null ∧ h1.size ≤ h.size ∧
        ∀ (K : Type) [LinearOrderedField K] (σ : Variable → K), h1.eval σ = h.eval σ := by
  intro fuel
  induction fuel with
  | zero =>
    intro h hne hsize
    have := size_pos_of_ne_null h hne
    omega
  | succ n ih =>
    intro h hne hsize
    -- a child that is simplified when it is not null
    have hchild : ∀ c : MultivariateHorner, c.size ≤ n →
        ∃ c1, (if c ≠ MultivariateHorner.null then simplify n c
            else some MultivariateHorner.null) = some c1 ∧
          c1.size ≤ c.size ∧
          ∀ (K : Type) [LinearOrderedField K] (σ : Variable → K) (const : K),
            c1.childValue const (c1.eval σ) = c.childValue const (c.eval σ) := by
      intro c hc
      by_cases hcn : c = MultivariateHorner.null
      · refine ⟨MultivariateHorner.null, by rw [if_neg (not_not.mpr hcn)], by simp [hcn], ?_⟩
        intro K _ σ const
        rw [hcn]
      · obtain ⟨c1, h1, h2, h3, h4⟩ := ih c hcn hc
        refine ⟨c1, by rw [if_pos hcn, h1], h3, ?_⟩
        intro K _ σ const
        rw [childValue_of_ne_null c1 _ _ h2, childValue_of_ne_null c _ _ hcn]
        exact h4 K σ
    cases h with
    | null => exact absurd rfl hne
    | node dep indep constDep constIndep var exp =>
      simp only [MultivariateHorner.size] at hsize
      cases dep with
      | null =>
        simp only [simplify]
        by_cases hi : indep ≠ MultivariateHorner.null
        · rw [if_pos hi]
          obtain ⟨i1, h1, h2, h3, h4⟩ := ih indep hi (by simp only [MultivariateHorner.size] at hsize; omega)
          rw [h1]
          refine ⟨_, rfl, by simp, ?_, ?_⟩
          · simp only [MultivariateHorner.size]
            omega
          · intro K _ σ
            simp only [MultivariateHorner.eval]
            rw [childValue_of_ne_null i1 _ _ h2, childValue_of_ne_null indep _ _ hi, h4 K σ]
        · rw [if_neg hi]
          exact ⟨_, rfl, by simp, le_refl _, fun K _ σ => rfl⟩
      | node depDep depIndep depConstDep depConstIndep depVar depExp =>
        simp only [MultivariateHorner.size] at hsize
        simp only [simplify]
        by_cases hcond : (depDep ≠ MultivariateHorner.null ∨ depConstDep ≠ 0) ∧
            depIndep = MultivariateHorner.null ∧ depConstIndep = 0
        · rw [if_pos hcond]
          by_cases hvar : var = depVar
          · rw [if_pos hvar]
            obtain ⟨hdd, hdi, hdc⟩ := hcond
            -- the dependent scheme of the dependent scheme
            have hdep : ∃ newDep newConstDep,
                (if depDep ≠ MultivariateHorner.null
                  then (simplify n depDep).map (fun h => (h, constDep))
                  else some (MultivariateHorner.null, depConstDep)) = some (newDep, newConstDep) ∧
                newDep.size ≤ depDep.size ∧
                ∀ (K : Type) [LinearOrderedField K] (σ : Variable → K),
                  newDep.childValue (newConstDep : K) (newDep.eval σ)
                    = depDep.childValue (depConstDep : K) (depDep.eval σ) := by
              by_cases hn : depDep ≠ MultivariateHorner.null
              · obtain ⟨d1, h1, h2, h3, h4⟩ := ih depDep hn (by omega)
                refine ⟨d1, constDep, by rw [if_pos hn, h1]; rfl, h3, ?_⟩
                intro K _ σ
                rw [childValue_of_ne_null d1 _ _ h2, childValue_of_ne_null depDep _ _ hn]
                exact h4 K σ
              · refine ⟨MultivariateHorner.null, depConstDep, by rw [if_neg hn], ?_, ?_⟩
                · simp [MultivariateHorner.size]
                · intro K _ σ
                  rw [not_not.mp hn]
            obtain ⟨newDep, newConstDep, h1, h2, h3⟩ := hdep
            obtain ⟨newIndep, h4, h5, h6⟩ := hchild indep (by omega)
            rw [h1, h4]
            simp only
            obtain ⟨r, hr1, hr2, hr3, hr4⟩ := ih
              (MultivariateHorner.node newDep newIndep newConstDep constIndep var (exp + depExp))
              (by simp) (by simp only [MultivariateHorner.size]; omega)
            refine ⟨r, hr1, hr2, ?_, ?_⟩
            · simp only [MultivariateHorner.size] at hr3 ⊢
              omega
            · intro K _ σ
              rw [hr4 K σ]
              simp only [MultivariateHorner.eval]
              rw [h3 K σ, h6 K σ, hdi, hdc, hvar]
              simp only [MultivariateHorner.childValue, Rat.cast_zero, add_zero]
              rw [pow_add]
              ring
          · rw [if_neg hvar]
            exact ⟨_, rfl, by simp, le_refl _, fun K _ σ => rfl⟩
        · rw [if_neg hcond]
          obtain ⟨d1, h1, h2, h3, h4⟩ := ih
            (MultivariateHorner.node depDep depIndep depConstDep depConstIndep depVar depExp)
            (by simp) (by simp only [MultivariateHorner.size]; omega)
          by_cases hi : indep = MultivariateHorner.null
          · rw [if_pos hi, h1]
            refine ⟨_, rfl, by simp, ?_, ?_⟩
            · simp only [MultivariateHorner.size, hi] at h3 ⊢
              omega
            · intro K _ σ
              rw [hi]
              simp only [MultivariateHorner.eval]
              rw [childValue_of_ne_null d1 _ _ h2, h4 K σ]
              simp only [MultivariateHorner.childValue, MultivariateHorner.eval]
          · rw [if_neg hi]
            obtain ⟨i1, j1, j2, j3, j4⟩ := ih indep hi (by omega)
            rw [h1, j1]
            refine ⟨_, rfl, by simp, ?_, ?_⟩
            · simp only [MultivariateHorner.size] at h3 ⊢
              omega
            · intro K _ σ
              simp only [MultivariateHorner.eval]
              rw [childValue_of_ne_null d1 _ _ h2, childValue_of_ne_null i1 _ _ j2,
                childValue_of_ne_null indep _ _ hi, h4 K σ, j4 K σ]
              simp only [MultivariateHorner.childValue, MultivariateHorner.eval]

/-- C39: for every Horner scheme h, simplify(h) returns a scheme when the fuel
is not below the size of h, and the scheme denotes the same polynomial
function as h; a dependent scheme over the same variable that consists of a
constant is merged by adding the exponents. -/
theorem simplify_preserves (h : MultivariateHorner) (hne : h ≠ MultivariateHorner.null) :
    (∀ fuel, h.size ≤ fuel →
      ∃ h1, simplify fuel h = some h1 ∧ h1 ≠ MultivariateHorner.null ∧
        ∀ (K : Type) [LinearOrderedField K] (σ : Variable → K), h1.eval σ = h.eval σ) ∧
    (∀ (c constDep constIndep : ℚ) (var : Option Variable) (exp depExp fuel : Nat), c ≠ 0 →
      simplify (fuel + 2)
        (MultivariateHorner.node
          (MultivariateHorner.node MultivariateHorner.null MultivariateHorner.null c 0 var depExp)
          MultivariateHorner.null constDep constIndep var exp)
        = some (MultivariateHorner.node MultivariateHorner.null MultivariateHorner.null
            c constIndep var (exp + depExp))) := by
  constructor
  · intro fuel hfuel
    obtain ⟨h1, hs, hn, _, hval⟩ := simplify_denotes fuel h hne hfuel
    exact ⟨h1, hs, hn, hval⟩
  · intro c constDep constIndep var exp depExp fuel hc
    simp [simplify, hc]

/-- Instance of C39: `x * (2 * x) + 1` is simplified to `2 * x^2 + 1`. -/
theorem simplify_preserves_witness :
    MultivariateHorner.node
        (MultivariateHorner.node MultivariateHorner.null MultivariateHorner.null 2 0 (some 0) 1)
        MultivariateHorner.null 0 1 (some 0) 1 ≠ MultivariateHorner.null ∧
    simplify 2
        (MultivariateHorner.node
          (MultivariateHorner.node MultivariateHorner.null MultivariateHorner.null 2 0 (some 0) 1)
          MultivariateHorner.null 0 1 (some 0) 1)
      = some (MultivariateHorner.node MultivariateHorner.null MultivariateHorner.null
          2 1 (some 0) 2) ∧
    ∀ σ : Variable → ℚ,
      (MultivariateHorner.node MultivariateHorner.null MultivariateHorner.null
          2 1 (some 0) 2).eval σ =
        (MultivariateHorner.node
          (MultivariateHorner.node MultivariateHorner.null MultivariateHorner.null 2 0 (some 0) 1)
          MultivariateHorner.null 0 1 (some 0) 1).eval σ := by
  have hne : MultivariateHorner.node
      (MultivariateHorner.node MultivariateHorner.null MultivariateHorner.null 2 0 (some 0) 1)
      MultivariateHorner.null 0 1 (some 0) 1 ≠ MultivariateHorner.null := by simp
  have hthm := simplify_preserves _ hne
  have hs := hthm.2 2 0 1 (some 0) 1 1 0 (by norm_num)
  obtain ⟨h1, hh1, _, hval⟩ := hthm.1 2 (by decide)
  have heq : h1 = MultivariateHorner.node MultivariateHorner.null MultivariateHorner.null
      2 1 (some 0) 2 := by
    have := hh1.symm.trans hs
    injection this
  refine ⟨hne, hs, fun σ => ?_⟩
  rw [← heq]
  exact hval ℚ σ

end carl
